import Mathlib

/-!
# Kaleidoscope-Chord: the chord-resolution state machine

A shallow embedding of `plugins/Kaleidoscope-Chord/src/kaleidoscope/plugin/Chord.cpp`.

* Every member function of `Chord` becomes a function on an explicit state record `Chord`.
* `uint8_t` variables are natural numbers reduced `% 256` at every assignment, timestamps
  (`uint16_t`) are reduced `% 65536`.
* A read outside an array is undefined behaviour in C++; here it is the fault
  `Fault.outOfBounds`.  Every loop carries a counter of loop-condition evaluations that are still
  allowed; all loop variables are `uint8_t`, so a loop that has not left after `loopFuel = 256`
  evaluations has come back to a state it was in before and never leaves: that is the fault
  `Fault.noFuel`.
* `Runtime.handleKeyEvent(e)` hands `e` to the downstream dispatcher; the functions return the
  list of events handed over, in order.
* A run of the firmware is a sequence of `onKeyswitchEvent` and `afterEachCycle` calls
  (`Chord.run`); its output stream is what the calls hand to the dispatcher, followed, for each
  event, by the event itself when the handler answers `OK`.
-/

/-- A semantic key, by its raw value. Keys are only ever compared for equality. -/
abbrev Key := Nat

/-- Modelled from the spec: the constant `Key_NoKey` of `key_defs.h`, the reserved sentinel
value meaning "absent / no mapping". -/
def Key_NoKey : Key := 0

/-- What a run of the code can die of instead of returning. -/
inductive Fault where
  | outOfBounds
  | noFuel
  deriving DecidableEq, Repr

/-- The type `KeyEvent`: location, toggle state, semantic key and event id. -/
structure KeyEvent where
  addr : Nat
  state : Nat
  key : Key
  id : Int
  deriving DecidableEq, Repr, Inhabited

/-- The two values of `EventHandlerResult` the plugin returns. -/
inductive EventHandlerResult where
  | OK
  | ABORT
  deriving DecidableEq, Repr

/-- Declarations of headers the plugin uses and that are not among the sources: the toggle-state
test `keyToggledOn` (keyswitch_state.h), the two capability queries of `Key` and the key
constants named in `isExpectedBeforeChord` (key_defs.h). They are taken as parameters. -/
structure Platform where
  keyToggledOn : Nat → Bool
  isKeyboardModifier : Key → Bool
  isLayerShift : Key → Bool
  Key_Space : Key
  Key_Esc : Key
  Key_Tab : Key
  Key_LeftArrow : Key
  Key_RightArrow : Key
  Key_UpArrow : Key
  Key_DownArrow : Key

/-- The data members of the class `Chord`. `chord_defs_` is the flat table in read-only storage
and `chord_defs_size_` its separately tracked length; `potential_chord_` is the array of
`kMaxChordSize` slots and `potential_chord_size_` the number of slots in use. -/
structure Chord where
  chord_defs_ : List Key
  chord_defs_size_ : Nat
  potential_chord_ : List KeyEvent
  potential_chord_size_ : Nat
  start_time_ : Nat
  timeout_ : Nat
  prior_keypress_timestamp_ : Nat
  minimum_prior_interval_ : Nat
  deriving DecidableEq, Repr

/-- What one call of `onKeyswitchEvent` leaves behind: the new state, the event (passed by
reference, so the handler can rewrite it), the handler result and the events handed to the
dispatcher during the call. -/
structure Outcome where
  state : Chord
  event : KeyEvent
  result : EventHandlerResult
  emitted : List KeyEvent
  deriving DecidableEq, Repr

/-- Number of loop-condition evaluations granted to each loop. -/
def loopFuel : Nat := 256

/-- Modelled from the spec: `Runtime.hasTimeExpired(reference, duration)` of the clock
collaborator (Runtime.h is not among the sources): `now - reference ≥ duration`, the difference
taken in 16-bit wrap-around arithmetic. -/
def hasTimeExpired (now start ttl : Nat) : Bool :=
  decide ((ttl : Int) ≤ ((now : Int) - (start : Int)) % 65536)

namespace Chord

/-- Modelled from the spec: the capacity `kMaxChordSize` of the potential-chord buffer, declared
in Chord.h together with the array `KeyEvent potential_chord_[kMaxChordSize]`: the number of
slots of that array. -/
def kMaxChordSize (s : Chord) : Nat := s.potential_chord_.length

/-- The read `cloneFromProgmem(chord_defs_[i])`. -/
def readDef (s : Chord) (i : Nat) : Except Fault Key :=
  match s.chord_defs_.get? i with
  | some k => .ok k
  | none => .error .outOfBounds

/-- The read `potential_chord_[i]`, the index being an `int`. -/
def readEvent (s : Chord) (i : Int) : Except Fault KeyEvent :=
  if i < 0 then .error .outOfBounds
  else
    match s.potential_chord_.get? i.toNat with
    | some e => .ok e
    | none => .error .outOfBounds

/-- `Chord::resetPriorKeypressTimestamp`. -/
def resetPriorKeypressTimestamp (s : Chord) (now : Nat) : Chord :=
  { s with prior_keypress_timestamp_ :=
      (((now : Int) - ((s.minimum_prior_interval_ : Int) + 1)) % 65536).toNat }

/-- `Chord::isExpectedBeforeChord`. -/
def isExpectedBeforeChord (P : Platform) (key : Key) : Bool :=
  P.isKeyboardModifier key
    || P.isLayerShift key
    || key == P.Key_Space
    || key == P.Key_Esc
    || key == P.Key_Tab
    || key == P.Key_LeftArrow || key == P.Key_RightArrow || key == P.Key_UpArrow
    || key == P.Key_DownArrow

/-- The loop of `Chord::inChord`: `for (uint8_t i = index; index < chord_defs_size_ - 1; i++)`.
The condition tests `index`, as the source does. -/
def inChordLoop (s : Chord) (index : Nat) (key : Key) : Nat → Nat → Except Fault Bool
  | 0, _ => .error .noFuel
  | fuel + 1, i =>
    if (index : Int) < (s.chord_defs_size_ : Int) - 1 then
      match s.readDef i with
      | .error f => .error f
      | .ok chord_key =>
        if chord_key = Key_NoKey then .ok false
        else if chord_key = key then .ok true
        else inChordLoop s index key fuel ((i + 1) % 256)
    else .ok false

/-- `Chord::inChord`. -/
def inChord (s : Chord) (index : Nat) (key : Key) : Except Fault Bool :=
  s.inChordLoop index key loopFuel index

/-- The loop of `Chord::chordSize`, on the variables `i` and `size`. -/
def chordSizeLoop (s : Chord) : Nat → Nat → Nat → Except Fault Nat
  | 0, _, _ => .error .noFuel
  | fuel + 1, i, size =>
    if (i : Int) < (s.chord_defs_size_ : Int) - 1 then
      match s.readDef i with
      | .error f => .error f
      | .ok key =>
        if key = Key_NoKey then .ok size
        else chordSizeLoop s fuel ((i + 1) % 256) ((size + 1) % 256)
    else .ok size

/-- `Chord::chordSize`. -/
def chordSize (s : Chord) (index : Nat) : Except Fault Nat :=
  s.chordSizeLoop loopFuel index 0

/-- The loop of `Chord::isChordStrictSubsetOf`. -/
def isChordStrictSubsetOfLoop (s : Chord) (c : Nat) : Nat → Nat → Except Fault Bool
  | 0, _ => .error .noFuel
  | fuel + 1, i =>
    if i < s.potential_chord_size_ then
      match s.readEvent i with
      | .error f => .error f
      | .ok e =>
        match s.inChord c e.key with
        | .error f => .error f
        | .ok b =>
          if !b then .ok false
          else isChordStrictSubsetOfLoop s c fuel ((i + 1) % 256)
    else .ok true

/-- `Chord::isChordStrictSubsetOf`. -/
def isChordStrictSubsetOf (s : Chord) (c cs : Nat) : Except Fault Bool :=
  if cs ≤ s.potential_chord_size_ then .ok false
  else s.isChordStrictSubsetOfLoop c loopFuel 0

/-- The loop of `Chord::isChordStrictSubset`, on the variable `c`. -/
def isChordStrictSubsetLoop (s : Chord) : Nat → Nat → Except Fault Bool
  | 0, _ => .error .noFuel
  | fuel + 1, c =>
    if c < s.chord_defs_size_ then
      match s.chordSize c with
      | .error f => .error f
      | .ok cs =>
        match s.isChordStrictSubsetOf c cs with
        | .error f => .error f
        | .ok b =>
          if b then .ok true
          else isChordStrictSubsetLoop s fuel ((c + (cs + 2)) % 256)
    else .ok false

/-- `Chord::isChordStrictSubset`. -/
def isChordStrictSubset (s : Chord) : Except Fault Bool :=
  s.isChordStrictSubsetLoop loopFuel 0

/-- The loop of `Chord::isChord`. -/
def isChordLoop (s : Chord) (c : Nat) : Nat → Nat → Except Fault Bool
  | 0, _ => .error .noFuel
  | fuel + 1, i =>
    if i < s.potential_chord_size_ then
      match s.readEvent i with
      | .error f => .error f
      | .ok e =>
        match s.inChord c e.key with
        | .error f => .error f
        | .ok b =>
          if !b then .ok false
          else isChordLoop s c fuel ((i + 1) % 256)
    else .ok true

/-- `Chord::isChord`. -/
def isChord (s : Chord) (c cs : Nat) : Except Fault Bool :=
  if cs ≠ s.potential_chord_size_ then .ok false
  else s.isChordLoop c loopFuel 0

/-- The loop of `Chord::getChord`, on the variable `c`. -/
def getChordLoop (s : Chord) : Nat → Nat → Except Fault Key
  | 0, _ => .error .noFuel
  | fuel + 1, c =>
    if c < s.chord_defs_size_ then
      match s.chordSize c with
      | .error f => .error f
      | .ok cs =>
        match s.isChord c cs with
        | .error f => .error f
        | .ok b =>
          if b then s.readDef (c + cs + 1)
          else getChordLoop s fuel ((c + (cs + 2)) % 256)
    else .ok Key_NoKey

/-- `Chord::getChord`. -/
def getChord (s : Chord) : Except Fault Key :=
  s.getChordLoop loopFuel 0

/-- `Chord::appendEvent`. -/
def appendEvent (s : Chord) (event : KeyEvent) : Chord :=
  if s.potential_chord_size_ < s.kMaxChordSize then
    { s with
      potential_chord_ := s.potential_chord_.set s.potential_chord_size_ event
      potential_chord_size_ := (s.potential_chord_size_ + 1) % 256 }
  else s

/-- The loop of `Chord::arpeggiate`: the events handed to the dispatcher from index `i` on. -/
def arpeggiateLoop (s : Chord) : Nat → Nat → Except Fault (List KeyEvent)
  | 0, _ => .error .noFuel
  | fuel + 1, i =>
    if i < s.potential_chord_size_ then
      match s.readEvent i with
      | .error f => .error f
      | .ok event =>
        let restored_event : KeyEvent := ⟨event.addr, event.state, event.key, event.id⟩
        match arpeggiateLoop s fuel ((i + 1) % 256) with
        | .error f => .error f
        | .ok rest => .ok (restored_event :: rest)
    else .ok []

/-- `Chord::arpeggiate`: the new state and the events handed to the dispatcher. -/
def arpeggiate (s : Chord) : Except Fault (Chord × List KeyEvent) :=
  match s.arpeggiateLoop loopFuel 0 with
  | .error f => .error f
  | .ok out => .ok ({ s with potential_chord_size_ := 0 }, out)

/-- `Chord::resolve`: the new state and the events handed to the dispatcher. -/
def resolve (s : Chord) (now : Nat) (target_key : Key) : Except Fault (Chord × List KeyEvent) :=
  let s1 := s.resetPriorKeypressTimestamp now
  match s1.readEvent ((s1.potential_chord_size_ : Int) - 1) with
  | .error f => .error f
  | .ok event =>
    let restored_event : KeyEvent := ⟨event.addr, event.state, target_key, event.id⟩
    .ok ({ s1 with potential_chord_size_ := 0 }, [restored_event])

/-- `Chord::resolveOrArpeggiate`. -/
def resolveOrArpeggiate (s : Chord) (now : Nat) : Except Fault (Chord × List KeyEvent) :=
  match s.getChord with
  | .error f => .error f
  | .ok target_key =>
    if target_key = Key_NoKey then s.arpeggiate
    else s.resolve now target_key

/-- `Chord::onKeyswitchEvent`. `now` is `Runtime.millisAtCycleStart()` and `ignore` the answer of
`event_tracker_.shouldIgnore(event)`, both from collaborators outside the plugin. -/
def onKeyswitchEvent (P : Platform) (s : Chord) (now : Nat) (ignore : Bool) (event : KeyEvent) :
    Except Fault Outcome :=
  if ignore then .ok ⟨s, event, .OK, []⟩
  else if !P.keyToggledOn event.state then
    match s.resolveOrArpeggiate now with
    | .error f => .error f
    | .ok (s1, out) => .ok ⟨s1, event, .OK, out⟩
  else if s.potential_chord_size_ = 0
      ∧ !hasTimeExpired now s.prior_keypress_timestamp_ s.minimum_prior_interval_ then
    .ok ⟨s, event, .OK, []⟩
  else
    let s1 : Chord :=
      if s.potential_chord_size_ = 0 ∧ !isExpectedBeforeChord P event.key then
        { s with prior_keypress_timestamp_ := now % 65536 }
      else s
    let s2 := s1.appendEvent event
    match s2.isChordStrictSubset with
    | .error f => .error f
    | .ok true => .ok ⟨{ s2 with start_time_ := now % 65536 }, event, .ABORT, []⟩
    | .ok false =>
      match s2.getChord with
      | .error f => .error f
      | .ok target_key =>
        if target_key = Key_NoKey then
          let s3 : Chord :=
            { s2 with potential_chord_size_ := (s2.potential_chord_size_ + 255) % 256 }
          match s3.resolveOrArpeggiate now with
          | .error f => .error f
          | .ok (s4, out) => .ok ⟨s4, event, .OK, out⟩
        else
          let s3 := s2.resetPriorKeypressTimestamp now
          .ok ⟨{ s3 with potential_chord_size_ := 0 }, { event with key := target_key }, .OK, []⟩

/-- `Chord::afterEachCycle`; its result is always `EventHandlerResult::OK`. -/
def afterEachCycle (s : Chord) (now : Nat) : Except Fault (Chord × List KeyEvent) :=
  let first : Except Fault (Chord × List KeyEvent) :=
    if hasTimeExpired now s.start_time_ s.timeout_ ∧ s.potential_chord_size_ > 0 then
      s.resolveOrArpeggiate now
    else .ok (s, [])
  match first with
  | .error f => .error f
  | .ok (s1, out) =>
    if hasTimeExpired now s1.prior_keypress_timestamp_ s1.minimum_prior_interval_ then
      .ok (s1.resetPriorKeypressTimestamp now, out)
    else .ok (s1, out)

end Chord

/-! ## The table as a list of definitions, and the vocabulary of the statements -/

/-- One chord definition: its trigger keys in encoding order, and its output key. -/
structure ChordDef where
  triggers : List Key
  output : Key
  deriving DecidableEq, Repr

/-- The flat encoding of a list of definitions: the trigger keys, `Key_NoKey`, the output key,
repeated. -/
def encodeDefs : List ChordDef → List Key
  | [] => []
  | d :: ds => d.triggers ++ Key_NoKey :: d.output :: encodeDefs ds

/-- The index in the flat table at which the definition number `j` starts. -/
def defStart (ds : List ChordDef) (j : Nat) : Nat := (encodeDefs (ds.take j)).length

/-- A definition is well formed when its trigger run is non-empty and holds no `Key_NoKey`. -/
def ChordDef.WellFormed (d : ChordDef) : Prop := d.triggers ≠ [] ∧ Key_NoKey ∉ d.triggers

instance (d : ChordDef) : Decidable d.WellFormed := by
  unfold ChordDef.WellFormed; infer_instance

/-- The state holds the well-formed table that encodes `ds`: every definition is well formed,
`chord_defs_` is the flat encoding, `chord_defs_size_` its length, and that length fits the
`uint8_t` it is kept in. -/
def Chord.TableIs (s : Chord) (ds : List ChordDef) : Prop :=
  (∀ d ∈ ds, d.WellFormed) ∧ s.chord_defs_ = encodeDefs ds
    ∧ s.chord_defs_size_ = s.chord_defs_.length ∧ s.chord_defs_.length < 256

/-- The slots in use lie inside the array, and their number fits the `uint8_t` it is kept in. -/
def Chord.BufferOk (s : Chord) : Prop :=
  s.potential_chord_size_ ≤ s.potential_chord_.length ∧ s.potential_chord_size_ < 256

/-- The buffered events: the slots in use, in buffering order. -/
def Chord.buffer (s : Chord) : List KeyEvent := s.potential_chord_.take s.potential_chord_size_

/-- Definition `d` is encoded in the table from index `c` on. -/
def Chord.DefAt (s : Chord) (c : Nat) (d : ChordDef) : Prop :=
  ∃ rest, s.chord_defs_.drop c = d.triggers ++ Key_NoKey :: d.output :: rest

/-- The exact-match test on a definition, in terms of the buffered events. -/
def Chord.exactMatch (s : Chord) (d : ChordDef) : Bool :=
  decide (d.triggers.length = s.potential_chord_size_)
    && s.buffer.all (fun e => decide (e.key ∈ d.triggers))

/-- The strict-subset test on a definition, in terms of the buffered events. -/
def Chord.strictSubsetOf (s : Chord) (d : ChordDef) : Bool :=
  decide (s.potential_chord_size_ < d.triggers.length)
    && s.buffer.all (fun e => decide (e.key ∈ d.triggers))

/-- The output of the first definition of the list that the buffer matches exactly, `Key_NoKey`
when there is none. -/
def Chord.firstExact (s : Chord) : List ChordDef → Key
  | [] => Key_NoKey
  | d :: ds => if s.exactMatch d then d.output else s.firstExact ds

/-- Two states hold the same table and the same buffered events. -/
def Chord.SameLive (s s' : Chord) : Prop :=
  s.chord_defs_ = s'.chord_defs_ ∧ s.chord_defs_size_ = s'.chord_defs_size_
    ∧ s.potential_chord_size_ = s'.potential_chord_size_
    ∧ s.buffer = s'.buffer

/-- The key-down is refused by the quiet-interval guard: the buffer is empty and the interval has
not elapsed since `prior_keypress_timestamp_`. -/
def Chord.refusedByGuard (s : Chord) (now : Nat) : Prop :=
  s.potential_chord_size_ = 0
    ∧ hasTimeExpired now s.prior_keypress_timestamp_ s.minimum_prior_interval_ = false

/-! ## Example tables and states -/

/-- A state around a table and the events buffered so far, with room for ten events. -/
def exampleState (table : List Key) (held : List KeyEvent) : Chord :=
  { chord_defs_ := table
    chord_defs_size_ := table.length
    potential_chord_ := held ++ List.replicate (10 - held.length) default
    potential_chord_size_ := held.length
    start_time_ := 0
    timeout_ := 50
    prior_keypress_timestamp_ := 0
    minimum_prior_interval_ := 75 }

/-- A key press of key `k` at location `k` with event id `i`. -/
def press (k : Key) (i : Int) : KeyEvent := ⟨k, 2, k, i⟩

/-- Two definitions with the same trigger set: `{4,5} -> 27` and `{5,4} -> 29`. -/
def duplicateDefs : List ChordDef := [⟨[4, 5], 27⟩, ⟨[5, 4], 29⟩]

/-- A platform for the examples: a key is toggled on when its "is pressed" bit is set and its
"was pressed" bit is clear, the keyboard modifiers are the keys 224 to 231, there are no
layer-shift keys, and the named keys carry their USB HID usage codes. -/
def examplePlatform : Platform :=
  { keyToggledOn := fun st => st % 4 == 2
    isKeyboardModifier := fun k => decide (224 ≤ k) && decide (k ≤ 231)
    isLayerShift := fun _ => false
    Key_Space := 44
    Key_Esc := 41
    Key_Tab := 43
    Key_LeftArrow := 80
    Key_RightArrow := 79
    Key_UpArrow := 82
    Key_DownArrow := 81 }

/-- The single definition `{4,5} -> 27`. -/
def singleDef : List ChordDef := [⟨[4, 5], 27⟩]

/-- The definitions `{4,5} -> 27` and `{4,5,6} -> 28`: the first trigger set is a strict subset
of the second. -/
def subsetDefs : List ChordDef := [⟨[4, 5], 27⟩, ⟨[4, 5, 6], 28⟩]

/-- One definition with eleven trigger keys, `{4,...,14} -> 27`: one more than the example
buffer has slots. -/
def elevenKeyDef : List ChordDef := [⟨[4, 5, 6, 7, 8, 9, 10, 11, 12, 13, 14], 27⟩]

/-- Ten buffered key presses, of the keys 4 to 13: the example buffer is full. -/
def tenPresses : List KeyEvent :=
  [press 4 1, press 5 2, press 6 3, press 7 4, press 8 5, press 9 6, press 10 7, press 11 8,
    press 12 9, press 13 10]

/-! ## Sequences of calls -/

/-- One call of the firmware into the plugin: `onKeyswitchEvent` with the clock value, the
answer of the de-duplication tracker and the event, or `afterEachCycle` with the clock value. -/
inductive Call where
  | keyswitch (now : Nat) (ignore : Bool) (event : KeyEvent)
  | cycle (now : Nat)
  deriving DecidableEq, Repr

/-- What one call of `onKeyswitchEvent` sends on to the rest of the pipeline: the events handed
to the dispatcher during the call, then the event itself when the handler returns `OK`; an event
answered with `ABORT` goes no further. -/
def Outcome.output (o : Outcome) : List KeyEvent :=
  o.emitted ++ (if o.result = .OK then [o.event] else [])

/-- One call: the new state and what the call sends on. -/
def Chord.call (P : Platform) (s : Chord) : Call → Except Fault (Chord × List KeyEvent)
  | .keyswitch now ignore event =>
    match s.onKeyswitchEvent P now ignore event with
    | .error f => .error f
    | .ok o => .ok (o.state, o.output)
  | .cycle now => s.afterEachCycle now

/-- A sequence of calls: the final state and everything sent on, in order. -/
def Chord.run (P : Platform) : Chord → List Call → Except Fault (Chord × List KeyEvent)
  | s, [] => .ok (s, [])
  | s, c :: cs =>
    match s.call P c with
    | .error f => .error f
    | .ok (s1, out1) =>
      match Chord.run P s1 cs with
      | .error f => .error f
      | .ok (s2, out2) => .ok (s2, out1 ++ out2)

/-- The events of the `onKeyswitchEvent` calls of a sequence, in order. -/
def keyswitchEvents : List Call → List KeyEvent
  | [] => []
  | .keyswitch _ _ event :: cs => event :: keyswitchEvents cs
  | .cycle _ :: cs => keyswitchEvents cs

/-- The example state with the table `{4,5} -> 27`, the empty buffer and the guard armed at
clock value 1000. -/
def armedState : Chord :=
  { exampleState (encodeDefs singleDef) [] with prior_keypress_timestamp_ := 1000 }

/-- The buffer waits for more keys of some definition: it is empty, or some definition of the
table has more trigger keys than there are buffered events and holds the key of every buffered
event among its trigger keys. -/
def Chord.Waiting (s : Chord) (ds : List ChordDef) : Prop :=
  s.potential_chord_size_ = 0
    ∨ ∃ d ∈ ds, s.potential_chord_size_ < d.triggers.length ∧ ∀ e ∈ s.buffer, e.key ∈ d.triggers

/-- The invariant of the states reached from the empty buffer: the table is the well-formed
table `ds`, the buffer lies inside an array of between 1 and 255 slots, it waits for more keys
of some definition, and every buffered event is a key-down. -/
def Chord.Inv (P : Platform) (ds : List ChordDef) (s : Chord) : Prop :=
  s.TableIs ds ∧ s.BufferOk ∧ 0 < s.kMaxChordSize ∧ s.kMaxChordSize < 256 ∧ s.Waiting ds
    ∧ ∀ e ∈ s.buffer, P.keyToggledOn e.state = true

/-- The key-down events among the events of the `onKeyswitchEvent` calls of a sequence, in
order. -/
def keyDowns (P : Platform) : List Call → List KeyEvent
  | [] => []
  | .keyswitch _ _ event :: cs =>
    if P.keyToggledOn event.state = true then event :: keyDowns P cs else keyDowns P cs
  | .cycle _ :: cs => keyDowns P cs

/-- The call is not one that the de-duplication tracker asks to ignore. -/
def Call.NotIgnored : Call → Prop
  | .keyswitch _ ignore _ => ignore = false
  | .cycle _ => True

/-- One event of the output stream together with the received key-downs it accounts for. -/
structure Entry where
  out : KeyEvent
  covers : List KeyEvent

/-- The entry is a legitimate account: the output event is a release and accounts for no
key-down; or it is a key-down sent on unchanged and accounts for itself; or it is the
substitution event of a definition (location, toggle state and id of the last covered key-down,
key the output key) and accounts for as many key-downs as the definition has trigger keys, all
with keys among these trigger keys. -/
def Entry.Accounts (P : Platform) (ds : List ChordDef) (it : Entry) : Prop :=
  (it.covers = [] ∧ P.keyToggledOn it.out.state = false)
    ∨ (it.covers = [it.out] ∧ P.keyToggledOn it.out.state = true)
    ∨ ∃ d ∈ ds, ∃ last, it.covers.getLast? = some last
        ∧ it.out = ⟨last.addr, last.state, d.output, last.id⟩ ∧ d.output ≠ Key_NoKey
        ∧ d.triggers.length = it.covers.length ∧ ∀ e ∈ it.covers, e.key ∈ d.triggers

/-- The key-downs accounted for by a list of entries, in order. -/
def coveredKeyDowns : List Entry → List KeyEvent
  | [] => []
  | it :: rest => it.covers ++ coveredKeyDowns rest

/-- The output events of a list of entries, in order. -/
def outputEvents : List Entry → List KeyEvent
  | [] => []
  | it :: rest => it.out :: outputEvents rest

/-- The entries of events sent on unchanged, each accounting for itself. -/
def plainEntries : List KeyEvent → List Entry
  | [] => []
  | e :: rest => ⟨e, [e]⟩ :: plainEntries rest

instance (c : Call) : Decidable c.NotIgnored := by
  cases c <;> unfold Call.NotIgnored <;> infer_instance

/-- The key-downs of the keys 4 to 14, none ignored, at the clock values 1000 to 1010, and then
a cycle boundary at 2000, long after the chord timeout. -/
def elevenKeyDowns : List Call :=
  [.keyswitch 1000 false (press 4 1), .keyswitch 1001 false (press 5 2),
    .keyswitch 1002 false (press 6 3), .keyswitch 1003 false (press 7 4),
    .keyswitch 1004 false (press 8 5), .keyswitch 1005 false (press 9 6),
    .keyswitch 1006 false (press 10 7), .keyswitch 1007 false (press 11 8),
    .keyswitch 1008 false (press 12 9), .keyswitch 1009 false (press 13 10),
    .keyswitch 1010 false (press 14 11), .cycle 2000]

/-! ## Tables that are not well formed -/

/-- The state holds a table made of the encoding of the definitions `ds`, each with a trigger run
that holds no `Key_NoKey` (the run may be empty), followed by the entries `tail`;
`chord_defs_size_` is the length of the table and fits the `uint8_t` it is kept in. With
`tail = []` every definition of the table is complete. -/
def Chord.TableParses (s : Chord) (ds : List ChordDef) (tail : List Key) : Prop :=
  (∀ d ∈ ds, Key_NoKey ∉ d.triggers) ∧ s.chord_defs_ = encodeDefs ds ++ tail
    ∧ s.chord_defs_size_ = s.chord_defs_.length ∧ s.chord_defs_.length < 256

/-- The keys 4 and 5 buffered since 995 on the table `{4,5} -> 27`, `{4,5,6} -> 28`, with the
guard armed at 990: the state after the key-downs of key 4 at 990 and of key 5 at 995. -/
def pendingChordState : Chord :=
  { exampleState (encodeDefs subsetDefs) [press 4 1, press 5 2] with
    start_time_ := 995, prior_keypress_timestamp_ := 990 }

/-! ## Reading the table -/

theorem Chord.readDef_of_drop (s : Chord) (i : Nat) (k : Key) (rest : List Key)
    (h : s.chord_defs_.drop i = k :: rest) : s.readDef i = .ok k := by
  have h1 : s.chord_defs_[i]? = some k := by
    rw [← List.head?_drop, h]; rfl
  simp [Chord.readDef, List.get?_eq_getElem?, h1]

theorem List.drop_succ_of_drop_cons {α : Type} (l : List α) (i : Nat) (x : α) (xs : List α)
    (h : l.drop i = x :: xs) : l.drop (i + 1) = xs := by
  rw [← List.tail_drop, h]; rfl

theorem List.lt_length_of_drop_cons {α : Type} (l : List α) (i : Nat) (x : α) (xs : List α)
    (h : l.drop i = x :: xs) : i + xs.length + 1 = l.length := by
  have := congrArg List.length h
  simp at this
  have hi : i < l.length := by
    by_contra hc
    have : l.drop i = [] := List.drop_eq_nil_of_le (by omega)
    rw [this] at h; cases h
  omega

/-- The loop of `inChord`, started inside a trigger run that `Key_NoKey` terminates, decides
membership in the rest of the run. -/
theorem Chord.inChordLoop_run (s : Chord) (index : Nat) (key : Key)
    (hidx : (index : Int) < (s.chord_defs_size_ : Int) - 1) (hlen : s.chord_defs_.length < 256) :
    ∀ (todo : List Key) (rest : List Key) (i fuel : Nat),
      s.chord_defs_.drop i = todo ++ Key_NoKey :: rest → Key_NoKey ∉ todo →
      todo.length < fuel →
      s.inChordLoop index key fuel i = .ok (decide (key ∈ todo)) := by
  intro todo
  induction todo with
  | nil =>
    intro rest i fuel hd _ hf
    obtain ⟨f, rfl⟩ : ∃ f, fuel = f + 1 := ⟨fuel - 1, by simp at hf; omega⟩
    have hr := s.readDef_of_drop i Key_NoKey rest (by simpa using hd)
    simp [Chord.inChordLoop, hidx, hr]
  | cons x xs ih =>
    intro rest i fuel hd hno hf
    obtain ⟨f, rfl⟩ : ∃ f, fuel = f + 1 := ⟨fuel - 1, by simp at hf; omega⟩
    have hr := s.readDef_of_drop i x (xs ++ Key_NoKey :: rest) (by simpa using hd)
    have hx : x ≠ Key_NoKey := fun h => hno (by simp [h])
    have hd' := List.drop_succ_of_drop_cons _ _ _ _ (by simpa using hd)
    have hl := List.lt_length_of_drop_cons _ _ _ _ (show s.chord_defs_.drop i = x :: (xs ++ Key_NoKey :: rest) by simpa using hd)
    have hi : (i + 1) % 256 = i + 1 := Nat.mod_eq_of_lt (by omega)
    have ih' := ih rest (i + 1) f hd' (fun h => hno (by simp [h])) (by simp at hf; omega)
    by_cases hk : x = key
    · subst hk
      simp [Chord.inChordLoop, hidx, hr, hx]
    · have hk' : ¬ key = x := fun h => hk h.symm
      simp [Chord.inChordLoop, hidx, hr, hx, hk, hk', hi, ih']

theorem Chord.chordSizeLoop_run (s : Chord) (hsz : s.chord_defs_size_ = s.chord_defs_.length)
    (hlen : s.chord_defs_.length < 256) :
    ∀ (todo : List Key) (out : Key) (rest : List Key) (i size fuel : Nat),
      s.chord_defs_.drop i = todo ++ Key_NoKey :: out :: rest → Key_NoKey ∉ todo →
      todo.length < fuel → size + todo.length < 256 →
      s.chordSizeLoop fuel i size = .ok (size + todo.length) := by
  intro todo
  induction todo with
  | nil =>
    intro out rest i size fuel hd _ hf _
    obtain ⟨f, rfl⟩ : ∃ f, fuel = f + 1 := ⟨fuel - 1, by simp at hf; omega⟩
    have hr := s.readDef_of_drop i Key_NoKey (out :: rest) (by simpa using hd)
    have hl := List.lt_length_of_drop_cons _ _ _ _ (show s.chord_defs_.drop i = Key_NoKey :: (out :: rest) by simpa using hd)
    have hc : (i : Int) < (s.chord_defs_size_ : Int) - 1 := by
      simp at hl; rw [hsz]; omega
    simp [Chord.chordSizeLoop, hc, hr]
  | cons x xs ih =>
    intro out rest i size fuel hd hno hf hs
    obtain ⟨f, rfl⟩ : ∃ f, fuel = f + 1 := ⟨fuel - 1, by simp at hf; omega⟩
    have hr := s.readDef_of_drop i x (xs ++ Key_NoKey :: out :: rest) (by simpa using hd)
    have hx : x ≠ Key_NoKey := fun h => hno (by simp [h])
    have hd' := List.drop_succ_of_drop_cons _ _ _ _ (by simpa using hd)
    have hl := List.lt_length_of_drop_cons _ _ _ _ (show s.chord_defs_.drop i = x :: (xs ++ Key_NoKey :: out :: rest) by simpa using hd)
    have hc : (i : Int) < (s.chord_defs_size_ : Int) - 1 := by
      simp at hl; rw [hsz]; omega
    have hi : (i + 1) % 256 = i + 1 := Nat.mod_eq_of_lt (by omega)
    have hs' : (size + 1) % 256 = size + 1 := Nat.mod_eq_of_lt (by simp at hs; omega)
    have ih' := ih out rest (i + 1) (size + 1) f hd' (fun h => hno (by simp [h]))
      (by simp at hf; omega) (by simp at hs; omega)
    simp [Chord.chordSizeLoop, hc, hr, hx, hi, hs', ih']
    omega

theorem Chord.DefAt.bound {s : Chord} {c : Nat} {d : ChordDef} (h : s.DefAt c d) :
    c + d.triggers.length + 2 ≤ s.chord_defs_.length := by
  obtain ⟨rest, h⟩ := h
  have h1 := congrArg List.length h
  simp at h1
  by_cases hc : c ≤ s.chord_defs_.length
  · omega
  · omega

theorem Chord.inChord_defAt {s : Chord} {c : Nat} {d : ChordDef} (h : s.DefAt c d)
    (hwf : d.WellFormed) (hsz : s.chord_defs_size_ = s.chord_defs_.length)
    (hlen : s.chord_defs_.length < 256) (k : Key) :
    s.inChord c k = .ok (decide (k ∈ d.triggers)) := by
  have hb := h.bound
  obtain ⟨rest, h⟩ := h
  exact s.inChordLoop_run c k (by rw [hsz]; omega) hlen d.triggers (d.output :: rest) c loopFuel
    h hwf.2 (by unfold loopFuel; omega)

theorem Chord.chordSize_defAt {s : Chord} {c : Nat} {d : ChordDef} (h : s.DefAt c d)
    (hwf : d.WellFormed) (hsz : s.chord_defs_size_ = s.chord_defs_.length)
    (hlen : s.chord_defs_.length < 256) :
    s.chordSize c = .ok d.triggers.length := by
  have hb := h.bound
  obtain ⟨rest, h⟩ := h
  have := s.chordSizeLoop_run hsz hlen d.triggers d.output rest c 0 loopFuel h hwf.2
    (by unfold loopFuel; omega) (by omega)
  simpa [Chord.chordSize] using this

theorem Chord.readDef_output {s : Chord} {c : Nat} {d : ChordDef} (h : s.DefAt c d) :
    s.readDef (c + d.triggers.length + 1) = .ok d.output := by
  obtain ⟨rest, h⟩ := h
  have h1 : s.chord_defs_[c + d.triggers.length + 1]? = some d.output := by
    have := List.getElem?_drop s.chord_defs_ c (d.triggers.length + 1)
    rw [h] at this
    rw [Nat.add_assoc, ← this]
    rw [List.getElem?_append_right (by omega)]
    simp
  simp [Chord.readDef, List.get?_eq_getElem?, h1]

theorem Chord.length_buffer {s : Chord} (hB : s.BufferOk) :
    s.buffer.length = s.potential_chord_size_ := by
  simp [Chord.buffer, List.length_take, hB.1]

theorem Chord.readEvent_buffer {s : Chord} (hB : s.BufferOk) {i : Nat}
    (hi : i < s.potential_chord_size_) :
    ∃ e, s.readEvent (i : Int) = .ok e ∧ s.buffer.drop i = e :: s.buffer.drop (i + 1) := by
  have hl : i < s.potential_chord_.length := lt_of_lt_of_le hi hB.1
  have hbl : i < s.buffer.length := by rw [Chord.length_buffer hB]; exact hi
  refine ⟨s.potential_chord_[i], ?_, ?_⟩
  · have : s.potential_chord_[i]? = some s.potential_chord_[i] := List.getElem?_eq_getElem hl
    simp [Chord.readEvent, List.get?_eq_getElem?, this]
  · rw [List.drop_eq_getElem_cons hbl]
    simp [Chord.buffer, List.getElem_take]

theorem Chord.isChordLoop_run (s : Chord) (c : Nat) (p : Key → Bool)
    (hin : ∀ k, s.inChord c k = .ok (p k)) (hB : s.BufferOk) :
    ∀ (n i fuel : Nat), i + n = s.potential_chord_size_ → n < fuel →
      s.isChordLoop c fuel i = .ok ((s.buffer.drop i).all (fun e => p e.key)) := by
  intro n
  induction n with
  | zero =>
    intro i fuel hi hf
    obtain ⟨f, rfl⟩ : ∃ f, fuel = f + 1 := ⟨fuel - 1, by omega⟩
    have hd : s.buffer.drop i = [] :=
      List.drop_eq_nil_of_le (by rw [Chord.length_buffer hB]; omega)
    have : ¬ i < s.potential_chord_size_ := by omega
    simp [Chord.isChordLoop, this, hd]
  | succ n ih =>
    intro i fuel hi hf
    obtain ⟨f, rfl⟩ : ∃ f, fuel = f + 1 := ⟨fuel - 1, by omega⟩
    have hlt : i < s.potential_chord_size_ := by omega
    obtain ⟨e, hr, hd⟩ := Chord.readEvent_buffer hB hlt
    have h256 : (i + 1) % 256 = i + 1 := Nat.mod_eq_of_lt (by have := hB.1; have := hB.2; omega)
    have ih' := ih (i + 1) f (by omega) (by omega)
    cases hp : p e.key <;> simp [Chord.isChordLoop, hlt, hr, hin, hd, hp, h256, ih']

theorem Chord.isChordStrictSubsetOfLoop_run (s : Chord) (c : Nat) (p : Key → Bool)
    (hin : ∀ k, s.inChord c k = .ok (p k)) (hB : s.BufferOk) :
    ∀ (n i fuel : Nat), i + n = s.potential_chord_size_ → n < fuel →
      s.isChordStrictSubsetOfLoop c fuel i = .ok ((s.buffer.drop i).all (fun e => p e.key)) := by
  intro n
  induction n with
  | zero =>
    intro i fuel hi hf
    obtain ⟨f, rfl⟩ : ∃ f, fuel = f + 1 := ⟨fuel - 1, by omega⟩
    have hd : s.buffer.drop i = [] :=
      List.drop_eq_nil_of_le (by rw [Chord.length_buffer hB]; omega)
    have : ¬ i < s.potential_chord_size_ := by omega
    simp [Chord.isChordStrictSubsetOfLoop, this, hd]
  | succ n ih =>
    intro i fuel hi hf
    obtain ⟨f, rfl⟩ : ∃ f, fuel = f + 1 := ⟨fuel - 1, by omega⟩
    have hlt : i < s.potential_chord_size_ := by omega
    obtain ⟨e, hr, hd⟩ := Chord.readEvent_buffer hB hlt
    have h256 : (i + 1) % 256 = i + 1 := Nat.mod_eq_of_lt (by have := hB.1; have := hB.2; omega)
    have ih' := ih (i + 1) f (by omega) (by omega)
    cases hp : p e.key <;> simp [Chord.isChordStrictSubsetOfLoop, hlt, hr, hin, hd, hp, h256, ih']

theorem Chord.isChord_defAt {s : Chord} {c : Nat} {d : ChordDef} (h : s.DefAt c d)
    (hwf : d.WellFormed) (hsz : s.chord_defs_size_ = s.chord_defs_.length)
    (hlen : s.chord_defs_.length < 256) (hB : s.BufferOk) :
    s.isChord c d.triggers.length = .ok (s.exactMatch d) := by
  unfold Chord.isChord Chord.exactMatch
  by_cases hc : d.triggers.length = s.potential_chord_size_
  · have := s.isChordLoop_run c (fun k => decide (k ∈ d.triggers))
      (fun k => Chord.inChord_defAt h hwf hsz hlen k) hB s.potential_chord_size_ 0 loopFuel
      (by omega) (by have := hB.1; have := hB.2; unfold loopFuel; omega)
    simp [hc, this]
  · simp [hc]

theorem Chord.isChordStrictSubsetOf_defAt {s : Chord} {c : Nat} {d : ChordDef} (h : s.DefAt c d)
    (hwf : d.WellFormed) (hsz : s.chord_defs_size_ = s.chord_defs_.length)
    (hlen : s.chord_defs_.length < 256) (hB : s.BufferOk) :
    s.isChordStrictSubsetOf c d.triggers.length = .ok (s.strictSubsetOf d) := by
  unfold Chord.isChordStrictSubsetOf Chord.strictSubsetOf
  by_cases hc : d.triggers.length ≤ s.potential_chord_size_
  · have : ¬ s.potential_chord_size_ < d.triggers.length := by omega
    simp [hc, this]
  · have := s.isChordStrictSubsetOfLoop_run c (fun k => decide (k ∈ d.triggers))
      (fun k => Chord.inChord_defAt h hwf hsz hlen k) hB s.potential_chord_size_ 0 loopFuel
      (by omega) (by have := hB.1; have := hB.2; unfold loopFuel; omega)
    have hlt : s.potential_chord_size_ < d.triggers.length := by omega
    simp [hc, this, hlt]

theorem Chord.defAt_of_drop_encode {s : Chord} {c : Nat} {d : ChordDef} {ds : List ChordDef}
    (h : s.chord_defs_.drop c = encodeDefs (d :: ds)) :
    s.DefAt c d ∧ s.chord_defs_.drop (c + (d.triggers.length + 2)) = encodeDefs ds := by
  refine ⟨⟨encodeDefs ds, by simpa [encodeDefs] using h⟩, ?_⟩
  rw [← List.drop_drop, h]
  have : d.triggers.length + 2 = (d.triggers ++ [Key_NoKey, d.output]).length := by simp
  rw [this]
  simp only [encodeDefs]
  have h2 : d.triggers ++ Key_NoKey :: d.output :: encodeDefs ds
      = (d.triggers ++ [Key_NoKey, d.output]) ++ encodeDefs ds := by simp
  rw [h2, List.drop_left]

theorem Chord.getChordLoop_run (s : Chord) (hsz : s.chord_defs_size_ = s.chord_defs_.length)
    (hlen : s.chord_defs_.length < 256) (hB : s.BufferOk) :
    ∀ (ds : List ChordDef) (c fuel : Nat), (∀ d ∈ ds, d.WellFormed) →
      s.chord_defs_.drop c = encodeDefs ds → ds.length < fuel →
      s.getChordLoop fuel c = .ok (s.firstExact ds) := by
  intro ds
  induction ds with
  | nil =>
    intro c fuel _ hd hf
    obtain ⟨f, rfl⟩ : ∃ f, fuel = f + 1 := ⟨fuel - 1, by simp at hf; omega⟩
    have : ¬ c < s.chord_defs_size_ := by
      rw [hsz]
      have := List.drop_eq_nil_iff.mp (by simpa [encodeDefs] using hd)
      omega
    simp [Chord.getChordLoop, this, Chord.firstExact]
  | cons d ds ih =>
    intro c fuel hwf hd hf
    obtain ⟨f, rfl⟩ : ∃ f, fuel = f + 1 := ⟨fuel - 1, by simp at hf; omega⟩
    obtain ⟨hat, hnext⟩ := Chord.defAt_of_drop_encode hd
    have hb := hat.bound
    have hw : d.WellFormed := hwf d (by simp)
    have hc : c < s.chord_defs_size_ := by rw [hsz]; omega
    have h256 : (c + (d.triggers.length + 2)) % 256 = c + (d.triggers.length + 2) :=
      Nat.mod_eq_of_lt (by omega)
    have ih' := ih (c + (d.triggers.length + 2)) f (fun d' hd' => hwf d' (by simp [hd'])) hnext
      (by simp at hf; omega)
    cases hm : s.exactMatch d <;>
      simp [Chord.getChordLoop, hc, Chord.chordSize_defAt hat hw hsz hlen,
        Chord.isChord_defAt hat hw hsz hlen hB, hm, Chord.readDef_output hat, h256, ih',
        Chord.firstExact]

theorem Chord.isChordStrictSubsetLoop_run (s : Chord)
    (hsz : s.chord_defs_size_ = s.chord_defs_.length)
    (hlen : s.chord_defs_.length < 256) (hB : s.BufferOk) :
    ∀ (ds : List ChordDef) (c fuel : Nat), (∀ d ∈ ds, d.WellFormed) →
      s.chord_defs_.drop c = encodeDefs ds → ds.length < fuel →
      s.isChordStrictSubsetLoop fuel c = .ok (ds.any s.strictSubsetOf) := by
  intro ds
  induction ds with
  | nil =>
    intro c fuel _ hd hf
    obtain ⟨f, rfl⟩ : ∃ f, fuel = f + 1 := ⟨fuel - 1, by simp at hf; omega⟩
    have : ¬ c < s.chord_defs_size_ := by
      rw [hsz]
      have := List.drop_eq_nil_iff.mp (by simpa [encodeDefs] using hd)
      omega
    simp [Chord.isChordStrictSubsetLoop, this]
  | cons d ds ih =>
    intro c fuel hwf hd hf
    obtain ⟨f, rfl⟩ : ∃ f, fuel = f + 1 := ⟨fuel - 1, by simp at hf; omega⟩
    obtain ⟨hat, hnext⟩ := Chord.defAt_of_drop_encode hd
    have hb := hat.bound
    have hw : d.WellFormed := hwf d (by simp)
    have hc : c < s.chord_defs_size_ := by rw [hsz]; omega
    have h256 : (c + (d.triggers.length + 2)) % 256 = c + (d.triggers.length + 2) :=
      Nat.mod_eq_of_lt (by omega)
    have ih' := ih (c + (d.triggers.length + 2)) f (fun d' hd' => hwf d' (by simp [hd'])) hnext
      (by simp at hf; omega)
    cases hm : s.strictSubsetOf d <;>
      simp [Chord.isChordStrictSubsetLoop, hc, Chord.chordSize_defAt hat hw hsz hlen,
        Chord.isChordStrictSubsetOf_defAt hat hw hsz hlen hB, hm, h256, ih']

theorem encodeDefs_length_ge (ds : List ChordDef) : 2 * ds.length ≤ (encodeDefs ds).length := by
  induction ds with
  | nil => simp [encodeDefs]
  | cons d ds ih => simp [encodeDefs]; omega

theorem Chord.getChord_eq {s : Chord} {ds : List ChordDef} (hT : s.TableIs ds)
    (hB : s.BufferOk) : s.getChord = .ok (s.firstExact ds) := by
  obtain ⟨hwf, henc, hsz, hlen⟩ := hT
  have := encodeDefs_length_ge ds
  exact s.getChordLoop_run hsz hlen hB ds 0 loopFuel hwf (by simpa using henc)
    (by rw [henc] at hlen; unfold loopFuel; omega)

theorem Chord.isChordStrictSubset_eq {s : Chord} {ds : List ChordDef} (hT : s.TableIs ds)
    (hB : s.BufferOk) : s.isChordStrictSubset = .ok (ds.any s.strictSubsetOf) := by
  obtain ⟨hwf, henc, hsz, hlen⟩ := hT
  have := encodeDefs_length_ge ds
  exact s.isChordStrictSubsetLoop_run hsz hlen hB ds 0 loopFuel hwf (by simpa using henc)
    (by rw [henc] at hlen; unfold loopFuel; omega)

theorem encodeDefs_append (l₁ l₂ : List ChordDef) :
    encodeDefs (l₁ ++ l₂) = encodeDefs l₁ ++ encodeDefs l₂ := by
  induction l₁ with
  | nil => simp [encodeDefs]
  | cons d ds ih => simp [encodeDefs, ih]

theorem Chord.defAt_defStart {s : Chord} {ds : List ChordDef} (henc : s.chord_defs_ = encodeDefs ds)
    {j : Nat} {d : ChordDef} (hj : ds.get? j = some d) : s.DefAt (defStart ds j) d := by
  have hj' : ds[j]? = some d := by simpa [List.get?_eq_getElem?] using hj
  obtain ⟨hlt, hget⟩ := List.getElem?_eq_some.mp hj'
  have hsplit : ds = ds.take j ++ d :: ds.drop (j + 1) := by
    conv_lhs => rw [← List.take_append_drop j ds]
    rw [List.drop_eq_getElem_cons hlt, hget]
  have henc' : s.chord_defs_
      = encodeDefs (ds.take j) ++ encodeDefs (d :: ds.drop (j + 1)) := by
    rw [henc, ← encodeDefs_append, ← hsplit]
  refine ⟨encodeDefs (ds.drop (j + 1)), ?_⟩
  rw [henc', defStart, List.drop_left]
  simp [encodeDefs]

theorem Chord.isChord_defStart {s : Chord} {ds : List ChordDef} (hT : s.TableIs ds)
    (hB : s.BufferOk) {j : Nat} {d : ChordDef} (hj : ds.get? j = some d) :
    s.isChord (defStart ds j) d.triggers.length = .ok (s.exactMatch d) := by
  obtain ⟨hwf, henc, hsz, hlen⟩ := hT
  exact Chord.isChord_defAt (Chord.defAt_defStart henc hj)
    (hwf d (List.get?_mem hj)) hsz hlen hB

theorem Chord.firstExact_of_first (s : Chord) :
    ∀ (ds : List ChordDef) (j : Nat) (d : ChordDef), ds.get? j = some d →
      s.exactMatch d = true →
      (∀ i d', i < j → ds.get? i = some d' → s.exactMatch d' = false) →
      s.firstExact ds = d.output := by
  intro ds
  induction ds with
  | nil => intro j d hj; simp at hj
  | cons x xs ih =>
    intro j d hj hm hbefore
    cases j with
    | zero =>
      simp at hj; subst hj
      simp [Chord.firstExact, hm]
    | succ j =>
      have hx : s.exactMatch x = false := hbefore 0 x (by omega) (by simp)
      have := ih j d (by simpa using hj) hm
        (fun i d' hi hget => hbefore (i + 1) d' (by omega) (by simpa using hget))
      simp [Chord.firstExact, hx, this]

theorem Chord.firstExact_of_none (s : Chord) :
    ∀ (ds : List ChordDef), (∀ j d, ds.get? j = some d → s.exactMatch d = false) →
      s.firstExact ds = Key_NoKey := by
  intro ds
  induction ds with
  | nil => intro _; rfl
  | cons x xs ih =>
    intro h
    have hx : s.exactMatch x = false := h 0 x (by simp)
    have := ih (fun j d hget => h (j + 1) d (by simpa using hget))
    simp [Chord.firstExact, hx, this]

/-! ## Independence of the timing fields, replaying and resolving -/

theorem Chord.inChordLoop_congr {s s' : Chord} (h : s.SameLive s') (index : Nat) (key : Key) :
    ∀ fuel i, s.inChordLoop index key fuel i = s'.inChordLoop index key fuel i := by
  obtain ⟨h1, h2, -, -⟩ := h
  intro fuel
  induction fuel with
  | zero => intro i; rfl
  | succ f ih => intro i; simp only [Chord.inChordLoop, Chord.readDef, h1, h2, ih]

theorem Chord.inChord_congr {s s' : Chord} (h : s.SameLive s') (index : Nat) (key : Key) :
    s.inChord index key = s'.inChord index key :=
  Chord.inChordLoop_congr h index key loopFuel index

theorem Chord.chordSizeLoop_congr {s s' : Chord} (h : s.SameLive s') :
    ∀ fuel i size, s.chordSizeLoop fuel i size = s'.chordSizeLoop fuel i size := by
  obtain ⟨h1, h2, -, -⟩ := h
  intro fuel
  induction fuel with
  | zero => intro i size; rfl
  | succ f ih => intro i size; simp only [Chord.chordSizeLoop, Chord.readDef, h1, h2, ih]

theorem Chord.chordSize_congr {s s' : Chord} (h : s.SameLive s') (index : Nat) :
    s.chordSize index = s'.chordSize index :=
  Chord.chordSizeLoop_congr h loopFuel index 0

theorem Chord.readEvent_congr {s s' : Chord} (h : s.SameLive s') {i : Nat}
    (hi : i < s.potential_chord_size_) : s.readEvent (i : Int) = s'.readEvent (i : Int) := by
  obtain ⟨-, -, h3, h4⟩ := h
  have h1 : s.potential_chord_[i]? = s'.potential_chord_[i]? := by
    have := congrArg (fun l => l[i]?) h4
    simp only [Chord.buffer, List.getElem?_take] at this
    rw [← h3] at this
    simpa [hi] using this
  have h0 : ¬ ((i : Int) < 0) := by omega
  simp only [Chord.readEvent, h0, if_false, Int.toNat_ofNat, List.get?_eq_getElem?, h1]

theorem Chord.isChordLoop_congr {s s' : Chord} (h : s.SameLive s') (c : Nat) :
    ∀ fuel i, s.isChordLoop c fuel i = s'.isChordLoop c fuel i := by
  have hin := Chord.inChord_congr h
  have hsz := h.2.2.1
  intro fuel
  induction fuel with
  | zero => intro i; rfl
  | succ f ih =>
    intro i
    by_cases hi : i < s.potential_chord_size_
    · have hi' : i < s'.potential_chord_size_ := hsz ▸ hi
      simp only [Chord.isChordLoop, hi, hi', if_true, Chord.readEvent_congr h hi, hin, ih]
    · have hi' : ¬ i < s'.potential_chord_size_ := hsz ▸ hi
      simp only [Chord.isChordLoop, hi, hi', if_false]

theorem Chord.isChord_congr {s s' : Chord} (h : s.SameLive s') (c cs : Nat) :
    s.isChord c cs = s'.isChord c cs := by
  simp only [Chord.isChord, Chord.isChordLoop_congr h, h.2.2.1]

theorem Chord.isChordStrictSubsetOfLoop_congr {s s' : Chord} (h : s.SameLive s') (c : Nat) :
    ∀ fuel i, s.isChordStrictSubsetOfLoop c fuel i = s'.isChordStrictSubsetOfLoop c fuel i := by
  have hin := Chord.inChord_congr h
  have hsz := h.2.2.1
  intro fuel
  induction fuel with
  | zero => intro i; rfl
  | succ f ih =>
    intro i
    by_cases hi : i < s.potential_chord_size_
    · have hi' : i < s'.potential_chord_size_ := hsz ▸ hi
      simp only [Chord.isChordStrictSubsetOfLoop, hi, hi', if_true, Chord.readEvent_congr h hi,
        hin, ih]
    · have hi' : ¬ i < s'.potential_chord_size_ := hsz ▸ hi
      simp only [Chord.isChordStrictSubsetOfLoop, hi, hi', if_false]

theorem Chord.isChordStrictSubsetOf_congr {s s' : Chord} (h : s.SameLive s') (c cs : Nat) :
    s.isChordStrictSubsetOf c cs = s'.isChordStrictSubsetOf c cs := by
  simp only [Chord.isChordStrictSubsetOf, Chord.isChordStrictSubsetOfLoop_congr h, h.2.2.1]

theorem Chord.arpeggiateLoop_congr {s s' : Chord} (h : s.SameLive s') :
    ∀ fuel i, s.arpeggiateLoop fuel i = s'.arpeggiateLoop fuel i := by
  have hsz := h.2.2.1
  intro fuel
  induction fuel with
  | zero => intro i; rfl
  | succ f ih =>
    intro i
    by_cases hi : i < s.potential_chord_size_
    · have hi' : i < s'.potential_chord_size_ := hsz ▸ hi
      simp only [Chord.arpeggiateLoop, hi, hi', if_true, Chord.readEvent_congr h hi, ih]
    · have hi' : ¬ i < s'.potential_chord_size_ := hsz ▸ hi
      simp only [Chord.arpeggiateLoop, hi, hi', if_false]

theorem Chord.isChordStrictSubset_congr {s s' : Chord} (h : s.SameLive s') :
    s.isChordStrictSubset = s'.isChordStrictSubset := by
  have h1 := Chord.chordSize_congr h
  have h2 := Chord.isChordStrictSubsetOf_congr h
  have h3 := h.2.1
  have : ∀ fuel c, s.isChordStrictSubsetLoop fuel c = s'.isChordStrictSubsetLoop fuel c := by
    intro fuel
    induction fuel with
    | zero => intro c; rfl
    | succ f ih => intro c; simp only [Chord.isChordStrictSubsetLoop, h1, h2, h3, ih]
  exact this loopFuel 0

theorem Chord.getChord_congr {s s' : Chord} (h : s.SameLive s') :
    s.getChord = s'.getChord := by
  have h1 := Chord.chordSize_congr h
  have h2 := Chord.isChord_congr h
  have h3 := h.2.1
  have h4 := h.1
  have : ∀ fuel c, s.getChordLoop fuel c = s'.getChordLoop fuel c := by
    intro fuel
    induction fuel with
    | zero => intro c; rfl
    | succ f ih => intro c; simp only [Chord.getChordLoop, Chord.readDef, h1, h2, h3, h4, ih]
  exact this loopFuel 0

theorem Chord.arpeggiateLoop_run (s : Chord) (hB : s.BufferOk) :
    ∀ (n i fuel : Nat), i + n = s.potential_chord_size_ → n < fuel →
      s.arpeggiateLoop fuel i = .ok (s.buffer.drop i) := by
  intro n
  induction n with
  | zero =>
    intro i fuel hi hf
    obtain ⟨f, rfl⟩ : ∃ f, fuel = f + 1 := ⟨fuel - 1, by omega⟩
    have hd : s.buffer.drop i = [] :=
      List.drop_eq_nil_of_le (by rw [Chord.length_buffer hB]; omega)
    have : ¬ i < s.potential_chord_size_ := by omega
    simp [Chord.arpeggiateLoop, this, hd]
  | succ n ih =>
    intro i fuel hi hf
    obtain ⟨f, rfl⟩ : ∃ f, fuel = f + 1 := ⟨fuel - 1, by omega⟩
    have hlt : i < s.potential_chord_size_ := by omega
    obtain ⟨e, hr, hd⟩ := Chord.readEvent_buffer hB hlt
    have h256 : (i + 1) % 256 = i + 1 := Nat.mod_eq_of_lt (by have := hB.1; have := hB.2; omega)
    have ih' := ih (i + 1) f (by omega) (by omega)
    simp [Chord.arpeggiateLoop, hlt, hr, hd, h256, ih']

theorem Chord.arpeggiate_eq {s : Chord} (hB : s.BufferOk) :
    s.arpeggiate = .ok ({ s with potential_chord_size_ := 0 }, s.buffer) := by
  have := s.arpeggiateLoop_run hB s.potential_chord_size_ 0 loopFuel (by omega)
    (by have := hB.1; have := hB.2; unfold loopFuel; omega)
  simp [Chord.arpeggiate, this]

theorem Chord.resolve_eq {s : Chord} (hB : s.BufferOk) (hpos : 0 < s.potential_chord_size_)
    (now : Nat) (k : Key) :
    ∃ last, s.buffer.getLast? = some last
      ∧ s.resolve now k = .ok
          ({ s.resetPriorKeypressTimestamp now with potential_chord_size_ := 0 },
            [⟨last.addr, last.state, k, last.id⟩]) := by
  have hl : s.potential_chord_size_ - 1 < s.potential_chord_.length := by
    have := hB.1; omega
  refine ⟨s.potential_chord_[s.potential_chord_size_ - 1], ?_, ?_⟩
  · rw [List.getLast?_eq_getElem?, Chord.length_buffer hB]
    simp [Chord.buffer, List.getElem?_take, hpos, List.getElem?_eq_getElem hl]
  · have h1 : ¬ ((s.potential_chord_size_ : Int) - 1 < 0) := by omega
    have h2 : ((s.potential_chord_size_ : Int) - 1).toNat = s.potential_chord_size_ - 1 := by
      omega
    simp [Chord.resolve, Chord.readEvent, Chord.resetPriorKeypressTimestamp, h1, h2,
      List.get?_eq_getElem?, List.getElem?_eq_getElem hl]

theorem Chord.resolveOrArpeggiate_size {s : Chord} {now : Nat} {st : Chord}
    {out : List KeyEvent} (h : s.resolveOrArpeggiate now = .ok (st, out)) :
    st.potential_chord_size_ = 0 ∧ st.potential_chord_ = s.potential_chord_
      ∧ st.chord_defs_ = s.chord_defs_ ∧ st.chord_defs_size_ = s.chord_defs_size_
      ∧ st.start_time_ = s.start_time_ ∧ st.timeout_ = s.timeout_
      ∧ st.minimum_prior_interval_ = s.minimum_prior_interval_ := by
  unfold Chord.resolveOrArpeggiate at h
  cases hg : s.getChord with
  | error f => rw [hg] at h; cases h
  | ok k =>
    rw [hg] at h
    by_cases hk : k = Key_NoKey
    · simp only [hk, if_true, Chord.arpeggiate] at h
      cases ha : s.arpeggiateLoop loopFuel 0 with
      | error f => rw [ha] at h; cases h
      | ok l =>
        rw [ha] at h
        simp only [Except.ok.injEq, Prod.mk.injEq] at h
        obtain ⟨rfl, -⟩ := h
        simp
    · simp only [hk, if_false, Chord.resolve] at h
      cases hr : (s.resetPriorKeypressTimestamp now).readEvent
          (((s.resetPriorKeypressTimestamp now).potential_chord_size_ : Int) - 1) with
      | error f => rw [hr] at h; cases h
      | ok e =>
        rw [hr] at h
        simp only [Except.ok.injEq, Prod.mk.injEq] at h
        obtain ⟨rfl, -⟩ := h
        simp [Chord.resetPriorKeypressTimestamp]

theorem Chord.buffer_of_size_zero {s : Chord} (h : s.potential_chord_size_ = 0) :
    s.buffer = [] := by
  simp [Chord.buffer, h]

/-- The events handed to the dispatcher by Resolve-or-Arpeggiate depend on the table and the
buffered events only. -/
theorem Chord.resolveOrArpeggiate_congr {s s' : Chord} (h : s.SameLive s') (now now' : Nat)
    {st : Chord} {out : List KeyEvent} (hr : s.resolveOrArpeggiate now = .ok (st, out)) :
    ∃ st', s'.resolveOrArpeggiate now' = .ok (st', out) := by
  unfold Chord.resolveOrArpeggiate at hr ⊢
  rw [← Chord.getChord_congr h]
  cases hg : s.getChord with
  | error f => rw [hg] at hr; cases hr
  | ok k =>
    rw [hg] at hr
    by_cases hk : k = Key_NoKey
    · simp only [hk, if_true, Chord.arpeggiate] at hr ⊢
      rw [← Chord.arpeggiateLoop_congr h]
      cases ha : s.arpeggiateLoop loopFuel 0 with
      | error f => rw [ha] at hr; cases hr
      | ok l =>
        rw [ha] at hr
        simp only [Except.ok.injEq, Prod.mk.injEq] at hr
        obtain ⟨-, rfl⟩ := hr
        exact ⟨_, rfl⟩
    · simp only [hk, if_false, Chord.resolve] at hr ⊢
      have hsz := h.2.2.1
      by_cases h0 : s.potential_chord_size_ = 0
      · have : (s.resetPriorKeypressTimestamp now).readEvent
            (((s.resetPriorKeypressTimestamp now).potential_chord_size_ : Int) - 1)
            = .error .outOfBounds := by
          simp [Chord.readEvent, Chord.resetPriorKeypressTimestamp, h0]
        rw [this] at hr; cases hr
      · have hidx : ((s.potential_chord_size_ : Int) - 1)
            = ((s.potential_chord_size_ - 1 : Nat) : Int) := by omega
        have hc := Chord.readEvent_congr h (i := s.potential_chord_size_ - 1) (by omega)
        have e1 : (s.resetPriorKeypressTimestamp now).readEvent
            (((s.resetPriorKeypressTimestamp now).potential_chord_size_ : Int) - 1)
            = s.readEvent ((s.potential_chord_size_ - 1 : Nat) : Int) := by
          rw [← hidx]; rfl
        have e2 : (s'.resetPriorKeypressTimestamp now').readEvent
            (((s'.resetPriorKeypressTimestamp now').potential_chord_size_ : Int) - 1)
            = s.readEvent ((s.potential_chord_size_ - 1 : Nat) : Int) := by
          rw [hc, hsz]
          have : ((s'.potential_chord_size_ : Int) - 1)
            = ((s'.potential_chord_size_ - 1 : Nat) : Int) := by omega
          rw [← this]; rfl
        rw [e1] at hr
        rw [e2]
        cases hre : s.readEvent ((s.potential_chord_size_ - 1 : Nat) : Int) with
        | error f => rw [hre] at hr; cases hr
        | ok e =>
          rw [hre] at hr
          simp only [Except.ok.injEq, Prod.mk.injEq] at hr
          obtain ⟨-, rfl⟩ := hr
          exact ⟨_, rfl⟩

theorem Chord.firstExact_ne_noKey (s : Chord) :
    ∀ ds : List ChordDef, s.firstExact ds ≠ Key_NoKey → ∃ d ∈ ds, s.exactMatch d = true := by
  intro ds
  induction ds with
  | nil => intro h; exact absurd rfl h
  | cons d ds ih =>
    intro h
    by_cases hm : s.exactMatch d = true
    · exact ⟨d, by simp, hm⟩
    · simp only [Chord.firstExact, hm] at h
      obtain ⟨d', hd', hm'⟩ := ih h
      exact ⟨d', by simp [hd'], hm'⟩

theorem Chord.resolveOrArpeggiate_total {s : Chord} {ds : List ChordDef} (hT : s.TableIs ds)
    (hB : s.BufferOk) (now : Nat) : ∃ st out, s.resolveOrArpeggiate now = .ok (st, out) := by
  unfold Chord.resolveOrArpeggiate
  rw [Chord.getChord_eq hT hB]
  by_cases hk : s.firstExact ds = Key_NoKey
  · simp only [hk, if_true, Chord.arpeggiate_eq hB]
    exact ⟨_, _, rfl⟩
  · obtain ⟨d, hd, hm⟩ := s.firstExact_ne_noKey ds hk
    have hpos : 0 < s.potential_chord_size_ := by
      have hw := (hT.1 d hd).1
      simp only [Chord.exactMatch, Bool.and_eq_true, decide_eq_true_eq] at hm
      have : 0 < d.triggers.length := List.length_pos.mpr hw
      omega
    obtain ⟨last, -, hres⟩ := Chord.resolve_eq hB hpos now (s.firstExact ds)
    simp only [hk, if_false, hres]
    exact ⟨_, _, rfl⟩

theorem Chord.resolveOrArpeggiate_empty {s : Chord} {ds : List ChordDef} (hT : s.TableIs ds)
    (h0 : s.potential_chord_size_ = 0) (now : Nat) :
    s.resolveOrArpeggiate now = .ok (s, []) := by
  have hB : s.BufferOk := ⟨by rw [h0]; exact Nat.zero_le _, by rw [h0]; decide⟩
  have hk : s.firstExact ds = Key_NoKey := by
    by_contra hk
    obtain ⟨d, hd, hm⟩ := s.firstExact_ne_noKey ds hk
    have hw := (hT.1 d hd).1
    simp only [Chord.exactMatch, Bool.and_eq_true, decide_eq_true_eq] at hm
    have : 0 < d.triggers.length := List.length_pos.mpr hw
    omega
  unfold Chord.resolveOrArpeggiate
  rw [Chord.getChord_eq hT hB]
  simp only [hk, if_true, Chord.arpeggiate_eq hB, Chord.buffer_of_size_zero h0]
  congr 2
  cases s
  simp at h0
  simp [h0]

/-! ### Appending -/

theorem Chord.appendEvent_room {s : Chord} (event : KeyEvent)
    (hroom : s.potential_chord_size_ < s.kMaxChordSize) (hcap : s.kMaxChordSize < 256) :
    (s.appendEvent event).potential_chord_size_ = s.potential_chord_size_ + 1
      ∧ (s.appendEvent event).buffer = s.buffer ++ [event] := by
  have h256 : (s.potential_chord_size_ + 1) % 256 = s.potential_chord_size_ + 1 :=
    Nat.mod_eq_of_lt (by omega)
  unfold Chord.kMaxChordSize at hroom
  simp only [Chord.appendEvent, Chord.kMaxChordSize, hroom, if_true, h256, Chord.buffer, true_and]
  rw [List.take_succ, List.getElem?_set_self hroom, List.set_take,
    List.set_eq_of_length_le (by simp)]
  simp

theorem Chord.appendEvent_full {s : Chord} (event : KeyEvent)
    (hfull : s.kMaxChordSize ≤ s.potential_chord_size_) : s.appendEvent event = s := by
  have : ¬ s.potential_chord_size_ < s.kMaxChordSize := by omega
  simp [Chord.appendEvent, this]

theorem Chord.appendEvent_frame (s : Chord) (event : KeyEvent) :
    (s.appendEvent event).chord_defs_ = s.chord_defs_
      ∧ (s.appendEvent event).chord_defs_size_ = s.chord_defs_size_
      ∧ (s.appendEvent event).start_time_ = s.start_time_
      ∧ (s.appendEvent event).timeout_ = s.timeout_
      ∧ (s.appendEvent event).prior_keypress_timestamp_ = s.prior_keypress_timestamp_
      ∧ (s.appendEvent event).minimum_prior_interval_ = s.minimum_prior_interval_
      ∧ (s.appendEvent event).potential_chord_.length = s.potential_chord_.length := by
  unfold Chord.appendEvent
  split <;> simp

theorem Chord.appendEvent_bufferOk {s : Chord} (event : KeyEvent) (hB : s.BufferOk)
    (hcap : 0 < s.kMaxChordSize ∧ s.kMaxChordSize < 256) :
    (s.appendEvent event).BufferOk ∧ 0 < (s.appendEvent event).potential_chord_size_ := by
  by_cases hroom : s.potential_chord_size_ < s.kMaxChordSize
  · have h1 := (Chord.appendEvent_room event hroom hcap.2).1
    have h2 := (s.appendEvent_frame event).2.2.2.2.2.2
    unfold Chord.kMaxChordSize at hroom hcap
    exact ⟨⟨by omega, by omega⟩, by omega⟩
  · rw [Chord.appendEvent_full event (by omega)]
    exact ⟨hB, by omega⟩

/-! ### The key-down path of the handler -/

/-- The shape of `onKeyswitchEvent` on a key-down that is neither ignored nor refused by the
guard: everything is decided on a state `s2` that holds the appended buffer. -/
theorem Chord.onKeyswitchEvent_keydown (P : Platform) (s : Chord) (now : Nat) (event : KeyEvent)
    (hdown : P.keyToggledOn event.state = true) (hg : ¬ s.refusedByGuard now) :
    ∃ s2 : Chord, s2.SameLive (s.appendEvent event)
      ∧ s2.potential_chord_ = (s.appendEvent event).potential_chord_
      ∧ s2.start_time_ = s.start_time_ ∧ s2.timeout_ = s.timeout_
      ∧ s2.minimum_prior_interval_ = s.minimum_prior_interval_
      ∧ (s2.prior_keypress_timestamp_ =
          if s.potential_chord_size_ = 0 ∧ isExpectedBeforeChord P event.key = false
          then now % 65536 else s.prior_keypress_timestamp_)
      ∧ s.onKeyswitchEvent P now false event =
        match s2.isChordStrictSubset with
        | .error f => .error f
        | .ok true => .ok ⟨{ s2 with start_time_ := now % 65536 }, event, .ABORT, []⟩
        | .ok false =>
          match s2.getChord with
          | .error f => .error f
          | .ok target_key =>
            if target_key = Key_NoKey then
              match ({ s2 with potential_chord_size_ := (s2.potential_chord_size_ + 255) % 256 }
                  : Chord).resolveOrArpeggiate now with
              | .error f => .error f
              | .ok (s4, out) => .ok ⟨s4, event, .OK, out⟩
            else
              .ok ⟨{ s2.resetPriorKeypressTimestamp now with potential_chord_size_ := 0 },
                { event with key := target_key }, .OK, []⟩ := by
  have hg' : ¬ (s.potential_chord_size_ = 0
      ∧ (!hasTimeExpired now s.prior_keypress_timestamp_ s.minimum_prior_interval_) = true) := by
    intro h
    exact hg ⟨h.1, by simpa using h.2⟩
  by_cases hc : s.potential_chord_size_ = 0 ∧ isExpectedBeforeChord P event.key = false
  · have hc' : s.potential_chord_size_ = 0 ∧ (!isExpectedBeforeChord P event.key) = true :=
      ⟨hc.1, by simp [hc.2]⟩
    refine ⟨({ s with prior_keypress_timestamp_ := now % 65536 } : Chord).appendEvent event,
      ?_, ?_, ?_, ?_, ?_, ?_, ?_⟩
    · unfold Chord.appendEvent Chord.kMaxChordSize
      split <;> exact ⟨rfl, rfl, rfl, rfl⟩
    · unfold Chord.appendEvent Chord.kMaxChordSize
      split <;> rfl
    · unfold Chord.appendEvent Chord.kMaxChordSize
      split <;> rfl
    · unfold Chord.appendEvent Chord.kMaxChordSize
      split <;> rfl
    · unfold Chord.appendEvent Chord.kMaxChordSize
      split <;> rfl
    · rw [if_pos hc]
      unfold Chord.appendEvent Chord.kMaxChordSize
      split <;> rfl
    · simp only [Chord.onKeyswitchEvent, hdown, Bool.not_true, Bool.false_eq_true, if_false,
        if_neg hg', if_pos hc']
      try rfl
  · have hc' : ¬ (s.potential_chord_size_ = 0 ∧ (!isExpectedBeforeChord P event.key) = true) := by
      intro h
      exact hc ⟨h.1, by simpa using h.2⟩
    refine ⟨s.appendEvent event, ⟨rfl, rfl, rfl, rfl⟩, rfl, (s.appendEvent_frame event).2.2.1,
      (s.appendEvent_frame event).2.2.2.1, (s.appendEvent_frame event).2.2.2.2.2.1, ?_, ?_⟩
    · rw [if_neg hc]
      exact (s.appendEvent_frame event).2.2.2.2.1
    · simp only [Chord.onKeyswitchEvent, hdown, Bool.not_true, Bool.false_eq_true, if_false,
        if_neg hg', if_neg hc']
      try rfl

theorem Chord.TableIs.of_eq {s s' : Chord} {ds : List ChordDef} (hT : s.TableIs ds)
    (h1 : s'.chord_defs_ = s.chord_defs_) (h2 : s'.chord_defs_size_ = s.chord_defs_size_) :
    s'.TableIs ds := by
  obtain ⟨a, b, c, d⟩ := hT
  exact ⟨a, by rw [h1, b], by rw [h1, h2, c], by rw [h1]; exact d⟩

theorem Chord.onKeyswitchEvent_total (P : Platform) (s : Chord) (now : Nat) (ignore : Bool)
    (event : KeyEvent) {ds : List ChordDef} (hT : s.TableIs ds) (hB : s.BufferOk)
    (hcap : 0 < s.kMaxChordSize ∧ s.kMaxChordSize < 256) :
    ∃ o, s.onKeyswitchEvent P now ignore event = .ok o := by
  cases ignore with
  | true => exact ⟨⟨s, event, .OK, []⟩, by simp [Chord.onKeyswitchEvent]⟩
  | false =>
    by_cases hdown : P.keyToggledOn event.state = true
    · by_cases hg : s.refusedByGuard now
      · have hg' : s.potential_chord_size_ = 0
            ∧ (!hasTimeExpired now s.prior_keypress_timestamp_ s.minimum_prior_interval_) = true :=
          ⟨hg.1, by simp [hg.2]⟩
        exact ⟨⟨s, event, .OK, []⟩, by
          simp only [Chord.onKeyswitchEvent, hdown, Bool.not_true, Bool.false_eq_true, if_false,
            if_pos hg']⟩
      · obtain ⟨s2, hlive, harr, -, -, -, -, hrun⟩ :=
          Chord.onKeyswitchEvent_keydown P s now event hdown hg
        have hfr := s.appendEvent_frame event
        have hT2 : s2.TableIs ds := hT.of_eq (hlive.1.trans hfr.1) (hlive.2.1.trans hfr.2.1)
        obtain ⟨hBa, hpos⟩ := Chord.appendEvent_bufferOk event hB hcap
        have hB2 : s2.BufferOk := by
          unfold Chord.BufferOk at hBa ⊢
          rw [harr, hlive.2.2.1]; exact hBa
        rw [hrun, Chord.isChordStrictSubset_eq hT2 hB2]
        cases ds.any s2.strictSubsetOf with
        | true => exact ⟨_, rfl⟩
        | false =>
          simp only [Chord.getChord_eq hT2 hB2]
          by_cases hk : s2.firstExact ds = Key_NoKey
          · simp only [hk, if_true]
            have hT3 : ({ s2 with potential_chord_size_ := (s2.potential_chord_size_ + 255) % 256 }
                : Chord).TableIs ds := hT2.of_eq rfl rfl
            have hB3 : ({ s2 with potential_chord_size_ := (s2.potential_chord_size_ + 255) % 256 }
                : Chord).BufferOk := by
              have h1 := hB2.1
              have h2 := hB2.2
              have h3 : 0 < s2.potential_chord_size_ := by rw [hlive.2.2.1]; exact hpos
              have : (s2.potential_chord_size_ + 255) % 256 = s2.potential_chord_size_ - 1 := by
                omega
              exact ⟨by show (s2.potential_chord_size_ + 255) % 256 ≤ s2.potential_chord_.length
                        omega,
                by show (s2.potential_chord_size_ + 255) % 256 < 256
                   omega⟩
            obtain ⟨st, out, hroa⟩ := Chord.resolveOrArpeggiate_total hT3 hB3 now
            rw [hroa]
            exact ⟨_, rfl⟩
          · simp only [hk, if_false]
            exact ⟨_, rfl⟩
    · have hup : P.keyToggledOn event.state = false := by simpa using hdown
      obtain ⟨st, out, hroa⟩ := Chord.resolveOrArpeggiate_total hT hB now
      exact ⟨⟨st, event, .OK, out⟩, by
        simp only [Chord.onKeyswitchEvent, hup, Bool.not_false, Bool.false_eq_true, if_false,
          if_true, hroa]⟩


theorem Chord.onKeyswitchEvent_refused_eq (P : Platform) (s : Chord) (now : Nat)
    (event : KeyEvent) (hdown : P.keyToggledOn event.state = true)
    (hg : s.refusedByGuard now) :
    s.onKeyswitchEvent P now false event = .ok ⟨s, event, .OK, []⟩ := by
  have hg' : s.potential_chord_size_ = 0
      ∧ (!hasTimeExpired now s.prior_keypress_timestamp_ s.minimum_prior_interval_) = true :=
    ⟨hg.1, by simp [hg.2]⟩
  simp only [Chord.onKeyswitchEvent, hdown, Bool.not_true, Bool.false_eq_true, if_false,
    if_pos hg']

/-- A key-down on the empty buffer that is not refused and matches nothing: the handler passes
it on and leaves the buffer empty; the guard is armed exactly when the key is not one expected
before a chord. -/
theorem Chord.onKeyswitchEvent_plain_key (P : Platform) (s : Chord) (now : Nat)
    (event : KeyEvent) {ds : List ChordDef} (hT : s.TableIs ds)
    (h0 : s.potential_chord_size_ = 0) (hcap : 0 < s.kMaxChordSize)
    (hdown : P.keyToggledOn event.state = true) (hg : ¬ s.refusedByGuard now)
    (hsub : (s.appendEvent event).isChordStrictSubset = .ok false)
    (hk : (s.appendEvent event).getChord = .ok Key_NoKey) :
    ∃ s1, s.onKeyswitchEvent P now false event = .ok ⟨s1, event, .OK, []⟩
      ∧ s1.potential_chord_size_ = 0
      ∧ s1.prior_keypress_timestamp_
          = (if isExpectedBeforeChord P event.key = false then now % 65536
             else s.prior_keypress_timestamp_)
      ∧ s1.minimum_prior_interval_ = s.minimum_prior_interval_
      ∧ s1.chord_defs_ = s.chord_defs_ ∧ s1.chord_defs_size_ = s.chord_defs_size_
      ∧ s1.start_time_ = s.start_time_ ∧ s1.timeout_ = s.timeout_ := by
  obtain ⟨s2, hlive, harr, hst, hto, hmpi, hprior, hrun⟩ :=
    Chord.onKeyswitchEvent_keydown P s now event hdown hg
  have hfr := s.appendEvent_frame event
  rw [Chord.isChordStrictSubset_congr hlive, Chord.getChord_congr hlive, hsub, hk] at hrun
  simp only [if_true] at hrun
  have hsz2 : s2.potential_chord_size_ = 1 := by
    rw [hlive.2.2.1]
    have : s.potential_chord_size_ < s.kMaxChordSize := by omega
    rw [Chord.appendEvent, if_pos this]
    show (s.potential_chord_size_ + 1) % 256 = 1
    rw [h0]
  have hT3 : ({ s2 with potential_chord_size_ := (s2.potential_chord_size_ + 255) % 256 }
      : Chord).TableIs ds := hT.of_eq (hlive.1.trans hfr.1) (hlive.2.1.trans hfr.2.1)
  have hz3 : ({ s2 with potential_chord_size_ := (s2.potential_chord_size_ + 255) % 256 }
      : Chord).potential_chord_size_ = 0 := by
    show (s2.potential_chord_size_ + 255) % 256 = 0
    rw [hsz2]
  rw [Chord.resolveOrArpeggiate_empty hT3 hz3 now] at hrun
  refine ⟨_, hrun, hz3, ?_, hmpi, hlive.1.trans hfr.1, hlive.2.1.trans hfr.2.1, hst, hto⟩
  show s2.prior_keypress_timestamp_ = _
  rw [hprior]
  simp [h0]

/-- Every way in which `onKeyswitchEvent` returns on an event that is not ignored: a release, a
key-down refused by the guard, or a key-down decided on a state `s2` that holds the appended
buffer: wait (`ABORT`), break (no match: Resolve-or-Arpeggiate on the buffer less its last
event) or complete (the event takes the output key). -/
theorem Chord.onKeyswitchEvent_cases (P : Platform) (s : Chord) (now : Nat) (event : KeyEvent)
    (o : Outcome) (h : s.onKeyswitchEvent P now false event = .ok o) :
    (P.keyToggledOn event.state = false
      ∧ ∃ st out, s.resolveOrArpeggiate now = .ok (st, out) ∧ o = ⟨st, event, .OK, out⟩)
    ∨ (P.keyToggledOn event.state = true ∧ s.refusedByGuard now ∧ o = ⟨s, event, .OK, []⟩)
    ∨ (P.keyToggledOn event.state = true ∧ ¬ s.refusedByGuard now
      ∧ ∃ s2 : Chord, s2.SameLive (s.appendEvent event)
        ∧ s2.potential_chord_ = (s.appendEvent event).potential_chord_
        ∧ s2.start_time_ = s.start_time_ ∧ s2.timeout_ = s.timeout_
        ∧ s2.minimum_prior_interval_ = s.minimum_prior_interval_
        ∧ (s2.prior_keypress_timestamp_ =
            if s.potential_chord_size_ = 0 ∧ Chord.isExpectedBeforeChord P event.key = false
            then now % 65536 else s.prior_keypress_timestamp_)
        ∧ ((s2.isChordStrictSubset = .ok true
            ∧ o = ⟨{ s2 with start_time_ := now % 65536 }, event, .ABORT, []⟩)
          ∨ (s2.isChordStrictSubset = .ok false ∧ s2.getChord = .ok Key_NoKey
            ∧ ∃ st out,
                ({ s2 with potential_chord_size_ := (s2.potential_chord_size_ + 255) % 256 }
                  : Chord).resolveOrArpeggiate now = .ok (st, out)
                ∧ o = ⟨st, event, .OK, out⟩)
          ∨ (s2.isChordStrictSubset = .ok false
            ∧ ∃ k, s2.getChord = .ok k ∧ k ≠ Key_NoKey
              ∧ o = ⟨{ s2.resetPriorKeypressTimestamp now with potential_chord_size_ := 0 },
                  { event with key := k }, .OK, []⟩))) := by
  by_cases hdown : P.keyToggledOn event.state = true
  · by_cases hg : s.refusedByGuard now
    · rw [Chord.onKeyswitchEvent_refused_eq P s now event hdown hg] at h
      simp only [Except.ok.injEq] at h
      exact Or.inr (Or.inl ⟨hdown, hg, h.symm⟩)
    · obtain ⟨s2, hlive, harr, hst, hto, hmpi, hprior, hrun⟩ :=
        Chord.onKeyswitchEvent_keydown P s now event hdown hg
      refine Or.inr (Or.inr ⟨hdown, hg, s2, hlive, harr, hst, hto, hmpi, hprior, ?_⟩)
      rw [hrun] at h
      cases hsub : s2.isChordStrictSubset with
      | error f => rw [hsub] at h; cases h
      | ok b =>
        rw [hsub] at h
        cases b with
        | true =>
          simp only [Except.ok.injEq] at h
          exact Or.inl ⟨rfl, h.symm⟩
        | false =>
          simp only at h
          cases hgc : s2.getChord with
          | error f => rw [hgc] at h; cases h
          | ok k =>
            rw [hgc] at h
            by_cases hk : k = Key_NoKey
            · simp only [hk, if_true] at h
              cases hroa : ({ s2 with
                  potential_chord_size_ := (s2.potential_chord_size_ + 255) % 256 }
                  : Chord).resolveOrArpeggiate now with
              | error f => rw [hroa] at h; cases h
              | ok r =>
                rw [hroa] at h
                obtain ⟨s4, out⟩ := r
                simp only [Except.ok.injEq] at h
                exact Or.inr (Or.inl ⟨rfl, by rw [hk], s4, out, rfl, h.symm⟩)
            · simp only [hk, if_false, Except.ok.injEq] at h
              exact Or.inr (Or.inr ⟨rfl, k, rfl, hk, h.symm⟩)
  · have hup : P.keyToggledOn event.state = false := by simpa using hdown
    simp only [Chord.onKeyswitchEvent, hup, Bool.not_false, Bool.false_eq_true, if_false,
      if_true] at h
    cases hroa : s.resolveOrArpeggiate now with
    | error f => rw [hroa] at h; cases h
    | ok r =>
      rw [hroa] at h
      obtain ⟨s4, out⟩ := r
      simp only [Except.ok.injEq] at h
      exact Or.inl ⟨hup, s4, out, rfl, h.symm⟩

/-- Every way in which `afterEachCycle` returns: the timeout phase runs Resolve-or-Arpeggiate
or leaves the state alone, and the refresh phase resets the guard timestamp when the guard has
elapsed. -/
theorem Chord.afterEachCycle_cases (s : Chord) (now : Nat) (st : Chord) (out : List KeyEvent)
    (h : s.afterEachCycle now = .ok (st, out)) :
    ∃ s1 : Chord,
      ((hasTimeExpired now s.start_time_ s.timeout_ = true ∧ 0 < s.potential_chord_size_
          ∧ s.resolveOrArpeggiate now = .ok (s1, out))
        ∨ (¬ (hasTimeExpired now s.start_time_ s.timeout_ = true ∧ 0 < s.potential_chord_size_)
          ∧ s1 = s ∧ out = []))
      ∧ ((hasTimeExpired now s1.prior_keypress_timestamp_ s1.minimum_prior_interval_ = true
          ∧ st = s1.resetPriorKeypressTimestamp now)
        ∨ (hasTimeExpired now s1.prior_keypress_timestamp_ s1.minimum_prior_interval_ = false
          ∧ st = s1)) := by
  unfold Chord.afterEachCycle at h
  by_cases hc : hasTimeExpired now s.start_time_ s.timeout_ = true ∧ s.potential_chord_size_ > 0
  · simp only [if_pos hc] at h
    cases hroa : s.resolveOrArpeggiate now with
    | error f => rw [hroa] at h; cases h
    | ok r =>
      rw [hroa] at h
      obtain ⟨s1, out1⟩ := r
      simp only at h
      refine ⟨s1, ?_, ?_⟩
      · by_cases he : hasTimeExpired now s1.prior_keypress_timestamp_
            s1.minimum_prior_interval_ = true
        · simp only [if_pos he, Except.ok.injEq, Prod.mk.injEq] at h
          exact Or.inl ⟨hc.1, hc.2, by rw [h.2]⟩
        · simp only [if_neg he, Except.ok.injEq, Prod.mk.injEq] at h
          exact Or.inl ⟨hc.1, hc.2, by rw [h.2]⟩
      · by_cases he : hasTimeExpired now s1.prior_keypress_timestamp_
            s1.minimum_prior_interval_ = true
        · simp only [if_pos he, Except.ok.injEq, Prod.mk.injEq] at h
          exact Or.inl ⟨he, h.1.symm⟩
        · simp only [if_neg he, Except.ok.injEq, Prod.mk.injEq] at h
          exact Or.inr ⟨by simpa using he, h.1.symm⟩
  · simp only [if_neg hc] at h
    refine ⟨s, Or.inr ⟨hc, rfl, ?_⟩, ?_⟩
    · by_cases he : hasTimeExpired now s.prior_keypress_timestamp_
          s.minimum_prior_interval_ = true
      · simp only [if_pos he, Except.ok.injEq, Prod.mk.injEq] at h
        exact h.2.symm
      · simp only [if_neg he, Except.ok.injEq, Prod.mk.injEq] at h
        exact h.2.symm
    · by_cases he : hasTimeExpired now s.prior_keypress_timestamp_
          s.minimum_prior_interval_ = true
      · simp only [if_pos he, Except.ok.injEq, Prod.mk.injEq] at h
        exact Or.inl ⟨he, h.1.symm⟩
      · simp only [if_neg he, Except.ok.injEq, Prod.mk.injEq] at h
        exact Or.inr ⟨by simpa using he, h.1.symm⟩

theorem Chord.appendEvent_size_le (s : Chord) (event : KeyEvent)
    (hle : s.potential_chord_size_ ≤ s.kMaxChordSize) (hcap : s.kMaxChordSize < 256) :
    (s.appendEvent event).potential_chord_size_ ≤ (s.appendEvent event).kMaxChordSize
      ∧ (s.appendEvent event).kMaxChordSize = s.kMaxChordSize := by
  have hlen := (s.appendEvent_frame event).2.2.2.2.2.2
  refine ⟨?_, hlen⟩
  by_cases hroom : s.potential_chord_size_ < s.kMaxChordSize
  · have h1 := (Chord.appendEvent_room event hroom hcap).1
    unfold Chord.kMaxChordSize at *
    omega
  · rw [Chord.appendEvent_full event (by omega)]
    exact hle

/-- What a call leaves of the buffer size: it stays within the capacity, and the capacity, the
table and the two configured durations are not touched. -/
theorem Chord.call_size_le (P : Platform) (s : Chord) (c : Call) (st : Chord)
    (out : List KeyEvent) (hle : s.potential_chord_size_ ≤ s.kMaxChordSize)
    (hcap : s.kMaxChordSize < 256) (h : s.call P c = .ok (st, out)) :
    st.potential_chord_size_ ≤ st.kMaxChordSize ∧ st.kMaxChordSize = s.kMaxChordSize := by
  cases c with
  | cycle now =>
    obtain ⟨s1, h1, h2⟩ := s.afterEachCycle_cases now st out h
    have hs1 : s1.potential_chord_size_ ≤ s1.kMaxChordSize
        ∧ s1.kMaxChordSize = s.kMaxChordSize := by
      rcases h1 with ⟨-, -, hroa⟩ | ⟨-, rfl, -⟩
      · obtain ⟨hz, harr, -⟩ := Chord.resolveOrArpeggiate_size hroa
        unfold Chord.kMaxChordSize
        rw [hz, harr]; exact ⟨Nat.zero_le _, rfl⟩
      · exact ⟨hle, rfl⟩
    rcases h2 with ⟨-, rfl⟩ | ⟨-, rfl⟩
    · exact hs1
    · exact hs1
  | keyswitch now ignore event =>
    simp only [Chord.call] at h
    cases hrun : s.onKeyswitchEvent P now ignore event with
    | error f => rw [hrun] at h; cases h
    | ok o =>
      rw [hrun] at h
      simp only [Except.ok.injEq, Prod.mk.injEq] at h
      obtain ⟨rfl, -⟩ := h
      cases ignore with
      | true =>
        simp only [Chord.onKeyswitchEvent, if_true, Except.ok.injEq] at hrun
        subst hrun
        exact ⟨hle, rfl⟩
      | false =>
        rcases s.onKeyswitchEvent_cases P now event o hrun with
          ⟨-, st, out', hroa, rfl⟩ | ⟨-, -, rfl⟩ | ⟨-, -, s2, hlive, harr, -, -, -, -, hc⟩
        · obtain ⟨hz, harr, -⟩ := Chord.resolveOrArpeggiate_size hroa
          unfold Chord.kMaxChordSize
          show st.potential_chord_size_ ≤ st.potential_chord_.length ∧ _
          rw [hz, harr]; exact ⟨Nat.zero_le _, rfl⟩
        · exact ⟨hle, rfl⟩
        · have ha := s.appendEvent_size_le event hle hcap
          have hk2 : s2.kMaxChordSize = s.kMaxChordSize := by
            unfold Chord.kMaxChordSize; rw [harr]; exact ha.2
          rcases hc with ⟨-, rfl⟩ | ⟨-, -, st, out', hroa, rfl⟩ | ⟨-, k, -, -, rfl⟩
          · refine ⟨?_, hk2⟩
            show s2.potential_chord_size_ ≤ s2.potential_chord_.length
            rw [hlive.2.2.1, harr]; exact ha.1
          · obtain ⟨hz, harr', -⟩ := Chord.resolveOrArpeggiate_size hroa
            refine ⟨?_, ?_⟩
            · show st.potential_chord_size_ ≤ _
              rw [hz]; exact Nat.zero_le _
            · unfold Chord.kMaxChordSize at hk2 ⊢
              show st.potential_chord_.length = _
              rw [harr']; exact hk2
          · exact ⟨Nat.zero_le _, hk2⟩

theorem Chord.getChord_empty_table (s : Chord) (h0 : s.chord_defs_size_ = 0) :
    s.getChord = .ok Key_NoKey := by
  have : ¬ (0 < s.chord_defs_size_) := by omega
  show s.getChordLoop (255 + 1) 0 = _
  rw [Chord.getChordLoop, if_neg this]

theorem Chord.isChordStrictSubset_empty_table (s : Chord) (h0 : s.chord_defs_size_ = 0) :
    s.isChordStrictSubset = .ok false := by
  have : ¬ (0 < s.chord_defs_size_) := by omega
  show s.isChordStrictSubsetLoop (255 + 1) 0 = _
  rw [Chord.isChordStrictSubsetLoop, if_neg this]

/-- After the append and the decrement of the break path the buffer is the one held before the
event, when there was room for the event. -/
theorem Chord.sameLive_after_break {s s2 : Chord} {event : KeyEvent}
    (hlive : s2.SameLive (s.appendEvent event))
    (harr : s2.potential_chord_ = (s.appendEvent event).potential_chord_)
    (hroom : s.potential_chord_size_ < s.kMaxChordSize) (h8 : s.potential_chord_size_ < 256) :
    s.SameLive
      ({ s2 with potential_chord_size_ := (s2.potential_chord_size_ + 255) % 256 } : Chord) := by
  have hfr := s.appendEvent_frame event
  have hsz2 : s2.potential_chord_size_ = (s.potential_chord_size_ + 1) % 256 := by
    rw [hlive.2.2.1]
    simp [Chord.appendEvent, hroom]
  have hsz3 : (s2.potential_chord_size_ + 255) % 256 = s.potential_chord_size_ := by
    rw [hsz2]; omega
  refine ⟨(hlive.1.trans hfr.1).symm, (hlive.2.1.trans hfr.2.1).symm, hsz3.symm, ?_⟩
  show s.buffer = List.take ((s2.potential_chord_size_ + 255) % 256) s2.potential_chord_
  rw [hsz3, harr]
  simp only [Chord.appendEvent, hroom, if_true, Chord.buffer]
  rw [List.set_take, List.set_eq_of_length_le (by simp)]

/-- With the empty table a key-down that passes the guard is passed on unchanged; what is
handed to the dispatcher before it is the old buffer, replayed. -/
theorem Chord.empty_table_keydown (P : Platform) (s : Chord) (now : Nat) (event : KeyEvent)
    (h0 : s.chord_defs_size_ = 0) (hdown : P.keyToggledOn event.state = true)
    (hg : ¬ s.refusedByGuard now) (hB : s.BufferOk) (hcap : 0 < s.kMaxChordSize) :
    ∃ st out, s.onKeyswitchEvent P now false event = .ok ⟨st, event, .OK, out⟩
      ∧ st.potential_chord_size_ = 0 ∧ st.buffer = [] ∧ st.chord_defs_size_ = 0
      ∧ st.kMaxChordSize = s.kMaxChordSize
      ∧ (∀ e ∈ out, e ∈ s.buffer)
      ∧ (s.potential_chord_size_ < s.kMaxChordSize → out = s.buffer) := by
  obtain ⟨s2, hlive, harr, -, -, -, -, hrun⟩ :=
    Chord.onKeyswitchEvent_keydown P s now event hdown hg
  have hfr := s.appendEvent_frame event
  have h02 : s2.chord_defs_size_ = 0 := by rw [hlive.2.1, hfr.2.1, h0]
  rw [s2.isChordStrictSubset_empty_table h02, s2.getChord_empty_table h02] at hrun
  simp only [if_true] at hrun
  have hlen2 : s2.potential_chord_.length = s.potential_chord_.length := by
    rw [harr]; exact hfr.2.2.2.2.2.2
  -- the size after the append and the decrement, and the buffer it delimits
  have hkey : (s.potential_chord_size_ < s.kMaxChordSize
        ∧ (s2.potential_chord_size_ + 255) % 256 = s.potential_chord_size_
        ∧ List.take s.potential_chord_size_ s2.potential_chord_ = s.buffer)
      ∨ (¬ s.potential_chord_size_ < s.kMaxChordSize
        ∧ (s2.potential_chord_size_ + 255) % 256 = s.potential_chord_size_ - 1
        ∧ s2.potential_chord_ = s.potential_chord_) := by
    by_cases hroom : s.potential_chord_size_ < s.kMaxChordSize
    · have hs := Chord.sameLive_after_break hlive harr hroom hB.2
      have hsz : (s2.potential_chord_size_ + 255) % 256 = s.potential_chord_size_ :=
        hs.2.2.1.symm
      have hb : s.buffer
          = List.take ((s2.potential_chord_size_ + 255) % 256) s2.potential_chord_ := hs.2.2.2
      rw [hsz] at hb
      exact Or.inl ⟨hroom, hsz, hb.symm⟩
    · have hfull := Chord.appendEvent_full event (show s.kMaxChordSize ≤ s.potential_chord_size_
        by omega)
      rw [hfull] at hlive harr
      refine Or.inr ⟨hroom, ?_, harr⟩
      rw [hlive.2.2.1]
      have := hB.2
      unfold Chord.kMaxChordSize at hroom hcap
      omega
  have hB3 : ({ s2 with potential_chord_size_ := (s2.potential_chord_size_ + 255) % 256 }
      : Chord).BufferOk := by
    have h1 := hB.1
    have h2 := hB.2
    refine ⟨?_, ?_⟩
    · show (s2.potential_chord_size_ + 255) % 256 ≤ s2.potential_chord_.length
      rcases hkey with ⟨-, h, -⟩ | ⟨-, h, -⟩ <;> rw [h, hlen2] <;> omega
    · show (s2.potential_chord_size_ + 255) % 256 < 256
      omega
  have h03 : ({ s2 with potential_chord_size_ := (s2.potential_chord_size_ + 255) % 256 }
      : Chord).chord_defs_size_ = 0 := h02
  have hroa : ({ s2 with potential_chord_size_ := (s2.potential_chord_size_ + 255) % 256 }
      : Chord).resolveOrArpeggiate now
      = .ok ({ s2 with potential_chord_size_ := 0 },
          List.take ((s2.potential_chord_size_ + 255) % 256) s2.potential_chord_) := by
    simp only [Chord.resolveOrArpeggiate, Chord.getChord_empty_table _ h03, if_true,
      Chord.arpeggiate_eq hB3]
    rfl
  rw [hroa] at hrun
  refine ⟨_, _, hrun, rfl, Chord.buffer_of_size_zero rfl, h02, ?_, ?_, ?_⟩
  · show s2.potential_chord_.length = s.potential_chord_.length
    exact hlen2
  · intro e he
    rcases hkey with ⟨-, h, hb⟩ | ⟨-, h, ha⟩
    · rw [h, hb] at he; exact he
    · rw [h, ha] at he
      exact (List.take_subset_take_left _ (Nat.sub_le _ 1)) he
  · intro hroom
    rcases hkey with ⟨-, h, hb⟩ | ⟨hno, -, -⟩
    · rw [h, hb]
    · exact absurd hroom hno

theorem Chord.resolveOrArpeggiate_empty_table (s : Chord) (h0 : s.chord_defs_size_ = 0)
    (now : Nat) : s.resolveOrArpeggiate now = s.arpeggiate := by
  simp only [Chord.resolveOrArpeggiate, s.getChord_empty_table h0, if_true]

theorem Chord.afterEachCycle_empty_buffer (s : Chord) (now : Nat)
    (hz : s.potential_chord_size_ = 0) :
    ∃ st, s.afterEachCycle now = .ok (st, []) ∧ st.potential_chord_size_ = 0
      ∧ st.chord_defs_ = s.chord_defs_ ∧ st.chord_defs_size_ = s.chord_defs_size_
      ∧ st.potential_chord_ = s.potential_chord_ := by
  have hc : ¬ (hasTimeExpired now s.start_time_ s.timeout_ = true
      ∧ s.potential_chord_size_ > 0) := by
    intro h; omega
  simp only [Chord.afterEachCycle, if_neg hc]
  split
  · exact ⟨_, rfl, hz, rfl, rfl, rfl⟩
  · exact ⟨_, rfl, hz, rfl, rfl, rfl⟩

/-- With the empty table and the empty buffer every call of `onKeyswitchEvent` passes its event
on unchanged and leaves the buffer empty, and `afterEachCycle` emits nothing. -/
theorem Chord.empty_table_call (P : Platform) (s : Chord) (c : Call)
    (h0 : s.chord_defs_size_ = 0) (hz : s.potential_chord_size_ = 0)
    (hcap : 0 < s.kMaxChordSize) :
    ∃ st, s.call P c = .ok (st, keyswitchEvents [c]) ∧ st.chord_defs_size_ = 0
      ∧ st.potential_chord_size_ = 0 ∧ st.kMaxChordSize = s.kMaxChordSize := by
  have hB : s.BufferOk := ⟨by rw [hz]; exact Nat.zero_le _, by rw [hz]; decide⟩
  cases c with
  | cycle now =>
    obtain ⟨st, h, hz', -, h0', harr⟩ := s.afterEachCycle_empty_buffer now hz
    exact ⟨st, h, h0'.trans h0, hz', by unfold Chord.kMaxChordSize; rw [harr]⟩
  | keyswitch now ignore event =>
    cases ignore with
    | true =>
      refine ⟨s, ?_, h0, hz, rfl⟩
      simp only [Chord.call, Chord.onKeyswitchEvent, if_true, Outcome.output, keyswitchEvents,
        List.nil_append]
    | false =>
      by_cases hdown : P.keyToggledOn event.state = true
      · by_cases hg : s.refusedByGuard now
        · refine ⟨s, ?_, h0, hz, rfl⟩
          simp only [Chord.call, Chord.onKeyswitchEvent_refused_eq P s now event hdown hg,
            Outcome.output, if_true, keyswitchEvents, List.nil_append]
        · obtain ⟨st, out, hrun, hz', -, h0', hk, -, hout⟩ :=
            Chord.empty_table_keydown P s now event h0 hdown hg hB hcap
          have : out = [] := by
            rw [hout (by omega), Chord.buffer_of_size_zero hz]
          subst this
          refine ⟨st, ?_, h0', hz', hk⟩
          simp only [Chord.call, hrun, Outcome.output, if_true, keyswitchEvents, List.nil_append]
      · have hup : P.keyToggledOn event.state = false := by simpa using hdown
        have hroa : s.resolveOrArpeggiate now
            = .ok ({ s with potential_chord_size_ := 0 }, []) := by
          rw [s.resolveOrArpeggiate_empty_table h0, Chord.arpeggiate_eq hB,
            Chord.buffer_of_size_zero hz]
        refine ⟨{ s with potential_chord_size_ := 0 }, ?_, h0, rfl, rfl⟩
        simp only [Chord.call, Chord.onKeyswitchEvent, hup, Bool.not_false, Bool.false_eq_true,
          if_false, if_true, hroa, Outcome.output, keyswitchEvents, List.nil_append]

/-- The loop of `inChord` inside a terminated trigger run, with the bound on the running index
stated on the run itself. -/
theorem Chord.inChordLoop_run_bounded (s : Chord) (index : Nat) (key : Key)
    (hidx : (index : Int) < (s.chord_defs_size_ : Int) - 1) :
    ∀ (todo : List Key) (rest : List Key) (i fuel : Nat),
      s.chord_defs_.drop i = todo ++ Key_NoKey :: rest → Key_NoKey ∉ todo →
      todo.length < fuel → i + todo.length < 256 →
      s.inChordLoop index key fuel i = .ok (decide (key ∈ todo)) := by
  intro todo
  induction todo with
  | nil =>
    intro rest i fuel hd _ hf _
    obtain ⟨f, rfl⟩ : ∃ f, fuel = f + 1 := ⟨fuel - 1, by simp at hf; omega⟩
    have hr := s.readDef_of_drop i Key_NoKey rest (by simpa using hd)
    simp [Chord.inChordLoop, hidx, hr]
  | cons x xs ih =>
    intro rest i fuel hd hno hf hb
    obtain ⟨f, rfl⟩ : ∃ f, fuel = f + 1 := ⟨fuel - 1, by simp at hf; omega⟩
    have hr := s.readDef_of_drop i x (xs ++ Key_NoKey :: rest) (by simpa using hd)
    have hx : x ≠ Key_NoKey := fun h => hno (by simp [h])
    have hd' := List.drop_succ_of_drop_cons _ _ _ _ (by simpa using hd)
    have hi : (i + 1) % 256 = i + 1 := Nat.mod_eq_of_lt (by simp at hb; omega)
    have ih' := ih rest (i + 1) f hd' (fun h => hno (by simp [h])) (by simp at hf; omega)
      (by simp at hb; omega)
    by_cases hk : x = key
    · subst hk
      simp [Chord.inChordLoop, hidx, hr, hx]
    · have hk' : ¬ key = x := fun h => hk h.symm
      simp [Chord.inChordLoop, hidx, hr, hx, hk, hk', hi, ih']

/-- A list that agrees with `l` on the `n` indices from `c` on holds, from `c` on, the same `n`
entries. -/
theorem List.drop_eq_take_append_of_agree {α : Type} (l l' : List α) (c n : Nat)
    (h : ∀ i, c ≤ i → i < c + n → l'[i]? = l[i]?) :
    l'.drop c = (l.drop c).take n ++ l'.drop (c + n) := by
  have h1 : (l'.drop c).take n = (l.drop c).take n := by
    apply List.ext_getElem?
    intro j
    simp only [List.getElem?_take, List.getElem?_drop]
    by_cases hj : j < n
    · simp only [hj, if_true]
      exact h (c + j) (by omega) (by omega)
    · simp only [hj, if_false]
  rw [← h1, ← List.drop_drop, List.take_append_drop]

/-- After `resetPriorKeypressTimestamp` the time elapsed since the guard timestamp, in 16-bit
arithmetic, is the interval plus one, and the guard reads as elapsed. -/
theorem Chord.elapsed_after_reset (s : Chord) (now : Nat)
    (h8 : s.minimum_prior_interval_ < 256) :
    ((now : Int) - ((s.resetPriorKeypressTimestamp now).prior_keypress_timestamp_ : Int)) % 65536
        = (s.minimum_prior_interval_ : Int) + 1
      ∧ hasTimeExpired now (s.resetPriorKeypressTimestamp now).prior_keypress_timestamp_
          (s.resetPriorKeypressTimestamp now).minimum_prior_interval_ = true := by
  have hp : ((s.resetPriorKeypressTimestamp now).prior_keypress_timestamp_ : Int)
      = ((now : Int) - ((s.minimum_prior_interval_ : Int) + 1)) % 65536 :=
    Int.toNat_of_nonneg (Int.emod_nonneg _ (by decide))
  have h1 : ((now : Int) - ((s.resetPriorKeypressTimestamp now).prior_keypress_timestamp_ : Int))
      % 65536 = (s.minimum_prior_interval_ : Int) + 1 := by
    rw [hp]; omega
  refine ⟨h1, ?_⟩
  show hasTimeExpired now (s.resetPriorKeypressTimestamp now).prior_keypress_timestamp_
    s.minimum_prior_interval_ = true
  unfold hasTimeExpired
  rw [h1]
  simp

/-- Resolve-or-Arpeggiate that returns on the empty buffer has replayed nothing and has left the
guard timestamp alone: `resolve` would have read the buffer at index -1. -/
theorem Chord.resolveOrArpeggiate_of_size_zero {s : Chord} {now : Nat} {st : Chord}
    {out : List KeyEvent} (hz : s.potential_chord_size_ = 0)
    (h : s.resolveOrArpeggiate now = .ok (st, out)) :
    out = [] ∧ st.prior_keypress_timestamp_ = s.prior_keypress_timestamp_ := by
  unfold Chord.resolveOrArpeggiate at h
  cases hg : s.getChord with
  | error f => rw [hg] at h; cases h
  | ok k =>
    rw [hg] at h
    by_cases hk : k = Key_NoKey
    · have hB : s.BufferOk := ⟨by rw [hz]; exact Nat.zero_le _, by rw [hz]; decide⟩
      simp only [hk, if_true, Chord.arpeggiate_eq hB, Except.ok.injEq, Prod.mk.injEq] at h
      obtain ⟨rfl, rfl⟩ := h
      exact ⟨Chord.buffer_of_size_zero hz, rfl⟩
    · simp only [hk, if_false, Chord.resolve] at h
      have : (s.resetPriorKeypressTimestamp now).readEvent
          (((s.resetPriorKeypressTimestamp now).potential_chord_size_ : Int) - 1)
          = .error .outOfBounds := by
        simp [Chord.readEvent, Chord.resetPriorKeypressTimestamp, hz]
      rw [this] at h
      cases h

/-- The guard timestamp after a key-down on the empty buffer that the guard does not refuse:
the value written before the append (the clock value for a key not expected before a chord, the
old value otherwise), or the reset value when the key completes a chord. -/
theorem Chord.prior_after_first_keydown (P : Platform) (s : Chord) (now : Nat)
    (event : KeyEvent) (hz : s.potential_chord_size_ = 0) (hcap : 0 < s.kMaxChordSize)
    (hdown : P.keyToggledOn event.state = true) (hg : ¬ s.refusedByGuard now) (o : Outcome)
    (h : s.onKeyswitchEvent P now false event = .ok o) :
    o.state.minimum_prior_interval_ = s.minimum_prior_interval_
    ∧ (((o.result = .ABORT ∨ (s.appendEvent event).getChord = .ok Key_NoKey)
        ∧ o.state.prior_keypress_timestamp_
          = (if Chord.isExpectedBeforeChord P event.key = false then now % 65536
             else s.prior_keypress_timestamp_))
      ∨ ((∃ k, (s.appendEvent event).getChord = .ok k ∧ k ≠ Key_NoKey) ∧ o.result = .OK
        ∧ o.state.prior_keypress_timestamp_
          = (s.resetPriorKeypressTimestamp now).prior_keypress_timestamp_)) := by
  rcases s.onKeyswitchEvent_cases P now event o h with
    ⟨hup, -⟩ | ⟨-, hr, -⟩ | ⟨-, -, s2, hlive, harr, -, -, hmpi, hprior, hc⟩
  · rw [hup] at hdown; cases hdown
  · exact absurd hr hg
  · have hp2 : s2.prior_keypress_timestamp_
        = (if Chord.isExpectedBeforeChord P event.key = false then now % 65536
           else s.prior_keypress_timestamp_) := by
      rw [hprior]; simp [hz]
    have hgc := Chord.getChord_congr hlive
    rcases hc with ⟨-, rfl⟩ | ⟨-, hno, st, out, hroa, rfl⟩ | ⟨-, k, hk, hne, rfl⟩
    · exact ⟨hmpi, Or.inl ⟨Or.inl rfl, hp2⟩⟩
    · have hsz2 : s2.potential_chord_size_ = 1 := by
        rw [hlive.2.2.1]
        have : s.potential_chord_size_ < s.kMaxChordSize := by omega
        rw [Chord.appendEvent, if_pos this]
        show (s.potential_chord_size_ + 1) % 256 = 1
        rw [hz]
      have hz3 : ({ s2 with potential_chord_size_ := (s2.potential_chord_size_ + 255) % 256 }
          : Chord).potential_chord_size_ = 0 := by
        show (s2.potential_chord_size_ + 255) % 256 = 0
        rw [hsz2]
      obtain ⟨-, hp⟩ := Chord.resolveOrArpeggiate_of_size_zero hz3 hroa
      refine ⟨?_, Or.inl ⟨Or.inr (by rw [← hgc]; exact hno), ?_⟩⟩
      · show st.minimum_prior_interval_ = _
        rw [(Chord.resolveOrArpeggiate_size hroa).2.2.2.2.2.2]; exact hmpi
      · show st.prior_keypress_timestamp_ = _
        rw [hp]; exact hp2
    · refine ⟨hmpi, Or.inr ⟨⟨k, by rw [← hgc]; exact hk, hne⟩, rfl, ?_⟩⟩
      show (s2.resetPriorKeypressTimestamp now).prior_keypress_timestamp_ = _
      simp only [Chord.resetPriorKeypressTimestamp, hmpi]

theorem Chord.Inv.of_size_zero {P : Platform} {ds : List ChordDef} {s : Chord}
    (hT : s.TableIs ds) (hz : s.potential_chord_size_ = 0) (hcap : 0 < s.kMaxChordSize)
    (h256 : s.kMaxChordSize < 256) : s.Inv P ds := by
  refine ⟨hT, ⟨by rw [hz]; exact Nat.zero_le _, by rw [hz]; decide⟩, hcap, h256, Or.inl hz, ?_⟩
  rw [Chord.buffer_of_size_zero hz]
  intro e he
  cases he

theorem Chord.resolveOrArpeggiate_inv {P : Platform} {ds : List ChordDef} {s : Chord}
    (hI : s.Inv P ds) {now : Nat} {st : Chord} {out : List KeyEvent}
    (h : s.resolveOrArpeggiate now = .ok (st, out)) : st.Inv P ds := by
  obtain ⟨hz, harr, ht, hts, -⟩ := Chord.resolveOrArpeggiate_size h
  obtain ⟨hT, -, hcap, h256, -⟩ := hI
  refine Chord.Inv.of_size_zero (hT.of_eq ht hts) hz ?_ ?_
  · unfold Chord.kMaxChordSize at hcap ⊢; rw [harr]; exact hcap
  · unfold Chord.kMaxChordSize at h256 ⊢; rw [harr]; exact h256

/-- When `isChordStrictSubset` answers true on a well-formed table, some definition has more
trigger keys than there are buffered events and holds all the buffered keys. -/
theorem Chord.waiting_of_isChordStrictSubset {ds : List ChordDef} {s : Chord} (hT : s.TableIs ds)
    (hB : s.BufferOk) (h : s.isChordStrictSubset = .ok true) :
    ∃ d ∈ ds, s.potential_chord_size_ < d.triggers.length ∧ ∀ e ∈ s.buffer, e.key ∈ d.triggers := by
  rw [Chord.isChordStrictSubset_eq hT hB] at h
  simp only [Except.ok.injEq, List.any_eq_true] at h
  obtain ⟨d, hd, hm⟩ := h
  simp only [Chord.strictSubsetOf, Bool.and_eq_true, decide_eq_true_eq, List.all_eq_true] at hm
  exact ⟨d, hd, hm.1, hm.2⟩

theorem Chord.isChordStrictSubset_of_waiting {ds : List ChordDef} {s : Chord} (hT : s.TableIs ds)
    (hB : s.BufferOk)
    (h : ∃ d ∈ ds, s.potential_chord_size_ < d.triggers.length
      ∧ ∀ e ∈ s.buffer, e.key ∈ d.triggers) :
    s.isChordStrictSubset = .ok true := by
  rw [Chord.isChordStrictSubset_eq hT hB]
  obtain ⟨d, hd, h1, h2⟩ := h
  have : ds.any s.strictSubsetOf = true := by
    rw [List.any_eq_true]
    refine ⟨d, hd, ?_⟩
    simp only [Chord.strictSubsetOf, Bool.and_eq_true, decide_eq_true_eq, List.all_eq_true]
    exact ⟨h1, h2⟩
  rw [this]

/-- The state on which a key-down is decided, and the states derived from it, inherit table and
buffer bounds from the state before the event. -/
theorem Chord.keydown_state_ok {ds : List ChordDef} {s s2 : Chord} {event : KeyEvent}
    (hT : s.TableIs ds) (hB : s.BufferOk) (hcap : 0 < s.kMaxChordSize)
    (h256 : s.kMaxChordSize < 256) (hlive : s2.SameLive (s.appendEvent event))
    (harr : s2.potential_chord_ = (s.appendEvent event).potential_chord_) :
    s2.TableIs ds ∧ s2.BufferOk ∧ 0 < s2.potential_chord_size_
      ∧ s2.kMaxChordSize = s.kMaxChordSize := by
  have hfr := s.appendEvent_frame event
  obtain ⟨hBa, hpos⟩ := Chord.appendEvent_bufferOk event hB ⟨hcap, h256⟩
  refine ⟨hT.of_eq (hlive.1.trans hfr.1) (hlive.2.1.trans hfr.2.1), ?_, ?_, ?_⟩
  · unfold Chord.BufferOk at hBa ⊢
    rw [harr, hlive.2.2.1]; exact hBa
  · rw [hlive.2.2.1]; exact hpos
  · unfold Chord.kMaxChordSize; rw [harr]; exact hfr.2.2.2.2.2.2

/-- A key-down finds room in the buffer of a state that satisfies the invariant, when no
definition has more trigger keys than the buffer has slots. -/
theorem Chord.Inv.room {P : Platform} {ds : List ChordDef} {s : Chord} (hI : s.Inv P ds)
    (hfit : ∀ d ∈ ds, d.triggers.length ≤ s.kMaxChordSize) :
    s.potential_chord_size_ < s.kMaxChordSize := by
  obtain ⟨-, -, hcap, -, hw, -⟩ := hI
  rcases hw with hz | ⟨d, hd, hlt, -⟩
  · omega
  · have := hfit d hd
    omega

/-- Every call returns on a state that satisfies the invariant, and the state it leaves
satisfies the invariant again. -/
theorem Chord.call_inv (P : Platform) (ds : List ChordDef) (s : Chord) (hI : s.Inv P ds)
    (c : Call) : ∃ st out, s.call P c = .ok (st, out) ∧ st.Inv P ds := by
  obtain ⟨hT, hB, hcap, h256, hw, hdowns⟩ := hI
  have hI : s.Inv P ds := ⟨hT, hB, hcap, h256, hw, hdowns⟩
  cases c with
  | cycle now =>
    obtain ⟨s1, out, h1, hI1⟩ : ∃ s1 out,
        (if hasTimeExpired now s.start_time_ s.timeout_ = true ∧ s.potential_chord_size_ > 0
          then s.resolveOrArpeggiate now else .ok (s, [])) = .ok (s1, out) ∧ s1.Inv P ds := by
      by_cases hc : hasTimeExpired now s.start_time_ s.timeout_ = true
          ∧ s.potential_chord_size_ > 0
      · obtain ⟨s1, out, hroa⟩ := Chord.resolveOrArpeggiate_total hT hB now
        exact ⟨s1, out, by rw [if_pos hc, hroa], Chord.resolveOrArpeggiate_inv hI hroa⟩
      · exact ⟨s, [], by rw [if_neg hc], hI⟩
    by_cases he : hasTimeExpired now s1.prior_keypress_timestamp_
        s1.minimum_prior_interval_ = true
    · refine ⟨s1.resetPriorKeypressTimestamp now, out, ?_, hI1⟩
      simp only [Chord.call, Chord.afterEachCycle, h1, if_pos he]
    · refine ⟨s1, out, ?_, hI1⟩
      simp only [Chord.call, Chord.afterEachCycle, h1, if_neg he]
  | keyswitch now ignore event =>
    obtain ⟨o, ho⟩ := Chord.onKeyswitchEvent_total P s now ignore event hT hB ⟨hcap, h256⟩
    refine ⟨o.state, o.output, by simp only [Chord.call, ho], ?_⟩
    cases ignore with
    | true =>
      simp only [Chord.onKeyswitchEvent, if_true, Except.ok.injEq] at ho
      subst ho
      exact hI
    | false =>
      rcases s.onKeyswitchEvent_cases P now event o ho with
        ⟨-, st, out', hroa, rfl⟩ | ⟨-, -, rfl⟩ | ⟨hdown, -, s2, hlive, harr, -, -, -, -, hc⟩
      · exact Chord.resolveOrArpeggiate_inv hI hroa
      · exact hI
      · obtain ⟨hT2, hB2, hpos2, hk2⟩ := Chord.keydown_state_ok hT hB hcap h256 hlive harr
        rcases hc with ⟨hsub, rfl⟩ | ⟨-, -, st, out', hroa, rfl⟩ | ⟨-, k, -, -, rfl⟩
        · have hcap2 : 0 < s2.potential_chord_.length := by
            unfold Chord.kMaxChordSize at hk2 hcap; omega
          have h2562 : s2.potential_chord_.length < 256 := by
            unfold Chord.kMaxChordSize at hk2 h256; omega
          have hw2 := Chord.waiting_of_isChordStrictSubset hT2 hB2 hsub
          refine ⟨hT2.of_eq rfl rfl, hB2, hcap2, h2562, Or.inr hw2, ?_⟩
          show ∀ e ∈ s2.buffer, P.keyToggledOn e.state = true
          rw [hlive.2.2.2]
          by_cases hroom : s.potential_chord_size_ < s.kMaxChordSize
          · rw [(Chord.appendEvent_room event hroom h256).2]
            intro e he
            rcases List.mem_append.mp he with h | h
            · exact hdowns e h
            · simp only [List.mem_singleton] at h
              rw [h]; exact hdown
          · rw [Chord.appendEvent_full event (by omega)]
            exact hdowns
        · obtain ⟨hz, harr', ht, hts, -⟩ := Chord.resolveOrArpeggiate_size hroa
          refine Chord.Inv.of_size_zero ((hT2.of_eq rfl rfl).of_eq ht hts) hz ?_ ?_
          · unfold Chord.kMaxChordSize at hk2 hcap ⊢
            show 0 < st.potential_chord_.length
            rw [harr']
            show 0 < s2.potential_chord_.length
            omega
          · unfold Chord.kMaxChordSize at hk2 h256 ⊢
            show st.potential_chord_.length < 256
            rw [harr']
            show s2.potential_chord_.length < 256
            omega
        · have hcap2 : 0 < s2.potential_chord_.length := by
            unfold Chord.kMaxChordSize at hk2 hcap; omega
          have h2562 : s2.potential_chord_.length < 256 := by
            unfold Chord.kMaxChordSize at hk2 h256; omega
          exact Chord.Inv.of_size_zero (hT2.of_eq rfl rfl) rfl hcap2 h2562

theorem Chord.run_inv (P : Platform) (ds : List ChordDef) :
    ∀ (calls : List Call) (s : Chord), s.Inv P ds →
      ∃ st out, Chord.run P s calls = .ok (st, out) ∧ st.Inv P ds := by
  intro calls
  induction calls with
  | nil => intro s hI; exact ⟨s, [], rfl, hI⟩
  | cons c cs ih =>
    intro s hI
    obtain ⟨s1, out1, hc, hI1⟩ := Chord.call_inv P ds s hI c
    obtain ⟨st, out2, hr, hIt⟩ := ih s1 hI1
    exact ⟨st, out1 ++ out2, by simp only [Chord.run, hc, hr], hIt⟩

theorem Chord.buffer_eq_nil_iff {s : Chord} (hB : s.BufferOk) :
    s.buffer = [] ↔ s.potential_chord_size_ = 0 := by
  rw [← List.length_eq_zero, Chord.length_buffer hB]

/-- After a non-ignored event on a state that satisfies the invariant the buffer is non-empty
exactly when the handler returned `ABORT`. -/
theorem Chord.nonempty_iff_abort {P : Platform} {ds : List ChordDef} {s : Chord}
    (hI : s.Inv P ds) (now : Nat) (event : KeyEvent) (o : Outcome)
    (ho : s.onKeyswitchEvent P now false event = .ok o) :
    o.state.potential_chord_size_ ≠ 0 ↔ o.result = .ABORT := by
  obtain ⟨hT, hB, hcap, h256, -, -⟩ := hI
  rcases s.onKeyswitchEvent_cases P now event o ho with
    ⟨-, st, out', hroa, rfl⟩ | ⟨-, hr, rfl⟩ | ⟨-, -, s2, hlive, harr, -, -, -, -, hc⟩
  · have hz := (Chord.resolveOrArpeggiate_size hroa).1
    constructor
    · intro h; exact absurd hz h
    · intro h; cases h
  · constructor
    · intro h; exact absurd hr.1 h
    · intro h; cases h
  · obtain ⟨-, -, hpos2, -⟩ := Chord.keydown_state_ok hT hB hcap h256 hlive harr
    rcases hc with ⟨-, rfl⟩ | ⟨-, -, st, out', hroa, rfl⟩ | ⟨-, k, -, -, rfl⟩
    · constructor
      · intro _; rfl
      · intro _
        show s2.potential_chord_size_ ≠ 0
        omega
    · have hz := (Chord.resolveOrArpeggiate_size hroa).1
      constructor
      · intro h; exact absurd hz h
      · intro h; cases h
    · constructor
      · intro h; exact absurd rfl h
      · intro h; cases h

theorem coveredKeyDowns_append (l₁ l₂ : List Entry) :
    coveredKeyDowns (l₁ ++ l₂) = coveredKeyDowns l₁ ++ coveredKeyDowns l₂ := by
  induction l₁ with
  | nil => rfl
  | cons it rest ih => simp [coveredKeyDowns, ih]

theorem outputEvents_append (l₁ l₂ : List Entry) :
    outputEvents (l₁ ++ l₂) = outputEvents l₁ ++ outputEvents l₂ := by
  induction l₁ with
  | nil => rfl
  | cons it rest ih => simp [outputEvents, ih]

theorem plainEntries_spec (P : Platform) (ds : List ChordDef) :
    ∀ l : List KeyEvent, (∀ e ∈ l, P.keyToggledOn e.state = true) →
      outputEvents (plainEntries l) = l ∧ coveredKeyDowns (plainEntries l) = l
        ∧ ∀ it ∈ plainEntries l, it.Accounts P ds := by
  intro l
  induction l with
  | nil => intro _; exact ⟨rfl, rfl, fun it h => by cases h⟩
  | cons e rest ih =>
    intro h
    obtain ⟨h1, h2, h3⟩ := ih (fun e' he' => h e' (List.mem_cons_of_mem _ he'))
    refine ⟨by simp [plainEntries, outputEvents, h1], by simp [plainEntries, coveredKeyDowns, h2],
      ?_⟩
    intro it hit
    simp only [plainEntries, List.mem_cons] at hit
    rcases hit with rfl | hit
    · exact Or.inr (Or.inl ⟨rfl, h e (List.mem_cons_self _ _)⟩)
    · exact h3 it hit

theorem Chord.firstExact_spec (s : Chord) :
    ∀ ds : List ChordDef, s.firstExact ds ≠ Key_NoKey →
      ∃ d ∈ ds, s.exactMatch d = true ∧ d.output = s.firstExact ds := by
  intro ds
  induction ds with
  | nil => intro h; exact absurd rfl h
  | cons d ds ih =>
    intro h
    by_cases hm : s.exactMatch d = true
    · exact ⟨d, by simp, hm, by simp [Chord.firstExact, hm]⟩
    · simp only [Chord.firstExact, hm] at h
      obtain ⟨d', hd', hm', ho⟩ := ih h
      exact ⟨d', by simp [hd'], hm', by simp [Chord.firstExact, hm, ho]⟩

/-- What `getChord` returns on a well-formed table, when it is not `Key_NoKey`, is the output
key of a definition with as many trigger keys as there are buffered events, all buffered keys
among them. -/
theorem Chord.getChord_matches {ds : List ChordDef} {s : Chord} (hT : s.TableIs ds)
    (hB : s.BufferOk) {k : Key} (hg : s.getChord = .ok k) (hk : k ≠ Key_NoKey) :
    ∃ d ∈ ds, d.output = k ∧ d.triggers.length = s.buffer.length
      ∧ (∀ e ∈ s.buffer, e.key ∈ d.triggers) ∧ 0 < s.potential_chord_size_ := by
  rw [Chord.getChord_eq hT hB] at hg
  simp only [Except.ok.injEq] at hg
  obtain ⟨d, hd, hm, ho⟩ := s.firstExact_spec ds (by rw [hg]; exact hk)
  simp only [Chord.exactMatch, Bool.and_eq_true, decide_eq_true_eq, List.all_eq_true] at hm
  have hw := (hT.1 d hd).1
  have hpos : 0 < d.triggers.length := List.length_pos.mpr hw
  exact ⟨d, hd, ho.trans hg, by rw [Chord.length_buffer hB]; exact hm.1, hm.2, by omega⟩

/-- Resolve-or-Arpeggiate accounts for the whole buffer: it replays every buffered event
unchanged, or folds them all into one substitution event. -/
theorem Chord.resolveOrArpeggiate_accounts (P : Platform) {ds : List ChordDef} {s : Chord}
    (hT : s.TableIs ds) (hB : s.BufferOk)
    (hdowns : ∀ e ∈ s.buffer, P.keyToggledOn e.state = true) {now : Nat} {st : Chord}
    {out : List KeyEvent} (h : s.resolveOrArpeggiate now = .ok (st, out)) :
    ∃ ledger : List Entry, outputEvents ledger = out ∧ coveredKeyDowns ledger = s.buffer
      ∧ ∀ it ∈ ledger, it.Accounts P ds := by
  unfold Chord.resolveOrArpeggiate at h
  cases hg : s.getChord with
  | error f => rw [hg] at h; cases h
  | ok k =>
    rw [hg] at h
    by_cases hk : k = Key_NoKey
    · simp only [hk, if_true, Chord.arpeggiate_eq hB, Except.ok.injEq, Prod.mk.injEq] at h
      obtain ⟨h1, h2, h3⟩ := plainEntries_spec P ds s.buffer hdowns
      exact ⟨plainEntries s.buffer, by rw [h1, h.2], h2, h3⟩
    · obtain ⟨d, hd, ho, hlen, hall, hpos⟩ := Chord.getChord_matches hT hB hg hk
      obtain ⟨last, hlast, hres⟩ := Chord.resolve_eq hB hpos now k
      simp only [hk, if_false, hres, Except.ok.injEq, Prod.mk.injEq] at h
      refine ⟨[⟨⟨last.addr, last.state, k, last.id⟩, s.buffer⟩], ?_, ?_, ?_⟩
      · simp only [outputEvents]; exact h.2
      · simp [coveredKeyDowns]
      · intro it hit
        simp only [List.mem_singleton] at hit
        subst hit
        exact Or.inr (Or.inr ⟨d, hd, last, hlast, by rw [ho], by rw [ho]; exact hk, hlen, hall⟩)

/-- One call that is not ignored, on a state that satisfies the invariant and whose table has
no definition larger than the buffer: what it sends on accounts for exactly the key-downs that
left the buffer, and the key-down it received is sent on, folded or buffered. -/
theorem Chord.call_accounts (P : Platform) (ds : List ChordDef) (s : Chord) (hI : s.Inv P ds)
    (hfit : ∀ d ∈ ds, d.triggers.length ≤ s.kMaxChordSize) (c : Call) (hc : c.NotIgnored) :
    ∃ st out, s.call P c = .ok (st, out) ∧ st.Inv P ds ∧ st.kMaxChordSize = s.kMaxChordSize
      ∧ ∃ ledger : List Entry, outputEvents ledger = out
          ∧ (∀ it ∈ ledger, it.Accounts P ds)
          ∧ s.buffer ++ keyDowns P [c] = coveredKeyDowns ledger ++ st.buffer := by
  obtain ⟨st, out, hcall, hI'⟩ := Chord.call_inv P ds s hI c
  have hroom := hI.room hfit
  obtain ⟨hT, hB, hcap, h256, hw, hdowns⟩ := hI
  have hk := (Chord.call_size_le P s c st out hB.1 h256 hcall).2
  refine ⟨st, out, hcall, hI', hk, ?_⟩
  cases c with
  | cycle now =>
    obtain ⟨s1, h1, h2⟩ := s.afterEachCycle_cases now st out hcall
    have hb : st.buffer = s1.buffer := by
      rcases h2 with ⟨-, rfl⟩ | ⟨-, rfl⟩ <;> rfl
    rcases h1 with ⟨-, -, hroa⟩ | ⟨-, rfl, rfl⟩
    · obtain ⟨ledger, ho, hcov, hacc⟩ := Chord.resolveOrArpeggiate_accounts P hT hB hdowns hroa
      have hz := (Chord.resolveOrArpeggiate_size hroa).1
      refine ⟨ledger, ho, hacc, ?_⟩
      rw [hb, Chord.buffer_of_size_zero hz, hcov]
      simp [keyDowns]
    · refine ⟨[], rfl, fun it h => absurd h (List.not_mem_nil it), ?_⟩
      rw [hb]
      simp [keyDowns, coveredKeyDowns]
  | keyswitch now ignore event =>
    have hig : ignore = false := hc
    subst hig
    simp only [Chord.call] at hcall
    cases ho : s.onKeyswitchEvent P now false event with
    | error f => rw [ho] at hcall; cases hcall
    | ok o =>
      rw [ho] at hcall
      simp only [Except.ok.injEq, Prod.mk.injEq] at hcall
      obtain ⟨rfl, rfl⟩ := hcall
      rcases s.onKeyswitchEvent_cases P now event o ho with
        ⟨hup, st, out', hroa, rfl⟩ | ⟨hdown, hr, rfl⟩
          | ⟨hdown, -, s2, hlive, harr, -, -, -, -, hcase⟩
      · -- a release: Resolve-or-Arpeggiate, then the release itself
        obtain ⟨ledger, hout, hcov, hacc⟩ :=
          Chord.resolveOrArpeggiate_accounts P hT hB hdowns hroa
        have hz := (Chord.resolveOrArpeggiate_size hroa).1
        refine ⟨ledger ++ [⟨event, []⟩], ?_, ?_, ?_⟩
        · rw [outputEvents_append, hout]
          simp [Outcome.output, outputEvents]
        · intro it hit
          rcases List.mem_append.mp hit with h | h
          · exact hacc it h
          · simp only [List.mem_singleton] at h
            subst h
            exact Or.inl ⟨rfl, hup⟩
        · rw [coveredKeyDowns_append, hcov]
          show s.buffer ++ keyDowns P [Call.keyswitch now false event] = _ ++ st.buffer
          rw [Chord.buffer_of_size_zero hz]
          simp [keyDowns, hup, coveredKeyDowns]
      · -- a key-down refused by the guard
        refine ⟨[⟨event, [event]⟩], ?_, ?_, ?_⟩
        · simp [Outcome.output, outputEvents]
        · intro it hit
          simp only [List.mem_singleton] at hit
          subst hit
          exact Or.inr (Or.inl ⟨rfl, hdown⟩)
        · show s.buffer ++ keyDowns P [Call.keyswitch now false event] = _ ++ s.buffer
          rw [Chord.buffer_of_size_zero hr.1]
          simp [keyDowns, hdown, coveredKeyDowns]
      · obtain ⟨hT2, hB2, -, -⟩ := Chord.keydown_state_ok hT hB hcap h256 hlive harr
        have hbuf2 : s2.buffer = s.buffer ++ [event] := by
          rw [hlive.2.2.2]; exact (Chord.appendEvent_room event hroom h256).2
        rcases hcase with ⟨-, rfl⟩ | ⟨-, -, st, out', hroa, rfl⟩ | ⟨-, k, hgk, hne, rfl⟩
        · -- wait: the event is buffered
          refine ⟨[], ?_, fun it h => absurd h (List.not_mem_nil it), ?_⟩
          · simp [Outcome.output, outputEvents]
          · show s.buffer ++ keyDowns P [Call.keyswitch now false event] = _ ++ s2.buffer
            rw [hbuf2]
            simp [keyDowns, hdown, coveredKeyDowns]
        · -- break: the old buffer is replayed or resolved, then the event is sent on
          have hsame := Chord.sameLive_after_break hlive harr hroom hB.2
          have hb3 : ({ s2 with
              potential_chord_size_ := (s2.potential_chord_size_ + 255) % 256 } : Chord).buffer
              = s.buffer := hsame.2.2.2.symm
          have hB3 : ({ s2 with
              potential_chord_size_ := (s2.potential_chord_size_ + 255) % 256 }
              : Chord).BufferOk := by
            have h1 : (s2.potential_chord_size_ + 255) % 256 = s.potential_chord_size_ :=
              hsame.2.2.1.symm
            have h2 := hB2.1
            have h3 := hlive.2.2.1
            have h4 := (Chord.appendEvent_room event hroom h256).1
            refine ⟨?_, ?_⟩
            · show (s2.potential_chord_size_ + 255) % 256 ≤ s2.potential_chord_.length
              omega
            · show (s2.potential_chord_size_ + 255) % 256 < 256
              omega
          have hT3 : ({ s2 with
              potential_chord_size_ := (s2.potential_chord_size_ + 255) % 256 }
              : Chord).TableIs ds := hT2.of_eq rfl rfl
          have hd3 : ∀ e ∈ ({ s2 with
              potential_chord_size_ := (s2.potential_chord_size_ + 255) % 256 } : Chord).buffer,
              P.keyToggledOn e.state = true := by
            rw [hb3]; exact hdowns
          obtain ⟨ledger, hout, hcov, hacc⟩ :=
            Chord.resolveOrArpeggiate_accounts P hT3 hB3 hd3 hroa
          have hz := (Chord.resolveOrArpeggiate_size hroa).1
          refine ⟨ledger ++ [⟨event, [event]⟩], ?_, ?_, ?_⟩
          · rw [outputEvents_append, hout]
            simp [Outcome.output, outputEvents]
          · intro it hit
            rcases List.mem_append.mp hit with h | h
            · exact hacc it h
            · simp only [List.mem_singleton] at h
              subst h
              exact Or.inr (Or.inl ⟨rfl, hdown⟩)
          · rw [coveredKeyDowns_append, hcov, hb3]
            show s.buffer ++ keyDowns P [Call.keyswitch now false event] = _ ++ st.buffer
            rw [Chord.buffer_of_size_zero hz]
            simp [keyDowns, hdown, coveredKeyDowns]
        · -- complete: the buffer and the event are folded into the event
          obtain ⟨d, hd, ho', hlen, hall, -⟩ := Chord.getChord_matches hT2 hB2 hgk hne
          refine ⟨[⟨{ event with key := k }, s2.buffer⟩], ?_, ?_, ?_⟩
          · simp [Outcome.output, outputEvents]
          · intro it hit
            simp only [List.mem_singleton] at hit
            subst hit
            refine Or.inr (Or.inr ⟨d, hd, event, ?_, by rw [ho'], by rw [ho']; exact hne, hlen,
              hall⟩)
            show s2.buffer.getLast? = some event
            rw [hbuf2]
            simp
          · show s.buffer ++ keyDowns P [Call.keyswitch now false event]
              = _ ++ List.take 0 s2.potential_chord_
            rw [List.take_zero]
            simp [keyDowns, hdown, coveredKeyDowns, hbuf2]

theorem keyDowns_cons (P : Platform) (c : Call) (cs : List Call) :
    keyDowns P (c :: cs) = keyDowns P [c] ++ keyDowns P cs := by
  cases c with
  | cycle now => rfl
  | keyswitch now ignore event =>
    by_cases h : P.keyToggledOn event.state = true <;> simp [keyDowns, h]

theorem Chord.run_accounts (P : Platform) (ds : List ChordDef) :
    ∀ (calls : List Call) (s : Chord), s.Inv P ds →
      (∀ d ∈ ds, d.triggers.length ≤ s.kMaxChordSize) → (∀ c ∈ calls, c.NotIgnored) →
      ∃ st out, Chord.run P s calls = .ok (st, out) ∧ st.Inv P ds
        ∧ ∃ ledger : List Entry, outputEvents ledger = out
            ∧ (∀ it ∈ ledger, it.Accounts P ds)
            ∧ s.buffer ++ keyDowns P calls = coveredKeyDowns ledger ++ st.buffer := by
  intro calls
  induction calls with
  | nil =>
    intro s hI _ _
    exact ⟨s, [], rfl, hI, [], rfl, fun it h => absurd h (List.not_mem_nil it), by simp [keyDowns, coveredKeyDowns]⟩
  | cons c cs ih =>
    intro s hI hfit hni
    obtain ⟨s1, out1, hc, hI1, hk1, l1, ho1, ha1, he1⟩ :=
      Chord.call_accounts P ds s hI hfit c (hni c (List.mem_cons_self _ _))
    obtain ⟨st, out2, hr, hIt, l2, ho2, ha2, he2⟩ :=
      ih s1 hI1 (by rw [hk1]; exact hfit) (fun c' hc' => hni c' (List.mem_cons_of_mem _ hc'))
    refine ⟨st, out1 ++ out2, by simp only [Chord.run, hc, hr], hIt, l1 ++ l2, ?_, ?_, ?_⟩
    · rw [outputEvents_append, ho1, ho2]
    · intro it hit
      rcases List.mem_append.mp hit with h | h
      · exact ha1 it h
      · exact ha2 it h
    · rw [keyDowns_cons, ← List.append_assoc, he1, List.append_assoc, he2,
        coveredKeyDowns_append, List.append_assoc]

theorem coveredKeyDowns_of_plain :
    ∀ ledger : List Entry, (∀ it ∈ ledger, it.covers = [it.out]) →
      coveredKeyDowns ledger = outputEvents ledger := by
  intro ledger
  induction ledger with
  | nil => intro _; rfl
  | cons it rest ih =>
    intro h
    have h1 := h it (List.mem_cons_self _ _)
    have h2 := ih (fun it' h' => h it' (List.mem_cons_of_mem _ h'))
    simp [coveredKeyDowns, outputEvents, h1, h2]

theorem mem_outputEvents :
    ∀ (ledger : List Entry) (it : Entry), it ∈ ledger → it.out ∈ outputEvents ledger := by
  intro ledger
  induction ledger with
  | nil => intro it h; cases h
  | cons x rest ih =>
    intro it h
    rcases List.mem_cons.mp h with rfl | h
    · simp [outputEvents]
    · simp [outputEvents, ih it h]

/-! ## Tables that are not well formed, and the guard across a cycle -/

theorem Chord.TableParses.fuel {s : Chord} {ds : List ChordDef} {tail : List Key}
    (hT : s.TableParses ds tail) : ∃ f, loopFuel = f + 2 + ds.length := by
  obtain ⟨-, henc, -, hlen⟩ := hT
  have h1 := encodeDefs_length_ge ds
  have h2 : (encodeDefs ds).length ≤ s.chord_defs_.length := by rw [henc]; simp
  exact ⟨loopFuel - 2 - ds.length, by unfold loopFuel; omega⟩

/-- What Resolve-or-Arpeggiate does to the guard: resolving a chord resets the guard timestamp,
replaying leaves it alone. -/
theorem Chord.resolveOrArpeggiate_guard {s : Chord} {now : Nat} {st : Chord}
    {out : List KeyEvent} (h : s.resolveOrArpeggiate now = .ok (st, out)) :
    st.minimum_prior_interval_ = s.minimum_prior_interval_
      ∧ ((∃ k, k ≠ Key_NoKey ∧ s.getChord = .ok k
            ∧ st.prior_keypress_timestamp_
                = (s.resetPriorKeypressTimestamp now).prior_keypress_timestamp_)
        ∨ (s.getChord = .ok Key_NoKey
            ∧ st.prior_keypress_timestamp_ = s.prior_keypress_timestamp_)) := by
  refine ⟨(Chord.resolveOrArpeggiate_size h).2.2.2.2.2.2, ?_⟩
  unfold Chord.resolveOrArpeggiate at h
  cases hg : s.getChord with
  | error f => rw [hg] at h; cases h
  | ok k =>
    rw [hg] at h
    by_cases hk : k = Key_NoKey
    · simp only [hk, if_true, Chord.arpeggiate] at h
      cases ha : s.arpeggiateLoop loopFuel 0 with
      | error f => rw [ha] at h; cases h
      | ok l =>
        rw [ha] at h
        simp only [Except.ok.injEq, Prod.mk.injEq] at h
        obtain ⟨rfl, -⟩ := h
        exact Or.inr ⟨by rw [hk], rfl⟩
    · simp only [hk, if_false, Chord.resolve] at h
      cases hr : (s.resetPriorKeypressTimestamp now).readEvent
          (((s.resetPriorKeypressTimestamp now).potential_chord_size_ : Int) - 1) with
      | error f => rw [hr] at h; cases h
      | ok e =>
        rw [hr] at h
        simp only [Except.ok.injEq, Prod.mk.injEq] at h
        obtain ⟨rfl, -⟩ := h
        exact Or.inl ⟨k, hk, rfl, rfl⟩

/-- On a well-formed table `afterEachCycle` returns. -/
theorem Chord.afterEachCycle_total {s : Chord} {ds : List ChordDef} (hT : s.TableIs ds)
    (hB : s.BufferOk) (now : Nat) : ∃ st out, s.afterEachCycle now = .ok (st, out) := by
  unfold Chord.afterEachCycle
  by_cases hc : hasTimeExpired now s.start_time_ s.timeout_ = true ∧ s.potential_chord_size_ > 0
  · obtain ⟨s1, out, hroa⟩ := Chord.resolveOrArpeggiate_total hT hB now
    simp only [if_pos hc, hroa]
    split
    · exact ⟨_, _, rfl⟩
    · exact ⟨_, _, rfl⟩
  · simp only [if_neg hc]
    split
    · exact ⟨_, _, rfl⟩
    · exact ⟨_, _, rfl⟩

/-! ## The matching engine -/

/-- C1. On a well-formed table `getChord` returns the output key of the first definition, in
table order, on which `isChord` answers true, and `Key_NoKey` when `isChord` answers false on
every definition. `chordSize` finds the trigger count of every definition and `isChord` answers on
every definition. When two definitions have the same trigger set and the later one matches, and
no definition before the earlier one matches, the output of the earlier one is returned. -/
theorem getChord_first_match (s : Chord) (ds : List ChordDef) (hT : s.TableIs ds)
    (hB : s.BufferOk) :
    (∀ j d, ds.get? j = some d →
        s.chordSize (defStart ds j) = .ok d.triggers.length
        ∧ (s.isChord (defStart ds j) d.triggers.length = .ok true
          ∨ s.isChord (defStart ds j) d.triggers.length = .ok false))
    ∧ (∀ j d, ds.get? j = some d →
        s.isChord (defStart ds j) d.triggers.length = .ok true →
        (∀ i d', i < j → ds.get? i = some d' →
          s.isChord (defStart ds i) d'.triggers.length = .ok false) →
        s.getChord = .ok d.output)
    ∧ ((∀ j d, ds.get? j = some d →
          s.isChord (defStart ds j) d.triggers.length = .ok false) →
        s.getChord = .ok Key_NoKey)
    ∧ (∀ i j di dj, i < j → ds.get? i = some di → ds.get? j = some dj →
        di.triggers.length = dj.triggers.length → (∀ k, k ∈ di.triggers ↔ k ∈ dj.triggers) →
        s.isChord (defStart ds j) dj.triggers.length = .ok true →
        (∀ i' d', i' < i → ds.get? i' = some d' →
          s.isChord (defStart ds i') d'.triggers.length = .ok false) →
        s.getChord = .ok di.output) := by
  have hget := Chord.getChord_eq hT hB
  have hch : ∀ j d, ds.get? j = some d →
      s.isChord (defStart ds j) d.triggers.length = .ok (s.exactMatch d) :=
    fun j d hj => Chord.isChord_defStart hT hB hj
  refine ⟨?_, ?_, ?_, ?_⟩
  · intro j d hj
    refine ⟨Chord.chordSize_defAt (Chord.defAt_defStart hT.2.1 hj) (hT.1 d (List.get?_mem hj))
      hT.2.2.1 hT.2.2.2, ?_⟩
    rw [hch j d hj]
    cases s.exactMatch d <;> simp
  · intro j d hj hm hbefore
    rw [hget, s.firstExact_of_first ds j d hj]
    · rw [hch j d hj] at hm; simpa using hm
    · intro i d' hi hget'
      have := hbefore i d' hi hget'
      rw [hch i d' hget'] at this; simpa using this
  · intro hnone
    rw [hget, s.firstExact_of_none ds]
    intro j d hj
    have := hnone j d hj
    rw [hch j d hj] at this; simpa using this
  · intro i j di dj hij hi hj hlen hset hm hbefore
    rw [hget, s.firstExact_of_first ds i di hi]
    · rw [hch j dj hj] at hm
      have hm' : s.exactMatch dj = true := by simpa using hm
      simp only [Chord.exactMatch, Bool.and_eq_true, decide_eq_true_eq, List.all_eq_true] at hm' ⊢
      exact ⟨hlen.trans hm'.1, fun e he => (hset e.key).mpr (hm'.2 e he)⟩
    · intro i' d' hi' hget'
      have := hbefore i' d' hi' hget'
      rw [hch i' d' hget'] at this; simpa using this

/-- C1, at the table `{4,5} -> 27`, `{5,4} -> 29` with the keys 5 and 4 buffered: the output of
the first definition, 27, is returned. -/
theorem getChord_first_match_witness :
    (exampleState (encodeDefs duplicateDefs) [press 5 1, press 4 2]).TableIs duplicateDefs
    ∧ (exampleState (encodeDefs duplicateDefs) [press 5 1, press 4 2]).BufferOk
    ∧ (exampleState (encodeDefs duplicateDefs) [press 5 1, press 4 2]).getChord = .ok 27 :=
  have hT : (exampleState (encodeDefs duplicateDefs) [press 5 1, press 4 2]).TableIs
      duplicateDefs := by
    refine ⟨by decide, rfl, rfl, by decide⟩
  have hB : (exampleState (encodeDefs duplicateDefs) [press 5 1, press 4 2]).BufferOk := by
    constructor <;> decide
  ⟨hT, hB, (getChord_first_match _ _ hT hB).2.2.2 0 1 ⟨[4, 5], 27⟩ ⟨[5, 4], 29⟩ (by decide) rfl rfl
    rfl (fun k => by simp [or_comm]) rfl (by intro i' d' h; omega)⟩

/-- C2. On a well-formed table, for a definition with pairwise distinct trigger keys and a
buffer with pairwise distinct keys, `isChord` at the start of the definition, with the trigger
count `chordSize` finds there, answers true exactly when the buffered keys and the trigger keys
are the same set. -/
theorem isChord_iff_same_key_set (s : Chord) (ds : List ChordDef) (hT : s.TableIs ds)
    (hB : s.BufferOk) (j : Nat) (d : ChordDef) (hj : ds.get? j = some d)
    (hd : d.triggers.Nodup) (hb : (s.buffer.map KeyEvent.key).Nodup) :
    s.chordSize (defStart ds j) = .ok d.triggers.length
    ∧ ∃ b, s.isChord (defStart ds j) d.triggers.length = .ok b
        ∧ (b = true ↔ ∀ k, k ∈ s.buffer.map KeyEvent.key ↔ k ∈ d.triggers) := by
  refine ⟨Chord.chordSize_defAt (Chord.defAt_defStart hT.2.1 hj) (hT.1 d (List.get?_mem hj))
      hT.2.2.1 hT.2.2.2, s.exactMatch d, Chord.isChord_defStart hT hB hj, ?_⟩
  have hlenb : (s.buffer.map KeyEvent.key).length = s.potential_chord_size_ := by
    rw [List.length_map, Chord.length_buffer hB]
  simp only [Chord.exactMatch, Bool.and_eq_true, decide_eq_true_eq, List.all_eq_true]
  constructor
  · rintro ⟨hlen, hall⟩
    have hsub : s.buffer.map KeyEvent.key ⊆ d.triggers := by
      intro k hk
      obtain ⟨e, he, rfl⟩ := List.mem_map.mp hk
      exact hall e he
    have hperm := (List.subperm_of_subset hb hsub).perm_of_length_le (by omega)
    exact fun k => hperm.mem_iff
  · intro hset
    have hperm : (s.buffer.map KeyEvent.key).Perm d.triggers :=
      (List.perm_ext_iff_of_nodup hb hd).mpr hset
    refine ⟨by rw [← hperm.length_eq, hlenb], fun e he => (hset e.key).mp ?_⟩
    exact List.mem_map.mpr ⟨e, he, rfl⟩

/-- C2, at the definition `{5,4} -> 29` with the keys 5 and 4 buffered. -/
theorem isChord_iff_same_key_set_witness :
    (exampleState (encodeDefs duplicateDefs) [press 5 1, press 4 2]).isChord 4 2 = .ok true :=
  have hT : (exampleState (encodeDefs duplicateDefs) [press 5 1, press 4 2]).TableIs
      duplicateDefs := by
    refine ⟨by decide, rfl, rfl, by decide⟩
  have hB : (exampleState (encodeDefs duplicateDefs) [press 5 1, press 4 2]).BufferOk := by
    constructor <;> decide
  by
    obtain ⟨_, b, hb, hiff⟩ := isChord_iff_same_key_set _ _ hT hB 1 ⟨[5, 4], 29⟩ rfl
      (by decide) (by decide)
    have hkeys : List.map KeyEvent.key
        (exampleState (encodeDefs duplicateDefs) [press 5 1, press 4 2]).buffer = [5, 4] := rfl
    have : b = true := hiff.mpr (fun k => by rw [hkeys])
    rw [this] at hb
    exact hb

/-- C3. On a well-formed table `isChordStrictSubset` answers true exactly when some definition
has more trigger keys than there are buffered events and holds the key of every buffered event
among its trigger keys. -/
theorem isChordStrictSubset_iff (s : Chord) (ds : List ChordDef) (hT : s.TableIs ds)
    (hB : s.BufferOk) :
    ∃ b, s.isChordStrictSubset = .ok b
      ∧ (b = true ↔ ∃ d ∈ ds, s.potential_chord_size_ < d.triggers.length
          ∧ ∀ e ∈ s.buffer, e.key ∈ d.triggers) := by
  refine ⟨ds.any s.strictSubsetOf, Chord.isChordStrictSubset_eq hT hB, ?_⟩
  simp [Chord.strictSubsetOf, List.any_eq_true]

/-- C3, at the table `{4,5} -> 27`, `{5,4} -> 29` with the key 5 buffered. -/
theorem isChordStrictSubset_iff_witness :
    (exampleState (encodeDefs duplicateDefs) [press 5 1]).isChordStrictSubset = .ok true :=
  have hT : (exampleState (encodeDefs duplicateDefs) [press 5 1]).TableIs duplicateDefs := by
    refine ⟨by decide, rfl, rfl, by decide⟩
  have hB : (exampleState (encodeDefs duplicateDefs) [press 5 1]).BufferOk := by
    constructor <;> decide
  by
    obtain ⟨b, hb, hiff⟩ := isChordStrictSubset_iff _ _ hT hB
    have : b = true := hiff.mpr ⟨⟨[4, 5], 27⟩, by decide, by decide, by decide⟩
    rw [this] at hb
    exact hb

/-! ## The handler on a key-down -/

/-- C4, amended. For a non-ignored event `onKeyswitchEvent` returns on every well-formed table,
and whenever it returns, the result is `ABORT` exactly when the event is a key-down that the
guard does not refuse and the buffer after `appendEvent` is a strict subset of some definition.
In that case nothing is handed to the dispatcher, the event is unchanged, `start_time_` is the
current cycle time and the buffer is the one `appendEvent` left: the old buffer followed by the
event when there was room, the old buffer alone when it was full. -/
theorem onKeyswitchEvent_abort_iff (P : Platform) (s : Chord) (now : Nat) (event : KeyEvent) :
    (∀ ds, s.TableIs ds → s.BufferOk → 0 < s.kMaxChordSize → s.kMaxChordSize < 256 →
      ∃ o, s.onKeyswitchEvent P now false event = .ok o)
    ∧ ∀ o, s.onKeyswitchEvent P now false event = .ok o →
      (o.result = .ABORT ↔
        (P.keyToggledOn event.state = true ∧ ¬ s.refusedByGuard now
          ∧ (s.appendEvent event).isChordStrictSubset = .ok true))
      ∧ (o.result = .ABORT →
          o.emitted = [] ∧ o.event = event ∧ o.state.start_time_ = now % 65536
          ∧ o.state.potential_chord_ = (s.appendEvent event).potential_chord_
          ∧ o.state.potential_chord_size_ = (s.appendEvent event).potential_chord_size_
          ∧ (s.potential_chord_size_ < s.kMaxChordSize → s.kMaxChordSize < 256 →
              o.state.buffer = s.buffer ++ [event])
          ∧ (s.kMaxChordSize ≤ s.potential_chord_size_ → o.state.buffer = s.buffer)) := by
  refine ⟨fun ds hT hB h0 h256 => Chord.onKeyswitchEvent_total P s now false event hT hB ⟨h0, h256⟩,
    ?_⟩
  intro o ho
  by_cases hdown : P.keyToggledOn event.state = true
  · by_cases hg : s.refusedByGuard now
    · have hg' : s.potential_chord_size_ = 0
          ∧ (!hasTimeExpired now s.prior_keypress_timestamp_ s.minimum_prior_interval_) = true :=
        ⟨hg.1, by simp [hg.2]⟩
      simp only [Chord.onKeyswitchEvent, hdown, Bool.not_true, Bool.false_eq_true, if_false,
        if_pos hg', Except.ok.injEq] at ho
      subst ho
      simp [hg]
    · obtain ⟨s2, hlive, harr, -, -, -, -, hrun⟩ :=
        Chord.onKeyswitchEvent_keydown P s now event hdown hg
      rw [hrun, Chord.isChordStrictSubset_congr hlive] at ho
      cases hsub : (s.appendEvent event).isChordStrictSubset with
      | error f => rw [hsub] at ho; cases ho
      | ok b =>
        rw [hsub] at ho
        cases b with
        | true =>
          simp only [Except.ok.injEq] at ho
          subst ho
          refine ⟨by simp [hdown, hg], fun _ => ⟨rfl, rfl, rfl, harr, hlive.2.2.1, ?_, ?_⟩⟩
          · intro hroom h256
            have := (Chord.appendEvent_room event hroom h256).2
            rw [← this, ← hlive.2.2.2]; rfl
          · intro hfull
            have := Chord.appendEvent_full event hfull
            have h2 := hlive.2.2.2
            rw [this] at h2
            rw [← h2]; rfl
        | false =>
          have hres : o.result = .OK := by
            simp only at ho
            cases hgc : s2.getChord with
            | error f => rw [hgc] at ho; cases ho
            | ok k =>
              rw [hgc] at ho
              by_cases hk : k = Key_NoKey
              · simp only [hk, if_true] at ho
                cases hroa : ({ s2 with
                    potential_chord_size_ := (s2.potential_chord_size_ + 255) % 256 }
                    : Chord).resolveOrArpeggiate now with
                | error f => rw [hroa] at ho; cases ho
                | ok r =>
                  rw [hroa] at ho
                  obtain ⟨s4, out⟩ := r
                  simp only [Except.ok.injEq] at ho
                  subst ho; rfl
              · simp only [hk, if_false, Except.ok.injEq] at ho
                subst ho; rfl
          simp [hres]
  · have hup : P.keyToggledOn event.state = false := by simpa using hdown
    have hres : o.result = .OK := by
      simp only [Chord.onKeyswitchEvent, hup, Bool.not_false, Bool.false_eq_true, if_false,
        if_true] at ho
      cases hroa : s.resolveOrArpeggiate now with
      | error f => rw [hroa] at ho; cases ho
      | ok r =>
        rw [hroa] at ho
        obtain ⟨s4, out⟩ := r
        simp only [Except.ok.injEq] at ho
        subst ho; rfl
    simp [hres, hup]


/-- C4 as stated fails on a full buffer: with the eleven-key definition and ten of its keys
buffered, the key-down of the eleventh key is answered with `ABORT` and the event is not in the
buffer afterwards. -/
theorem onKeyswitchEvent_abort_full_buffer_drops :
    (exampleState (encodeDefs elevenKeyDef) tenPresses).TableIs elevenKeyDef
    ∧ examplePlatform.keyToggledOn (press 14 11).state = true
    ∧ (exampleState (encodeDefs elevenKeyDef) tenPresses).onKeyswitchEvent examplePlatform 1000
        false (press 14 11)
      = .ok ⟨{ exampleState (encodeDefs elevenKeyDef) tenPresses with start_time_ := 1000 },
          press 14 11, .ABORT, []⟩
    ∧ press 14 11 ∉
        ({ exampleState (encodeDefs elevenKeyDef) tenPresses with start_time_ := 1000 }
          : Chord).buffer :=
  ⟨⟨by decide, rfl, rfl, by decide⟩, rfl, rfl, by decide⟩

/-- C4, at the table `{4,5} -> 27`, `{4,5,6} -> 28` with the key 4 buffered and the key 5 going
down: the result is `ABORT`, nothing is emitted and both events are buffered. -/
theorem onKeyswitchEvent_abort_iff_witness :
    ∃ o, (exampleState (encodeDefs subsetDefs) [press 4 1]).onKeyswitchEvent examplePlatform 1000
        false (press 5 2) = .ok o
      ∧ o.result = .ABORT ∧ o.emitted = []
      ∧ o.state.buffer = [press 4 1, press 5 2] := by
  have hthm := onKeyswitchEvent_abort_iff examplePlatform
    (exampleState (encodeDefs subsetDefs) [press 4 1]) 1000 (press 5 2)
  obtain ⟨o, ho⟩ := hthm.1 subsetDefs ⟨by decide, rfl, rfl, by decide⟩
    ⟨by decide, by decide⟩ (by decide) (by decide)
  obtain ⟨hiff, hcons⟩ := hthm.2 o ho
  have hab : o.result = .ABORT :=
    hiff.mpr ⟨rfl, by unfold Chord.refusedByGuard; decide, rfl⟩
  obtain ⟨hem, -, -, -, -, hbuf, -⟩ := hcons hab
  exact ⟨o, ho, hab, hem, hbuf (by decide) (by decide)⟩


/-- C5. On a non-ignored key-down that the guard does not refuse, when the buffer after
`appendEvent` is not a strict subset of any definition and `getChord` returns a key `k` other
than `Key_NoKey`, `onKeyswitchEvent` returns `OK`, hands nothing to the dispatcher, replaces only
the key of the event by `k`, leaves the buffer empty and sets `prior_keypress_timestamp_` to
`now - (minimum_prior_interval_ + 1)` in 16-bit arithmetic; table and other timing fields are
unchanged. -/
theorem onKeyswitchEvent_completes_chord (P : Platform) (s : Chord) (now : Nat)
    (event : KeyEvent) (k : Key) (hdown : P.keyToggledOn event.state = true)
    (hg : ¬ s.refusedByGuard now)
    (hsub : (s.appendEvent event).isChordStrictSubset = .ok false)
    (hk : (s.appendEvent event).getChord = .ok k) (hne : k ≠ Key_NoKey) :
    ∃ st, s.onKeyswitchEvent P now false event
        = .ok ⟨st, ⟨event.addr, event.state, k, event.id⟩, .OK, []⟩
      ∧ st.potential_chord_size_ = 0 ∧ st.buffer = []
      ∧ (st.prior_keypress_timestamp_ : Int)
          = ((now : Int) - ((s.minimum_prior_interval_ : Int) + 1)) % 65536
      ∧ st.chord_defs_ = s.chord_defs_ ∧ st.chord_defs_size_ = s.chord_defs_size_
      ∧ st.start_time_ = s.start_time_ ∧ st.timeout_ = s.timeout_
      ∧ st.minimum_prior_interval_ = s.minimum_prior_interval_ := by
  obtain ⟨s2, hlive, harr, hst, hto, hmpi, -, hrun⟩ :=
    Chord.onKeyswitchEvent_keydown P s now event hdown hg
  have hfr := s.appendEvent_frame event
  rw [Chord.isChordStrictSubset_congr hlive, Chord.getChord_congr hlive, hsub, hk] at hrun
  simp only [hne, if_false] at hrun
  refine ⟨_, hrun, rfl, Chord.buffer_of_size_zero rfl, ?_, hlive.1.trans hfr.1,
    hlive.2.1.trans hfr.2.1, hst, hto, hmpi⟩
  show (((((now : Int) - ((s2.minimum_prior_interval_ : Int) + 1)) % 65536).toNat : Nat) : Int) = _
  rw [hmpi]
  exact Int.toNat_of_nonneg (Int.emod_nonneg _ (by decide))

/-- C5, at the table `{4,5} -> 27` with the key 4 buffered and the key 5 going down. -/
theorem onKeyswitchEvent_completes_chord_witness :
    ∃ st, (exampleState (encodeDefs singleDef) [press 4 1]).onKeyswitchEvent examplePlatform 1000
        false (press 5 2) = .ok ⟨st, ⟨5, 2, 27, 2⟩, .OK, []⟩ ∧ st.buffer = [] := by
  obtain ⟨st, h, -, hb, -⟩ := onKeyswitchEvent_completes_chord examplePlatform
    (exampleState (encodeDefs singleDef) [press 4 1]) 1000 (press 5 2) 27 rfl
    (by unfold Chord.refusedByGuard; decide) rfl rfl (by decide)
  exact ⟨st, h, hb⟩

/-- C6 as stated fails twice. With `{4,5} -> 27` and the key 4 buffered, the key-down of key 6
breaks the chord: the handler replays the key 4 and returns `OK` with the event unchanged, so
the breaking event is passed through, not suppressed. With a full buffer of ten events the
breaking key-down is not appended, the size is decremented all the same, and only the first nine
of the ten buffered events are replayed. -/
theorem onKeyswitchEvent_breaking_key_not_suppressed :
    (examplePlatform.keyToggledOn (press 6 2).state = true
      ∧ ¬ (exampleState (encodeDefs singleDef) [press 4 1]).refusedByGuard 1000
      ∧ ((exampleState (encodeDefs singleDef) [press 4 1]).appendEvent
            (press 6 2)).isChordStrictSubset = .ok false
      ∧ ((exampleState (encodeDefs singleDef) [press 4 1]).appendEvent (press 6 2)).getChord
          = .ok Key_NoKey
      ∧ (exampleState (encodeDefs singleDef) [press 4 1]).onKeyswitchEvent examplePlatform 1000
          false (press 6 2)
        = .ok ⟨{ exampleState (encodeDefs singleDef) [press 4 1] with
                  potential_chord_ := (press 4 1 :: press 6 2 :: List.replicate 8 default)
                  potential_chord_size_ := 0 },
            press 6 2, .OK, [press 4 1]⟩)
    ∧ (examplePlatform.keyToggledOn (press 20 11).state = true
      ∧ ¬ (exampleState (encodeDefs singleDef) tenPresses).refusedByGuard 1000
      ∧ ((exampleState (encodeDefs singleDef) tenPresses).appendEvent
            (press 20 11)).isChordStrictSubset = .ok false
      ∧ ((exampleState (encodeDefs singleDef) tenPresses).appendEvent (press 20 11)).getChord
          = .ok Key_NoKey
      ∧ (exampleState (encodeDefs singleDef) tenPresses).buffer = tenPresses
      ∧ (exampleState (encodeDefs singleDef) tenPresses).onKeyswitchEvent examplePlatform 1000
          false (press 20 11)
        = .ok ⟨{ exampleState (encodeDefs singleDef) tenPresses with potential_chord_size_ := 0 },
            press 20 11, .OK, tenPresses.take 9⟩) :=
  ⟨⟨rfl, by unfold Chord.refusedByGuard; decide, rfl, rfl, rfl⟩,
    ⟨rfl, by unfold Chord.refusedByGuard; decide, rfl, rfl, rfl, rfl⟩⟩

/-- C6, amended. On a non-ignored key-down that the guard does not refuse and that arrives
while the buffer has room, when the buffer after `appendEvent` is neither a strict subset of a
definition nor an exact match, `onKeyswitchEvent` hands to the dispatcher exactly what
Resolve-or-Arpeggiate hands over on the buffer held before the event, leaves the buffer empty,
and returns `OK` with the event unchanged: the breaking event is passed through. It returns
exactly when Resolve-or-Arpeggiate on the old buffer does, so on every well-formed table. -/
theorem onKeyswitchEvent_breaking_key (P : Platform) (s : Chord) (now : Nat)
    (event : KeyEvent) (hdown : P.keyToggledOn event.state = true)
    (hg : ¬ s.refusedByGuard now) (hroom : s.potential_chord_size_ < s.kMaxChordSize)
    (h8 : s.potential_chord_size_ < 256)
    (hsub : (s.appendEvent event).isChordStrictSubset = .ok false)
    (hk : (s.appendEvent event).getChord = .ok Key_NoKey) :
    (∀ st out, s.resolveOrArpeggiate now = .ok (st, out) →
      ∃ st', s.onKeyswitchEvent P now false event = .ok ⟨st', event, .OK, out⟩
        ∧ st'.potential_chord_size_ = 0 ∧ st'.buffer = [])
    ∧ (∀ o, s.onKeyswitchEvent P now false event = .ok o →
        ∃ st, s.resolveOrArpeggiate now = .ok (st, o.emitted))
    ∧ (∀ ds, s.TableIs ds → s.BufferOk →
        ∃ o, s.onKeyswitchEvent P now false event = .ok o) := by
  obtain ⟨s2, hlive, harr, hst, hto, hmpi, -, hrun⟩ :=
    Chord.onKeyswitchEvent_keydown P s now event hdown hg
  have hfr := s.appendEvent_frame event
  rw [Chord.isChordStrictSubset_congr hlive, Chord.getChord_congr hlive, hsub, hk] at hrun
  simp only [if_true] at hrun
  -- the state handed to Resolve-or-Arpeggiate holds the buffer as it was before the event
  have hsame : s.SameLive
      ({ s2 with potential_chord_size_ := (s2.potential_chord_size_ + 255) % 256 } : Chord) := by
    have hsz2 : s2.potential_chord_size_ = (s.potential_chord_size_ + 1) % 256 := by
      rw [hlive.2.2.1]
      simp [Chord.appendEvent, hroom]
    have hsz3 : (s2.potential_chord_size_ + 255) % 256 = s.potential_chord_size_ := by
      rw [hsz2]; omega
    refine ⟨(hlive.1.trans hfr.1).symm, (hlive.2.1.trans hfr.2.1).symm, hsz3.symm, ?_⟩
    show s.buffer = List.take ((s2.potential_chord_size_ + 255) % 256) s2.potential_chord_
    rw [hsz3, harr]
    simp only [Chord.appendEvent, hroom, if_true, Chord.buffer]
    rw [List.set_take, List.set_eq_of_length_le (by simp)]
  have hfirst : ∀ st out, s.resolveOrArpeggiate now = .ok (st, out) →
      ∃ st', s.onKeyswitchEvent P now false event = .ok ⟨st', event, .OK, out⟩
        ∧ st'.potential_chord_size_ = 0 ∧ st'.buffer = [] := by
    intro st out hroa
    obtain ⟨st', hroa'⟩ := Chord.resolveOrArpeggiate_congr hsame now now hroa
    rw [hroa'] at hrun
    have hz := (Chord.resolveOrArpeggiate_size hroa').1
    exact ⟨st', hrun, hz, Chord.buffer_of_size_zero hz⟩
  refine ⟨hfirst, ?_, ?_⟩
  · intro o ho
    rw [hrun] at ho
    cases hroa : ({ s2 with potential_chord_size_ := (s2.potential_chord_size_ + 255) % 256 }
        : Chord).resolveOrArpeggiate now with
    | error f => rw [hroa] at ho; cases ho
    | ok r =>
      rw [hroa] at ho
      obtain ⟨s4, out⟩ := r
      simp only [Except.ok.injEq] at ho
      subst ho
      have hsame' : ({ s2 with potential_chord_size_ := (s2.potential_chord_size_ + 255) % 256 }
          : Chord).SameLive s :=
        ⟨hsame.1.symm, hsame.2.1.symm, hsame.2.2.1.symm, hsame.2.2.2.symm⟩
      exact Chord.resolveOrArpeggiate_congr hsame' now now hroa
  · intro ds hT hB
    obtain ⟨st, out, hroa⟩ := Chord.resolveOrArpeggiate_total hT hB now
    obtain ⟨st', h, -⟩ := hfirst st out hroa
    exact ⟨_, h⟩

/-- C6 amended, at the table `{4,5} -> 27` with the key 4 buffered and the key 6 going down. -/
theorem onKeyswitchEvent_breaking_key_witness :
    ∃ st', (exampleState (encodeDefs singleDef) [press 4 1]).onKeyswitchEvent examplePlatform 1000
        false (press 6 2) = .ok ⟨st', press 6 2, .OK, [press 4 1]⟩
      ∧ st'.buffer = [] := by
  obtain ⟨st', h, -, hb⟩ := (onKeyswitchEvent_breaking_key examplePlatform
    (exampleState (encodeDefs singleDef) [press 4 1]) 1000 (press 6 2) rfl
    (by unfold Chord.refusedByGuard; decide) (by decide) (by decide) rfl rfl).1
      { exampleState (encodeDefs singleDef) [press 4 1] with potential_chord_size_ := 0 }
      [press 4 1] rfl
  exact ⟨st', h, hb⟩

/-! ## Releases, Resolve-or-Arpeggiate and the cycle boundary -/


/-- C7. On a non-ignored event that is not a key-down, `onKeyswitchEvent` is
Resolve-or-Arpeggiate on the current buffer, whatever the event is: it hands over the same
events, leaves the buffer empty, leaves the event unchanged and returns `OK` (and fails only
where Resolve-or-Arpeggiate fails, never on a well-formed table). With an empty buffer and a
well-formed table it emits nothing and changes nothing. -/
theorem onKeyswitchEvent_release (P : Platform) (s : Chord) (now : Nat) (event : KeyEvent)
    (hup : P.keyToggledOn event.state = false) :
    (∀ st out, s.resolveOrArpeggiate now = .ok (st, out) →
      s.onKeyswitchEvent P now false event = .ok ⟨st, event, .OK, out⟩
        ∧ st.potential_chord_size_ = 0 ∧ st.buffer = [])
    ∧ (∀ f, s.resolveOrArpeggiate now = .error f →
        s.onKeyswitchEvent P now false event = .error f)
    ∧ (∀ ds, s.TableIs ds → s.BufferOk → ∃ st out, s.resolveOrArpeggiate now = .ok (st, out))
    ∧ (∀ ds, s.TableIs ds → s.potential_chord_size_ = 0 →
        s.onKeyswitchEvent P now false event = .ok ⟨s, event, .OK, []⟩) := by
  have hrun : s.onKeyswitchEvent P now false event =
      match s.resolveOrArpeggiate now with
      | .error f => .error f
      | .ok (s1, out) => .ok ⟨s1, event, .OK, out⟩ := by
    simp only [Chord.onKeyswitchEvent, hup, Bool.not_false, Bool.false_eq_true, if_false,
      if_true]
    try rfl
  refine ⟨?_, ?_, ?_, ?_⟩
  · intro st out hroa
    have hz := (Chord.resolveOrArpeggiate_size hroa).1
    rw [hrun, hroa]
    exact ⟨rfl, hz, Chord.buffer_of_size_zero hz⟩
  · intro f hroa
    rw [hrun, hroa]
  · intro ds hT hB
    exact Chord.resolveOrArpeggiate_total hT hB now
  · intro ds hT h0
    rw [hrun, Chord.resolveOrArpeggiate_empty hT h0 now]

/-- C7, at the table `{4,5} -> 27` with the keys 4 and 5 buffered and the key 4 released. -/
theorem onKeyswitchEvent_release_witness :
    (exampleState (encodeDefs singleDef) [press 4 1, press 5 2]).onKeyswitchEvent examplePlatform
        1000 false ⟨4, 1, 4, 3⟩
      = .ok ⟨{ (exampleState (encodeDefs singleDef) [press 4 1, press 5 2]).resetPriorKeypressTimestamp
                1000 with potential_chord_size_ := 0 }, ⟨4, 1, 4, 3⟩, .OK, [⟨5, 2, 27, 2⟩]⟩ :=
  ((onKeyswitchEvent_release examplePlatform
    (exampleState (encodeDefs singleDef) [press 4 1, press 5 2]) 1000 ⟨4, 1, 4, 3⟩ rfl).1
      _ _ rfl).1

/-- C8. With a non-empty buffer on which `getChord` returns a key `k` other than `Key_NoKey`,
`resolveOrArpeggiate` hands exactly one event to the dispatcher, with the location, toggle state
and id of the last buffered event and the key `k`, leaves the buffer empty and sets
`prior_keypress_timestamp_` to `now - (minimum_prior_interval_ + 1)` in 16-bit arithmetic. -/
theorem resolveOrArpeggiate_resolves (s : Chord) (now : Nat) (k : Key) (hB : s.BufferOk)
    (hpos : 0 < s.potential_chord_size_) (hg : s.getChord = .ok k) (hk : k ≠ Key_NoKey) :
    ∃ last st, s.buffer.getLast? = some last
      ∧ s.resolveOrArpeggiate now = .ok (st, [⟨last.addr, last.state, k, last.id⟩])
      ∧ st.potential_chord_size_ = 0 ∧ st.buffer = []
      ∧ (st.prior_keypress_timestamp_ : Int)
          = ((now : Int) - ((s.minimum_prior_interval_ : Int) + 1)) % 65536
      ∧ st.chord_defs_ = s.chord_defs_ ∧ st.chord_defs_size_ = s.chord_defs_size_
      ∧ st.start_time_ = s.start_time_ ∧ st.timeout_ = s.timeout_
      ∧ st.minimum_prior_interval_ = s.minimum_prior_interval_ := by
  obtain ⟨last, hlast, hres⟩ := Chord.resolve_eq hB hpos now k
  refine ⟨last, { s.resetPriorKeypressTimestamp now with potential_chord_size_ := 0 }, hlast,
    ?_, rfl, Chord.buffer_of_size_zero rfl, ?_, rfl, rfl, rfl, rfl, rfl⟩
  · simp only [Chord.resolveOrArpeggiate, hg, hk, if_false, hres]
  · exact Int.toNat_of_nonneg (Int.emod_nonneg _ (by decide))

/-- C8, at the table `{4,5} -> 27` with the keys 4 and 5 buffered. -/
theorem resolveOrArpeggiate_resolves_witness :
    ∃ st, (exampleState (encodeDefs singleDef) [press 4 1, press 5 2]).resolveOrArpeggiate 1000
        = .ok (st, [⟨5, 2, 27, 2⟩]) ∧ st.buffer = [] := by
  obtain ⟨last, st, hlast, hres, -, hb, -⟩ := resolveOrArpeggiate_resolves
    (exampleState (encodeDefs singleDef) [press 4 1, press 5 2]) 1000 27
    ⟨by decide, by decide⟩ (by decide) rfl (by decide)
  have : last = press 5 2 := by
    have h2 : (exampleState (encodeDefs singleDef) [press 4 1, press 5 2]).buffer.getLast?
        = some (press 5 2) := rfl
    rw [h2] at hlast
    exact (Option.some.inj hlast).symm
  subst this
  exact ⟨st, hres, hb⟩

/-- C9. With a buffer on which `getChord` returns `Key_NoKey`, `resolveOrArpeggiate` hands to
the dispatcher exactly the buffered events, in buffering order and unchanged, and leaves the
buffer empty; nothing else of the state changes. -/
theorem resolveOrArpeggiate_arpeggiates (s : Chord) (now : Nat) (hB : s.BufferOk)
    (hg : s.getChord = .ok Key_NoKey) :
    s.resolveOrArpeggiate now = .ok ({ s with potential_chord_size_ := 0 }, s.buffer)
      ∧ ({ s with potential_chord_size_ := 0 } : Chord).buffer = [] := by
  refine ⟨?_, Chord.buffer_of_size_zero rfl⟩
  simp only [Chord.resolveOrArpeggiate, hg, if_true, Chord.arpeggiate_eq hB]

/-- C9, at the table `{4,5} -> 27` with the keys 7, 8 and 9 buffered: they are replayed in that
order. -/
theorem resolveOrArpeggiate_arpeggiates_witness :
    (exampleState (encodeDefs singleDef) [press 7 1, press 8 2, press 9 3]).resolveOrArpeggiate
        1000
      = .ok ({ exampleState (encodeDefs singleDef) [press 7 1, press 8 2, press 9 3] with
                potential_chord_size_ := 0 }, [press 7 1, press 8 2, press 9 3]) :=
  (resolveOrArpeggiate_arpeggiates
    (exampleState (encodeDefs singleDef) [press 7 1, press 8 2, press 9 3]) 1000
    ⟨by decide, by decide⟩ rfl).1

/-- C10. `afterEachCycle` runs Resolve-or-Arpeggiate, handing over the same events and leaving
the buffer empty, when the chord timeout has expired since `start_time_` and the buffer is not
empty; otherwise it hands nothing to the dispatcher and leaves the buffer as it is. With
`{4,5} -> 27`, the key-down of key 4 alone is buffered, a cycle boundary before the timeout
emits nothing, and the cycle boundary after the timeout emits that key press unchanged. -/
theorem afterEachCycle_forces_on_timeout (s : Chord) (now : Nat) :
    ((hasTimeExpired now s.start_time_ s.timeout_ = true ∧ 0 < s.potential_chord_size_) →
      (∀ st out, s.resolveOrArpeggiate now = .ok (st, out) →
        ∃ st', s.afterEachCycle now = .ok (st', out)
          ∧ st'.potential_chord_size_ = 0 ∧ st'.buffer = [])
      ∧ (∀ f, s.resolveOrArpeggiate now = .error f → s.afterEachCycle now = .error f)
      ∧ (∀ ds, s.TableIs ds → s.BufferOk →
          ∃ st out, s.resolveOrArpeggiate now = .ok (st, out)))
    ∧ (¬ (hasTimeExpired now s.start_time_ s.timeout_ = true ∧ 0 < s.potential_chord_size_) →
      ∃ st', s.afterEachCycle now = .ok (st', [])
        ∧ st'.potential_chord_ = s.potential_chord_
        ∧ st'.potential_chord_size_ = s.potential_chord_size_ ∧ st'.buffer = s.buffer)
    ∧ ((exampleState (encodeDefs singleDef) []).onKeyswitchEvent examplePlatform 1000 false
          (press 4 1)
        = .ok ⟨{ exampleState (encodeDefs singleDef) [press 4 1] with
                  start_time_ := 1000, prior_keypress_timestamp_ := 1000 },
            press 4 1, .ABORT, []⟩
      ∧ ({ exampleState (encodeDefs singleDef) [press 4 1] with
            start_time_ := 1000, prior_keypress_timestamp_ := 1000 } : Chord).afterEachCycle 1049
        = .ok ({ exampleState (encodeDefs singleDef) [press 4 1] with
            start_time_ := 1000, prior_keypress_timestamp_ := 1000 }, [])
      ∧ ({ exampleState (encodeDefs singleDef) [press 4 1] with
            start_time_ := 1000, prior_keypress_timestamp_ := 1000 } : Chord).afterEachCycle 1051
        = .ok ({ exampleState (encodeDefs singleDef) [press 4 1] with
            start_time_ := 1000, prior_keypress_timestamp_ := 1000,
            potential_chord_size_ := 0 }, [press 4 1])) := by
  refine ⟨?_, ?_, rfl, rfl, rfl⟩
  · intro hc
    have hc' : hasTimeExpired now s.start_time_ s.timeout_ = true ∧ s.potential_chord_size_ > 0 :=
      hc
    refine ⟨?_, ?_, fun ds hT hB => Chord.resolveOrArpeggiate_total hT hB now⟩
    · intro st out hroa
      have hz := (Chord.resolveOrArpeggiate_size hroa).1
      simp only [Chord.afterEachCycle, if_pos hc', hroa]
      split
      · exact ⟨_, rfl, hz, Chord.buffer_of_size_zero hz⟩
      · exact ⟨_, rfl, hz, Chord.buffer_of_size_zero hz⟩
    · intro f hroa
      simp only [Chord.afterEachCycle, if_pos hc', hroa]
  · intro hc
    have hc' : ¬ (hasTimeExpired now s.start_time_ s.timeout_ = true
        ∧ s.potential_chord_size_ > 0) := hc
    simp only [Chord.afterEachCycle, if_neg hc']
    split
    · exact ⟨_, rfl, rfl, rfl, rfl⟩
    · exact ⟨_, rfl, rfl, rfl, rfl⟩

/-- C10, at the table `{4,5} -> 27`, `{4,5,6} -> 28` with the keys 4 and 5 buffered, sixty
milliseconds after the chord began. -/
theorem afterEachCycle_forces_on_timeout_witness :
    ∃ st', (exampleState (encodeDefs subsetDefs) [press 4 1, press 5 2]).afterEachCycle 60
        = .ok (st', [⟨5, 2, 27, 2⟩]) ∧ st'.buffer = [] := by
  obtain ⟨st', h, -, hb⟩ := ((afterEachCycle_forces_on_timeout
    (exampleState (encodeDefs subsetDefs) [press 4 1, press 5 2]) 60).1
      ⟨by decide, by decide⟩).1 _ _ rfl
  exact ⟨st', h, hb⟩

/-! ## Ignored and refused events -/

/-- C11. A non-ignored key-down that arrives while the buffer is empty and the quiet interval
has not elapsed since `prior_keypress_timestamp_` is answered `OK` with the event unchanged,
nothing is handed to the dispatcher and the whole state is unchanged, whatever the table holds.
Hence, on a well-formed table, after a key that is not expected before a chord and matches no
definition has passed the guard on the empty buffer at clock value `t0` (it is sent on and arms
the guard), a key-down at a clock value `t1` at which the interval has not elapsed since `t0` is
refused: it is sent on unchanged and the buffer stays empty. -/
theorem onKeyswitchEvent_refused_in_quiet_interval (P : Platform) :
    (∀ (s : Chord) (now : Nat) (event : KeyEvent), P.keyToggledOn event.state = true →
      s.refusedByGuard now → s.onKeyswitchEvent P now false event = .ok ⟨s, event, .OK, []⟩)
    ∧ (∀ (s : Chord) (ds : List ChordDef) (t0 t1 : Nat) (e1 e2 : KeyEvent),
        s.TableIs ds → s.potential_chord_size_ = 0 → 0 < s.kMaxChordSize →
        P.keyToggledOn e1.state = true → ¬ s.refusedByGuard t0 →
        Chord.isExpectedBeforeChord P e1.key = false →
        (s.appendEvent e1).isChordStrictSubset = .ok false →
        (s.appendEvent e1).getChord = .ok Key_NoKey →
        P.keyToggledOn e2.state = true →
        hasTimeExpired t1 (t0 % 65536) s.minimum_prior_interval_ = false →
        ∃ s1, s.onKeyswitchEvent P t0 false e1 = .ok ⟨s1, e1, .OK, []⟩
          ∧ s1.potential_chord_size_ = 0 ∧ s1.prior_keypress_timestamp_ = t0 % 65536
          ∧ s1.onKeyswitchEvent P t1 false e2 = .ok ⟨s1, e2, .OK, []⟩) := by
  refine ⟨fun s now event hdown hg => Chord.onKeyswitchEvent_refused_eq P s now event hdown hg,
    ?_⟩
  intro s ds t0 t1 e1 e2 hT h0 hcap hd1 hg hexp hsub hk hd2 hin
  obtain ⟨s1, hrun, hz, hprior, hmpi, -⟩ :=
    Chord.onKeyswitchEvent_plain_key P s t0 e1 hT h0 hcap hd1 hg hsub hk
  rw [if_pos hexp] at hprior
  refine ⟨s1, hrun, hz, hprior, ?_⟩
  exact Chord.onKeyswitchEvent_refused_eq P s1 t1 e2 hd2 ⟨hz, by rw [hprior, hmpi]; exact hin⟩

/-- C11, on the table `{4,5} -> 27`: the plain key 9 at 1000 arms the guard, and the key-down
of the trigger key 4 at 1010 is sent on unchanged and not buffered. -/
theorem onKeyswitchEvent_refused_in_quiet_interval_witness :
    ∃ s1, (exampleState (encodeDefs singleDef) []).onKeyswitchEvent examplePlatform 1000 false
        (press 9 1) = .ok ⟨s1, press 9 1, .OK, []⟩
      ∧ s1.prior_keypress_timestamp_ = 1000
      ∧ s1.onKeyswitchEvent examplePlatform 1010 false (press 4 2)
          = .ok ⟨s1, press 4 2, .OK, []⟩ := by
  obtain ⟨s1, h1, -, h2, h3⟩ := (onKeyswitchEvent_refused_in_quiet_interval examplePlatform).2
    (exampleState (encodeDefs singleDef) []) singleDef 1000 1010 (press 9 1) (press 4 2)
    ⟨by decide, rfl, rfl, by decide⟩ rfl (by decide) rfl
    (by unfold Chord.refusedByGuard; decide) rfl rfl rfl rfl (by decide)
  exact ⟨s1, h1, h2, h3⟩

/-- C12. For every state and every event that the de-duplication tracker reports as already
processed, key-down or not, `onKeyswitchEvent` returns `OK`, leaves the event and the whole
state unchanged and hands nothing to the dispatcher. -/
theorem onKeyswitchEvent_ignored_is_noop (P : Platform) (s : Chord) (now : Nat)
    (event : KeyEvent) :
    s.onKeyswitchEvent P now true event = .ok ⟨s, event, .OK, []⟩ := by
  simp only [Chord.onKeyswitchEvent, if_true]

/-! ## No key-down is lost -/

/-- C13 as stated fails when a definition has more trigger keys than the buffer has slots. With
the eleven-key definition and ten slots, the key-downs of the keys 4 to 14 are all answered with
`ABORT`, but the eleventh finds the buffer full and is dropped. After the cycle boundary past
the timeout the buffer is empty and the output stream holds the first ten key-downs only: the
key-down of key 14 is neither buffered, nor in the output, nor folded, and no account of the
output stream covers the eleven key-downs received. -/
theorem key_down_lost_on_full_buffer :
    (exampleState (encodeDefs elevenKeyDef) []).TableIs elevenKeyDef
    ∧ (exampleState (encodeDefs elevenKeyDef) []).potential_chord_size_ = 0
    ∧ (∀ c ∈ elevenKeyDowns, c.NotIgnored)
    ∧ keyDowns examplePlatform elevenKeyDowns = tenPresses ++ [press 14 11]
    ∧ Chord.run examplePlatform (exampleState (encodeDefs elevenKeyDef) []) elevenKeyDowns
        = .ok ({ exampleState (encodeDefs elevenKeyDef) tenPresses with
                  potential_chord_size_ := 0, start_time_ := 1010,
                  prior_keypress_timestamp_ := 1924 }, tenPresses)
    ∧ press 14 11 ∉ tenPresses
    ∧ ¬ ∃ ledger : List Entry, outputEvents ledger = tenPresses
        ∧ (∀ it ∈ ledger, it.Accounts examplePlatform elevenKeyDef)
        ∧ keyDowns examplePlatform elevenKeyDowns = coveredKeyDowns ledger ++ [] := by
  refine ⟨⟨by decide, rfl, rfl, by decide⟩, rfl, by decide, rfl, rfl, by decide, ?_⟩
  rintro ⟨ledger, hout, hacc, hcov⟩
  have hfacts : ∀ e ∈ tenPresses, examplePlatform.keyToggledOn e.state = true ∧ e.key ≠ 27 := by
    decide
  have hplain : ∀ it ∈ ledger, it.covers = [it.out] := by
    intro it hit
    have hmem : it.out ∈ tenPresses := by
      rw [← hout]; exact mem_outputEvents ledger it hit
    obtain ⟨hdown, hkey⟩ := hfacts it.out hmem
    rcases hacc it hit with ⟨-, hup⟩ | ⟨h, -⟩ | ⟨d, hd, last, -, ho, -⟩
    · rw [hup] at hdown; cases hdown
    · exact h
    · exfalso
      apply hkey
      rw [ho]
      simp only [elevenKeyDef, List.mem_singleton] at hd
      rw [hd]
  rw [coveredKeyDowns_of_plain ledger hplain, hout] at hcov
  revert hcov
  decide

/-- C13, amended. On a well-formed table in which no definition has more trigger keys than the
buffer has slots, starting from the empty buffer, every sequence of non-ignored key-down and
key-up events and cycle boundaries returns, and its output stream has an account: every output
event is a release, a key-down sent on unchanged that accounts for itself, or a substitution
event that accounts for the key-downs folded into it, and the key-downs received are, in order
and each exactly once, the key-downs so accounted for followed by the key-downs still in the
buffer. Once the buffer is empty every key-down received is accounted for in the output. -/
theorem no_key_down_lost (P : Platform) (s0 : Chord) (ds : List ChordDef)
    (hT : s0.TableIs ds) (hz : s0.potential_chord_size_ = 0) (hcap : 0 < s0.kMaxChordSize)
    (h256 : s0.kMaxChordSize < 256)
    (hfit : ∀ d ∈ ds, d.triggers.length ≤ s0.kMaxChordSize) (calls : List Call)
    (hni : ∀ c ∈ calls, c.NotIgnored) :
    ∃ st out, Chord.run P s0 calls = .ok (st, out)
      ∧ ∃ ledger : List Entry, outputEvents ledger = out
          ∧ (∀ it ∈ ledger, it.Accounts P ds)
          ∧ keyDowns P calls = coveredKeyDowns ledger ++ st.buffer
          ∧ (st.buffer = [] → keyDowns P calls = coveredKeyDowns ledger) := by
  have hI0 : s0.Inv P ds := Chord.Inv.of_size_zero hT hz hcap h256
  obtain ⟨st, out, hrun, -, ledger, hout, hacc, hcov⟩ :=
    Chord.run_accounts P ds calls s0 hI0 hfit hni
  rw [Chord.buffer_of_size_zero hz, List.nil_append] at hcov
  refine ⟨st, out, hrun, ledger, hout, hacc, hcov, ?_⟩
  intro hb
  rw [hcov, hb, List.append_nil]

/-- C13 amended, on the table `{4,5} -> 27`, `{4,5,6} -> 28` from the empty example buffer: the
key-downs of the keys 4 and 5 and a cycle boundary past the timeout give one substitution
event, which accounts for both key-downs. -/
theorem no_key_down_lost_witness :
    ∃ st ledger, Chord.run examplePlatform (exampleState (encodeDefs subsetDefs) [])
        [.keyswitch 1000 false (press 4 1), .keyswitch 1001 false (press 5 2), .cycle 1060]
        = .ok (st, [⟨5, 2, 27, 2⟩])
      ∧ outputEvents ledger = [⟨5, 2, 27, 2⟩]
      ∧ (∀ it ∈ ledger, it.Accounts examplePlatform subsetDefs)
      ∧ [press 4 1, press 5 2] = coveredKeyDowns ledger ++ st.buffer := by
  obtain ⟨st, out, hrun, ledger, hout, hacc, hcov, -⟩ := no_key_down_lost examplePlatform
    (exampleState (encodeDefs subsetDefs) []) subsetDefs ⟨by decide, rfl, rfl, by decide⟩ rfl
    (by decide) (by decide) (by decide)
    [.keyswitch 1000 false (press 4 1), .keyswitch 1001 false (press 5 2), .cycle 1060]
    (by decide)
  have hrun' : Chord.run examplePlatform (exampleState (encodeDefs subsetDefs) [])
      [.keyswitch 1000 false (press 4 1), .keyswitch 1001 false (press 5 2), .cycle 1060]
      = .ok ({ exampleState (encodeDefs subsetDefs) [press 4 1, press 5 2] with
                potential_chord_size_ := 0, start_time_ := 1001,
                prior_keypress_timestamp_ := 984 }, [⟨5, 2, 27, 2⟩]) := rfl
  rw [hrun'] at hrun
  simp only [Except.ok.injEq, Prod.mk.injEq] at hrun
  obtain ⟨rfl, rfl⟩ := hrun
  exact ⟨_, ledger, hrun', hout, hacc, hcov⟩

/-! ## The bounded buffer -/

/-- C14. `appendEvent` on a buffer with fewer than `kMaxChordSize` events (a capacity that fits
a `uint8_t`) stores the event in the slot after the last buffered one, leaves every other slot
as it was and increases the size by one, so the buffer is the old buffer followed by the event;
on a buffer with `kMaxChordSize` events it changes nothing. The size stays within
`kMaxChordSize` after `appendEvent` and after every sequence of `onKeyswitchEvent` and
`afterEachCycle` calls. -/
theorem appendEvent_bounded (s : Chord) (event : KeyEvent) :
    (s.potential_chord_size_ < s.kMaxChordSize → s.kMaxChordSize < 256 →
      (s.appendEvent event).potential_chord_size_ = s.potential_chord_size_ + 1
      ∧ (s.appendEvent event).potential_chord_.get? s.potential_chord_size_ = some event
      ∧ (∀ i, i ≠ s.potential_chord_size_ →
          (s.appendEvent event).potential_chord_.get? i = s.potential_chord_.get? i)
      ∧ (s.appendEvent event).buffer = s.buffer ++ [event]
      ∧ (s.appendEvent event).kMaxChordSize = s.kMaxChordSize)
    ∧ (s.kMaxChordSize ≤ s.potential_chord_size_ → s.appendEvent event = s)
    ∧ (s.potential_chord_size_ ≤ s.kMaxChordSize → s.kMaxChordSize < 256 →
        (s.appendEvent event).potential_chord_size_ ≤ s.kMaxChordSize)
    ∧ (∀ (P : Platform) (calls : List Call) (st : Chord) (out : List KeyEvent),
        s.potential_chord_size_ ≤ s.kMaxChordSize → s.kMaxChordSize < 256 →
        Chord.run P s calls = .ok (st, out) →
        st.potential_chord_size_ ≤ st.kMaxChordSize ∧ st.kMaxChordSize = s.kMaxChordSize) := by
  refine ⟨?_, fun hfull => Chord.appendEvent_full event hfull, ?_, ?_⟩
  · intro hroom hcap
    obtain ⟨h1, h2⟩ := Chord.appendEvent_room event hroom hcap
    refine ⟨h1, ?_, ?_, h2, (s.appendEvent_frame event).2.2.2.2.2.2⟩
    · unfold Chord.kMaxChordSize at hroom
      simp [Chord.appendEvent, Chord.kMaxChordSize, hroom, List.get?_eq_getElem?]
    · intro i hi
      unfold Chord.kMaxChordSize at hroom
      simp only [Chord.appendEvent, Chord.kMaxChordSize, hroom, if_true,
        List.get?_eq_getElem?]
      exact List.getElem?_set_ne (Ne.symm hi)
  · intro hle hcap
    have := s.appendEvent_size_le event hle hcap
    rw [this.2] at this
    exact this.1
  · intro P calls
    induction calls generalizing s with
    | nil =>
      intro st out hle _ h
      simp only [Chord.run, Except.ok.injEq, Prod.mk.injEq] at h
      obtain ⟨rfl, -⟩ := h
      exact ⟨hle, rfl⟩
    | cons c cs ih =>
      intro st out hle hcap h
      simp only [Chord.run] at h
      cases hc : s.call P c with
      | error f => rw [hc] at h; cases h
      | ok r =>
        rw [hc] at h
        obtain ⟨s1, out1⟩ := r
        simp only at h
        cases hr : Chord.run P s1 cs with
        | error f => rw [hr] at h; cases h
        | ok r2 =>
          rw [hr] at h
          obtain ⟨s2, out2⟩ := r2
          simp only [Except.ok.injEq, Prod.mk.injEq] at h
          obtain ⟨rfl, -⟩ := h
          obtain ⟨h1, h2⟩ := Chord.call_size_le P s c s1 out1 hle hcap hc
          obtain ⟨h3, h4⟩ := ih s1 s2 out2 h1 (by rw [h2]; exact hcap) hr
          exact ⟨h3, h4.trans h2⟩

/-- C14, at a buffer with room and at the full buffer of ten events. -/
theorem appendEvent_bounded_witness :
    ((exampleState (encodeDefs singleDef) [press 4 1]).appendEvent (press 5 2)).buffer
      = [press 4 1, press 5 2]
    ∧ (exampleState (encodeDefs elevenKeyDef) tenPresses).appendEvent (press 14 11)
      = exampleState (encodeDefs elevenKeyDef) tenPresses :=
  ⟨((appendEvent_bounded (exampleState (encodeDefs singleDef) [press 4 1]) (press 5 2)).1
      (by decide) (by decide)).2.2.2.1,
    (appendEvent_bounded (exampleState (encodeDefs elevenKeyDef) tenPresses) (press 14 11)).2.1
      (by decide)⟩

/-! ## The empty table and malformed tables -/

/-- C15. With the empty chord table (`chord_defs_size_ = 0`) `getChord` returns `Key_NoKey` and
`isChordStrictSubset` returns false for every buffer, and Resolve-or-Arpeggiate is `arpeggiate`.
A non-ignored key-down that passes the guard is passed on unchanged with result `OK`, the buffer
is empty afterwards, and what is handed to the dispatcher are buffered events, replayed
unchanged (the whole old buffer when it had room). Starting from the empty buffer every sequence
of calls sends on exactly the events it was called with, unchanged and in order, and leaves the
buffer empty: no chord-substitution event is produced. -/
theorem empty_table_passes_everything (s : Chord) (h0 : s.chord_defs_size_ = 0) :
    s.getChord = .ok Key_NoKey ∧ s.isChordStrictSubset = .ok false
    ∧ (∀ now, s.resolveOrArpeggiate now = s.arpeggiate)
    ∧ (∀ (P : Platform) (now : Nat) (event : KeyEvent), P.keyToggledOn event.state = true →
        ¬ s.refusedByGuard now → s.BufferOk → 0 < s.kMaxChordSize →
        ∃ st out, s.onKeyswitchEvent P now false event = .ok ⟨st, event, .OK, out⟩
          ∧ st.potential_chord_size_ = 0 ∧ st.buffer = []
          ∧ (∀ e ∈ out, e ∈ s.buffer)
          ∧ (s.potential_chord_size_ < s.kMaxChordSize → out = s.buffer))
    ∧ (∀ (P : Platform) (calls : List Call), s.potential_chord_size_ = 0 →
        0 < s.kMaxChordSize →
        ∃ st, Chord.run P s calls = .ok (st, keyswitchEvents calls)
          ∧ st.potential_chord_size_ = 0) := by
  refine ⟨s.getChord_empty_table h0, s.isChordStrictSubset_empty_table h0,
    s.resolveOrArpeggiate_empty_table h0, ?_, ?_⟩
  · intro P now event hdown hg hB hcap
    obtain ⟨st, out, hrun, hz, hb, -, -, hin, hout⟩ :=
      Chord.empty_table_keydown P s now event h0 hdown hg hB hcap
    exact ⟨st, out, hrun, hz, hb, hin, hout⟩
  · intro P calls
    induction calls generalizing s with
    | nil => intro hz _; exact ⟨s, rfl, hz⟩
    | cons c cs ih =>
      intro hz hcap
      obtain ⟨s1, hc, h01, hz1, hk1⟩ := Chord.empty_table_call P s c h0 hz hcap
      obtain ⟨st, hr, hzt⟩ := ih s1 h01 hz1 (by rw [hk1]; exact hcap)
      refine ⟨st, ?_, hzt⟩
      simp only [Chord.run, hc, hr]
      cases c <;> rfl

/-- C15, with the empty table and the empty example buffer: a key-down of key 4, a key-down of
key 5, a cycle boundary and the release of key 4 are all sent on unchanged. -/
theorem empty_table_passes_everything_witness :
    ∃ st, Chord.run examplePlatform (exampleState [] [])
        [.keyswitch 1000 false (press 4 1), .keyswitch 1001 false (press 5 2), .cycle 1002,
          .keyswitch 1003 false ⟨4, 1, 4, 3⟩]
      = .ok (st, [press 4 1, press 5 2, ⟨4, 1, 4, 3⟩]) ∧ st.potential_chord_size_ = 0 :=
  (empty_table_passes_everything (exampleState [] []) rfl).2.2.2.2 examplePlatform _ rfl
    (by decide)

/-- C17 as stated fails for `afterEachCycle` as a whole. On the well-formed table
`{4,5} -> 27`, `{4,5,6} -> 28`, from the empty buffer, the key-downs of key 4 at 990 and of
key 5 at 995 are both answered with `ABORT` and buffered; the guard was armed at 990, so at 1046
it has not elapsed. The cycle boundary at 1046 is past the timeout: `afterEachCycle` resolves
the chord to key 27, which resets the guard timestamp to 1046 - 76 = 970, and after it the guard
reads as elapsed at 1046. -/
theorem afterEachCycle_changes_guard_reading :
    (exampleState (encodeDefs subsetDefs) []).TableIs subsetDefs
    ∧ Chord.run examplePlatform (exampleState (encodeDefs subsetDefs) [])
        [.keyswitch 990 false (press 4 1), .keyswitch 995 false (press 5 2)]
      = .ok (pendingChordState, [])
    ∧ hasTimeExpired 1046 pendingChordState.prior_keypress_timestamp_
        pendingChordState.minimum_prior_interval_ = false
    ∧ ∃ st, pendingChordState.afterEachCycle 1046 = .ok (st, [⟨5, 2, 27, 2⟩])
      ∧ st.prior_keypress_timestamp_ = 970
      ∧ hasTimeExpired 1046 st.prior_keypress_timestamp_ st.minimum_prior_interval_ = true :=
  ⟨⟨by decide, rfl, rfl, by decide⟩, rfl, rfl, _, rfl, rfl, rfl⟩

/-- C17, amended. With 16-bit timestamps and an 8-bit interval, after
`resetPriorKeypressTimestamp` the elapsed time `(now - prior_keypress_timestamp_) mod 2^16` is
`minimum_prior_interval_ + 1` and the guard reads as elapsed. `afterEachCycle` ends with the
refresh, applied only when the guard has already elapsed on the state the timeout phase left, so
the refresh does not change what the guard reads at the current time. `afterEachCycle` as a whole
never turns an elapsed guard into one that has not elapsed; when the timeout phase does not run
it returns and the guard reads as before; the guard reads differently after `afterEachCycle` only
when the timeout phase has run and resolved a chord, and then it went from not elapsed to
elapsed. After every `afterEachCycle` the elapsed time is at most
`minimum_prior_interval_ + 1`, and on a well-formed table `afterEachCycle` returns. -/
theorem resetPriorKeypressTimestamp_keeps_guard_elapsed (s : Chord) (now : Nat)
    (h8 : s.minimum_prior_interval_ < 256) :
    (((now : Int) - ((s.resetPriorKeypressTimestamp now).prior_keypress_timestamp_ : Int)) % 65536
        = (s.minimum_prior_interval_ : Int) + 1
      ∧ hasTimeExpired now (s.resetPriorKeypressTimestamp now).prior_keypress_timestamp_
          (s.resetPriorKeypressTimestamp now).minimum_prior_interval_ = true)
    ∧ (∀ st out, s.afterEachCycle now = .ok (st, out) →
        ((now : Int) - (st.prior_keypress_timestamp_ : Int)) % 65536
            ≤ (st.minimum_prior_interval_ : Int) + 1
        ∧ ∃ s1 : Chord,
            ((hasTimeExpired now s.start_time_ s.timeout_ = true ∧ 0 < s.potential_chord_size_
                ∧ s.resolveOrArpeggiate now = .ok (s1, out))
              ∨ (¬ (hasTimeExpired now s.start_time_ s.timeout_ = true
                    ∧ 0 < s.potential_chord_size_) ∧ s1 = s ∧ out = []))
            ∧ (st = s1
              ∨ (hasTimeExpired now s1.prior_keypress_timestamp_ s1.minimum_prior_interval_
                    = true ∧ st = s1.resetPriorKeypressTimestamp now))
            ∧ st.minimum_prior_interval_ = s1.minimum_prior_interval_
            ∧ hasTimeExpired now st.prior_keypress_timestamp_ st.minimum_prior_interval_
                = hasTimeExpired now s1.prior_keypress_timestamp_ s1.minimum_prior_interval_)
    ∧ (¬ (hasTimeExpired now s.start_time_ s.timeout_ = true ∧ 0 < s.potential_chord_size_) →
        ∃ st, s.afterEachCycle now = .ok (st, [])
          ∧ hasTimeExpired now st.prior_keypress_timestamp_ st.minimum_prior_interval_
              = hasTimeExpired now s.prior_keypress_timestamp_ s.minimum_prior_interval_
          ∧ (st = s ∨ st = s.resetPriorKeypressTimestamp now))
    ∧ (∀ st out, s.afterEachCycle now = .ok (st, out) →
        (hasTimeExpired now s.prior_keypress_timestamp_ s.minimum_prior_interval_ = true →
          hasTimeExpired now st.prior_keypress_timestamp_ st.minimum_prior_interval_ = true)
        ∧ (hasTimeExpired now st.prior_keypress_timestamp_ st.minimum_prior_interval_
              ≠ hasTimeExpired now s.prior_keypress_timestamp_ s.minimum_prior_interval_ →
            hasTimeExpired now s.start_time_ s.timeout_ = true ∧ 0 < s.potential_chord_size_
            ∧ (∃ k, k ≠ Key_NoKey ∧ s.getChord = .ok k)
            ∧ hasTimeExpired now s.prior_keypress_timestamp_ s.minimum_prior_interval_ = false
            ∧ hasTimeExpired now st.prior_keypress_timestamp_ st.minimum_prior_interval_
                = true))
    ∧ (∀ ds, s.TableIs ds → s.BufferOk → ∃ st out, s.afterEachCycle now = .ok (st, out)) := by
  have hwhole : ∀ st out, s.afterEachCycle now = .ok (st, out) →
      hasTimeExpired now st.prior_keypress_timestamp_ st.minimum_prior_interval_
          = hasTimeExpired now s.prior_keypress_timestamp_ s.minimum_prior_interval_
        ∨ (hasTimeExpired now s.start_time_ s.timeout_ = true ∧ 0 < s.potential_chord_size_
            ∧ (∃ k, k ≠ Key_NoKey ∧ s.getChord = .ok k)
            ∧ hasTimeExpired now st.prior_keypress_timestamp_ st.minimum_prior_interval_
                = true) := by
    intro st out h
    obtain ⟨s1, h1, h2⟩ := s.afterEachCycle_cases now st out h
    have hst : hasTimeExpired now st.prior_keypress_timestamp_ st.minimum_prior_interval_
        = hasTimeExpired now s1.prior_keypress_timestamp_ s1.minimum_prior_interval_ := by
      have hm1 : s1.minimum_prior_interval_ < 256 := by
        rcases h1 with ⟨-, -, hroa⟩ | ⟨-, rfl, -⟩
        · rw [(Chord.resolveOrArpeggiate_size hroa).2.2.2.2.2.2]; exact h8
        · exact h8
      rcases h2 with ⟨he, rfl⟩ | ⟨-, rfl⟩
      · rw [(s1.elapsed_after_reset now hm1).2, he]
      · rfl
    rcases h1 with ⟨ht, hpos, hroa⟩ | ⟨-, rfl, -⟩
    · obtain ⟨hm, ⟨k, hk, hg, hp⟩ | ⟨-, hp⟩⟩ := Chord.resolveOrArpeggiate_guard hroa
      · refine Or.inr ⟨ht, hpos, ⟨k, hk, hg⟩, ?_⟩
        rw [hst, hp, hm]
        exact (s.elapsed_after_reset now h8).2
      · exact Or.inl (by rw [hst, hp, hm])
    · exact Or.inl hst
  refine ⟨s.elapsed_after_reset now h8, ?_, ?_, ?_,
    fun ds hT hB => Chord.afterEachCycle_total hT hB now⟩
  · intro st out h
    obtain ⟨s1, h1, h2⟩ := s.afterEachCycle_cases now st out h
    have hm1 : s1.minimum_prior_interval_ < 256 := by
      rcases h1 with ⟨-, -, hroa⟩ | ⟨-, rfl, -⟩
      · rw [(Chord.resolveOrArpeggiate_size hroa).2.2.2.2.2.2]; exact h8
      · exact h8
    rcases h2 with ⟨he, rfl⟩ | ⟨he, rfl⟩
    · obtain ⟨e1, e2⟩ := s1.elapsed_after_reset now hm1
      refine ⟨?_, s1, h1, Or.inr ⟨he, rfl⟩, rfl, ?_⟩
      · rw [e1]; exact le_refl _
      · rw [e2, he]
    · refine ⟨?_, st, h1, Or.inl rfl, rfl, rfl⟩
      unfold hasTimeExpired at he
      simp only [decide_eq_false_iff_not, not_le] at he
      omega
  · intro hc
    have hc' : ¬ (hasTimeExpired now s.start_time_ s.timeout_ = true
        ∧ s.potential_chord_size_ > 0) := hc
    by_cases he : hasTimeExpired now s.prior_keypress_timestamp_ s.minimum_prior_interval_ = true
    · refine ⟨s.resetPriorKeypressTimestamp now, ?_, ?_, Or.inr rfl⟩
      · simp only [Chord.afterEachCycle, if_neg hc', if_pos he]
      · rw [(s.elapsed_after_reset now h8).2, he]
    · refine ⟨s, ?_, rfl, Or.inl rfl⟩
      simp only [Chord.afterEachCycle, if_neg hc', if_neg he]
  · intro st out h
    rcases hwhole st out h with heq | ⟨ht, hpos, hk, hafter⟩
    · exact ⟨fun hb => by rw [heq]; exact hb, fun hne => absurd heq hne⟩
    · refine ⟨fun _ => hafter, fun hne => ⟨ht, hpos, hk, ?_, hafter⟩⟩
      cases hb : hasTimeExpired now s.prior_keypress_timestamp_ s.minimum_prior_interval_ with
      | false => rfl
      | true => rw [hafter, hb] at hne; exact absurd rfl hne

/-- C17 amended. At the example state with the clock at 100000, past the 16-bit range, the guard
timestamp becomes (100000 - 76) mod 65536 and the guard reads as elapsed. With the keys 4 and 5
buffered since 995 and the guard armed at 990, the guard reads differently after the cycle
boundary at 1046: the timeout phase has run and resolved a chord. -/
theorem resetPriorKeypressTimestamp_keeps_guard_elapsed_witness :
    (((exampleState [] []).resetPriorKeypressTimestamp 100000).prior_keypress_timestamp_ = 34388
      ∧ hasTimeExpired 100000 34388 75 = true)
    ∧ (hasTimeExpired 1046 pendingChordState.start_time_ pendingChordState.timeout_ = true
      ∧ ∃ k, k ≠ Key_NoKey ∧ pendingChordState.getChord = .ok k) :=
  ⟨⟨rfl, (resetPriorKeypressTimestamp_keeps_guard_elapsed (exampleState [] []) 100000
      (by decide)).1.2⟩,
    have h := ((resetPriorKeypressTimestamp_keeps_guard_elapsed pendingChordState 1046
      (by decide)).2.2.2.1 _ _ rfl).2 (by decide)
    ⟨h.1, h.2.2.1⟩⟩

/-- C18 as stated fails for a key-down that arrives inside the quiet interval. With the guard
armed at 1000 and the buffer empty, the key-down of Space at 1010 is refused like any other key:
the state is unchanged, the guard has not elapsed when the handler returns, and the key-down of
the trigger key 4 that follows at once is refused too and does not start a chord attempt. The
key-down of the plain key 9 at 1010 is passed through without resolving a chord and
`prior_keypress_timestamp_` stays 1000. -/
theorem expected_key_refused_inside_interval :
    (armedState.potential_chord_size_ = 0
      ∧ Chord.isExpectedBeforeChord examplePlatform (press 44 2).key = true
      ∧ armedState.onKeyswitchEvent examplePlatform 1010 false (press 44 2)
          = .ok ⟨armedState, press 44 2, .OK, []⟩
      ∧ hasTimeExpired 1010 armedState.prior_keypress_timestamp_
          armedState.minimum_prior_interval_ = false
      ∧ armedState.onKeyswitchEvent examplePlatform 1010 false (press 4 3)
          = .ok ⟨armedState, press 4 3, .OK, []⟩)
    ∧ (Chord.isExpectedBeforeChord examplePlatform (press 9 2).key = false
      ∧ armedState.onKeyswitchEvent examplePlatform 1010 false (press 9 2)
          = .ok ⟨armedState, press 9 2, .OK, []⟩
      ∧ armedState.prior_keypress_timestamp_ = 1000) :=
  ⟨⟨rfl, rfl, rfl, rfl, rfl⟩, ⟨rfl, rfl, rfl⟩⟩

/-- C18, amended. For a non-ignored key-down on the empty buffer that the guard does not refuse:
when the key is expected before a chord the guard is not armed, `prior_keypress_timestamp_`
keeps its value or, when the key completes a chord, takes the reset value; the guard reads as
elapsed when the handler returns and a key-down that follows at the same clock value is not
refused. When the key is not expected before a chord and it is then buffered (`ABORT`) or
matches no definition, `prior_keypress_timestamp_` is the current cycle time. -/
theorem expected_key_does_not_arm_guard (P : Platform) (s : Chord) (now : Nat)
    (event : KeyEvent) (hz : s.potential_chord_size_ = 0) (hcap : 0 < s.kMaxChordSize)
    (h8 : s.minimum_prior_interval_ < 256) (hdown : P.keyToggledOn event.state = true)
    (hg : ¬ s.refusedByGuard now) (o : Outcome)
    (h : s.onKeyswitchEvent P now false event = .ok o) :
    (Chord.isExpectedBeforeChord P event.key = true →
      (o.state.prior_keypress_timestamp_ = s.prior_keypress_timestamp_
        ∨ (o.state.prior_keypress_timestamp_
              = (s.resetPriorKeypressTimestamp now).prior_keypress_timestamp_
            ∧ ∃ k, (s.appendEvent event).getChord = .ok k ∧ k ≠ Key_NoKey))
      ∧ hasTimeExpired now o.state.prior_keypress_timestamp_ o.state.minimum_prior_interval_
          = true
      ∧ ¬ o.state.refusedByGuard now)
    ∧ (Chord.isExpectedBeforeChord P event.key = false →
        (o.result = .ABORT ∨ (s.appendEvent event).getChord = .ok Key_NoKey) →
        o.state.prior_keypress_timestamp_ = now % 65536) := by
  have hel : hasTimeExpired now s.prior_keypress_timestamp_ s.minimum_prior_interval_ = true := by
    by_contra hne
    exact hg ⟨hz, by simpa using hne⟩
  obtain ⟨hmpi, hc⟩ := s.prior_after_first_keydown P now event hz hcap hdown hg o h
  refine ⟨?_, ?_⟩
  · intro hexp
    have hprior : (o.state.prior_keypress_timestamp_ = s.prior_keypress_timestamp_
        ∨ (o.state.prior_keypress_timestamp_
              = (s.resetPriorKeypressTimestamp now).prior_keypress_timestamp_
            ∧ ∃ k, (s.appendEvent event).getChord = .ok k ∧ k ≠ Key_NoKey)) := by
      rcases hc with ⟨-, hp⟩ | ⟨hk, -, hp⟩
      · left; rw [hp]; simp [hexp]
      · exact Or.inr ⟨hp, hk⟩
    have hexpired : hasTimeExpired now o.state.prior_keypress_timestamp_
        o.state.minimum_prior_interval_ = true := by
      rw [hmpi]
      rcases hprior with hp | ⟨hp, -⟩
      · rw [hp]; exact hel
      · rw [hp]; exact (s.elapsed_after_reset now h8).2
    exact ⟨hprior, hexpired, fun hr => by rw [hr.2] at hexpired; cases hexpired⟩
  · intro hexp hcase
    rcases hc with ⟨-, hp⟩ | ⟨⟨k, hk, hne⟩, hres, -⟩
    · rw [hp, if_pos hexp]
    · rcases hcase with hab | hno
      · rw [hres] at hab; cases hab
      · rw [hno] at hk
        simp only [Except.ok.injEq] at hk
        exact absurd hk.symm hne

/-- C18 amended, at the table `{4,5} -> 27` with the empty buffer, the guard elapsed and the
key-down of Space: `prior_keypress_timestamp_` keeps its value 0. -/
theorem expected_key_does_not_arm_guard_witness :
    ∃ st, (exampleState (encodeDefs singleDef) []).onKeyswitchEvent examplePlatform 1000 false
        (press 44 1) = .ok ⟨st, press 44 1, .OK, []⟩
      ∧ st.prior_keypress_timestamp_ = 0 ∧ ¬ st.refusedByGuard 1000 := by
  have hrun : (exampleState (encodeDefs singleDef) []).onKeyswitchEvent examplePlatform 1000 false
      (press 44 1)
      = .ok ⟨{ exampleState (encodeDefs singleDef) [] with
                potential_chord_ := press 44 1 :: List.replicate 9 default }, press 44 1, .OK,
              []⟩ := rfl
  have hthm := (expected_key_does_not_arm_guard examplePlatform
    (exampleState (encodeDefs singleDef) []) 1000 (press 44 1) rfl (by decide) (by decide) rfl
    (by unfold Chord.refusedByGuard; decide) _ hrun).1 rfl
  exact ⟨_, hrun, rfl, hthm.2.2⟩

/-! ## Reachable states -/

/-- C19. On a well-formed table, starting from the empty buffer (an array of between 1 and 255
slots), every sequence of `onKeyswitchEvent` and `afterEachCycle` calls returns and leaves a
buffer that is empty or on which `isChordStrictSubset` holds: its keys are all trigger keys of
one definition that has more trigger keys than the buffer has events. In every state so reached
`onKeyswitchEvent` returns on every non-ignored event, and the buffer is non-empty afterwards
exactly when the handler returned `ABORT`. -/
theorem reachable_buffer_is_strict_subset (P : Platform) (s0 : Chord) (ds : List ChordDef)
    (hT : s0.TableIs ds) (hz : s0.potential_chord_size_ = 0) (hcap : 0 < s0.kMaxChordSize)
    (h256 : s0.kMaxChordSize < 256) (calls : List Call) :
    ∃ st out, Chord.run P s0 calls = .ok (st, out)
      ∧ (st.buffer = []
        ∨ (st.isChordStrictSubset = .ok true
          ∧ ∃ d ∈ ds, st.potential_chord_size_ < d.triggers.length
              ∧ ∀ e ∈ st.buffer, e.key ∈ d.triggers))
      ∧ ∀ (now : Nat) (event : KeyEvent),
          ∃ o, st.onKeyswitchEvent P now false event = .ok o
            ∧ (o.state.buffer ≠ [] ↔ o.result = .ABORT) := by
  have hI0 : s0.Inv P ds := Chord.Inv.of_size_zero hT hz hcap h256
  obtain ⟨st, out, hrun, hI⟩ := Chord.run_inv P ds calls s0 hI0
  refine ⟨st, out, hrun, ?_, ?_⟩
  · rcases hI.2.2.2.2.1 with h | h
    · exact Or.inl (Chord.buffer_of_size_zero h)
    · exact Or.inr ⟨Chord.isChordStrictSubset_of_waiting hI.1 hI.2.1 h, h⟩
  · intro now event
    obtain ⟨st', out', hc, hI'⟩ := Chord.call_inv P ds st hI (.keyswitch now false event)
    simp only [Chord.call] at hc
    cases ho : st.onKeyswitchEvent P now false event with
    | error f => rw [ho] at hc; cases hc
    | ok o =>
      rw [ho] at hc
      simp only [Except.ok.injEq, Prod.mk.injEq] at hc
      obtain ⟨rfl, -⟩ := hc
      refine ⟨o, rfl, ?_⟩
      rw [Ne, Chord.buffer_eq_nil_iff hI'.2.1]
      exact Chord.nonempty_iff_abort hI now event o ho

/-- C19, on the table `{4,5} -> 27`, `{4,5,6} -> 28` from the empty example buffer: after the
key-downs of the keys 4 and 5 the run has returned with a non-empty buffer on which
`isChordStrictSubset` holds. -/
theorem reachable_buffer_is_strict_subset_witness :
    ∃ st out, Chord.run examplePlatform (exampleState (encodeDefs subsetDefs) [])
        [.keyswitch 1000 false (press 4 1), .keyswitch 1001 false (press 5 2)] = .ok (st, out)
      ∧ st.buffer = [press 4 1, press 5 2] ∧ st.isChordStrictSubset = .ok true := by
  obtain ⟨st, out, hrun, hw, -⟩ := reachable_buffer_is_strict_subset examplePlatform
    (exampleState (encodeDefs subsetDefs) []) subsetDefs ⟨by decide, rfl, rfl, by decide⟩ rfl
    (by decide) (by decide)
    [.keyswitch 1000 false (press 4 1), .keyswitch 1001 false (press 5 2)]
  have hrun' : Chord.run examplePlatform (exampleState (encodeDefs subsetDefs) [])
      [.keyswitch 1000 false (press 4 1), .keyswitch 1001 false (press 5 2)]
      = .ok ({ exampleState (encodeDefs subsetDefs) [press 4 1, press 5 2] with
                start_time_ := 1001, prior_keypress_timestamp_ := 1000 }, []) := rfl
  rw [hrun'] at hrun
  simp only [Except.ok.injEq, Prod.mk.injEq] at hrun
  obtain ⟨rfl, rfl⟩ := hrun
  refine ⟨_, _, hrun', rfl, ?_⟩
  rcases hw with h | h
  · cases h
  · exact h.1

/-! ## The loop of inChord -/

/-- C20. On a well-formed table, at the start `c` of a definition, `chordSize` returns the
number of its trigger keys and `inChord(c, k)` returns (it neither runs forever nor reads
outside the table, although its loop condition tests the start index) and answers true exactly
when `k` is one of the trigger keys of that definition: false for `Key_NoKey` and for every key
that is not a trigger of the definition, the output key and the keys of later definitions
included. It reads only the indices `c` to `c + chordSize(c)`: the answer is the same on every
table of the same declared size that agrees on these indices, whatever it holds elsewhere, and
also on the table cut off right after index `c + chordSize(c)`, where any further read would be
out of bounds. -/
theorem inChord_at_definition (s : Chord) (ds : List ChordDef) (hT : s.TableIs ds) (j : Nat)
    (d : ChordDef) (hj : ds.get? j = some d) (k : Key) :
    s.chordSize (defStart ds j) = .ok d.triggers.length
    ∧ s.inChord (defStart ds j) k = .ok (decide (k ∈ d.triggers))
    ∧ s.inChord (defStart ds j) Key_NoKey = .ok false
    ∧ (k ∉ d.triggers → s.inChord (defStart ds j) k = .ok false)
    ∧ (∀ s' : Chord, s'.chord_defs_size_ = s.chord_defs_size_ →
        (∀ i, defStart ds j ≤ i → i ≤ defStart ds j + d.triggers.length →
          s'.chord_defs_.get? i = s.chord_defs_.get? i) →
        s'.inChord (defStart ds j) k = s.inChord (defStart ds j) k)
    ∧ ({ s with chord_defs_ := s.chord_defs_.take (defStart ds j + d.triggers.length + 1) }
        : Chord).inChord (defStart ds j) k = .ok (decide (k ∈ d.triggers)) := by
  obtain ⟨hwf, henc, hsz, hlen⟩ := hT
  have hat : s.DefAt (defStart ds j) d := Chord.defAt_defStart henc hj
  have hw : d.WellFormed := hwf d (List.get?_mem hj)
  have hin : ∀ k', s.inChord (defStart ds j) k' = .ok (decide (k' ∈ d.triggers)) :=
    fun k' => Chord.inChord_defAt hat hw hsz hlen k'
  have hagree : ∀ s' : Chord, s'.chord_defs_size_ = s.chord_defs_size_ →
      (∀ i, defStart ds j ≤ i → i ≤ defStart ds j + d.triggers.length →
        s'.chord_defs_.get? i = s.chord_defs_.get? i) →
      s'.inChord (defStart ds j) k = s.inChord (defStart ds j) k := by
    intro s' hsz' hag
    have hb := hat.bound
    obtain ⟨rest, hdrop⟩ := hat
    have h1 := List.drop_eq_take_append_of_agree s.chord_defs_ s'.chord_defs_ (defStart ds j)
      (d.triggers.length + 1) (fun i h1 h2 => by
        have := hag i h1 (by omega)
        simpa [List.get?_eq_getElem?] using this)
    have h2 : (s.chord_defs_.drop (defStart ds j)).take (d.triggers.length + 1)
        = d.triggers ++ [Key_NoKey] := by
      rw [hdrop]
      rw [List.take_append_eq_append_take]
      simp
    rw [h2] at h1
    rw [hin k]
    exact s'.inChordLoop_run_bounded (defStart ds j) k (by rw [hsz', hsz]; omega) d.triggers
      (s'.chord_defs_.drop (defStart ds j + (d.triggers.length + 1))) (defStart ds j) loopFuel
      (by rw [h1]; simp) hw.2 (by unfold loopFuel; omega) (by omega)
  refine ⟨Chord.chordSize_defAt hat hw hsz hlen, hin k, ?_, ?_, hagree, ?_⟩
  · rw [hin Key_NoKey]
    simp [hw.2]
  · intro hk
    rw [hin k]
    simp [hk]
  · rw [← hin k]
    apply hagree
    · rfl
    · intro i _ h2
      show (s.chord_defs_.take (defStart ds j + d.triggers.length + 1)).get? i = _
      simp only [List.get?_eq_getElem?, List.getElem?_take]
      rw [if_pos (by omega)]

/-- C20, at the second definition of `{4,5} -> 27`, `{4,5,6} -> 28`, which starts at index 4:
the trigger key 6 is found, and the output key 28 is not. -/
theorem inChord_at_definition_witness :
    (exampleState (encodeDefs subsetDefs) []).inChord 4 6 = .ok true
    ∧ (exampleState (encodeDefs subsetDefs) []).inChord 4 28 = .ok false :=
  ⟨(inChord_at_definition (exampleState (encodeDefs subsetDefs) []) subsetDefs
      ⟨by decide, rfl, rfl, by decide⟩ 1 ⟨[4, 5, 6], 28⟩ rfl 6).2.1,
    (inChord_at_definition (exampleState (encodeDefs subsetDefs) []) subsetDefs
      ⟨by decide, rfl, rfl, by decide⟩ 1 ⟨[4, 5, 6], 28⟩ rfl 28).2.2.2.1 (by decide)⟩
